import Mathlib

/-!
# Verification of `HashMap` (src/hash_map.cpp)

A shallow embedding of the open-addressing, insertion-ordered hash map of
`src/hash_map.cpp`, followed by theorems about it.

Modelling conventions.

* `size_t` counters (`size_`, `num_elements_`, slot indices, hash values) are natural
  numbers.  The only place where the source can wrap, the decrement `--num_elements_`
  in `erase(size_t)`, wraps explicitly to `2 ^ 64 - 1`.
* The sentinel `kEnd_` (the largest `size_t`, never a valid slot index) is `none` in a
  link field of type `Option Nat`.
* `std::vector<Cell*> table_` is a list of optional cells: `none` is `nullptr`.
* Every operation returns an `Option`: `none` stands for undefined behaviour of the C++
  program (an out-of-bounds `table_[i]`, a null-pointer dereference, `% 0`) or for a loop
  that does not terminate.
* `TableSize` multiplies by the `double` constant `1.6` and truncates; for the sizes a
  program can allocate this is `size_ * 8 / 5`.
-/

namespace Cpp

/-- The sentinel `kEnd_` of the source: no slot. -/
def kEnd_ : Option Nat := none

/-- The `struct Cell`: the stored pair and the two links of the insertion-order list. -/
structure Cell (K V : Type) where
  image : K × V
  prev : Option Nat
  next : Option Nat

/-- The accessor `Cell::key()`. -/
def Cell.key {K V : Type} (c : Cell K V) : K := c.image.1

/-- The accessor `Cell::value()`. -/
def Cell.value {K V : Type} (c : Cell K V) : V := c.image.2

/-- The data members of `class HashMap`. -/
structure HashMap (K V : Type) where
  size_ : Nat
  num_elements_ : Nat
  head_ : Option Nat
  tail_ : Option Nat
  table_ : List (Option (Cell K V))
  hasher_ : K → Nat

/-- The call `table_.resize(n)` of `std::vector`: truncate, or pad with null pointers. -/
def resize {K V : Type} (t : List (Option (Cell K V))) (n : Nat) : List (Option (Cell K V)) :=
  t.take n ++ List.replicate (n - t.length) none

/-- The function `TableSize`: `size_ * kMult_` with `kMult_ = 1.6` in `double`, truncated to
`size_t`; below `2 ^ 50` this is `size_ * 8 / 5` rounded down. -/
def TableSize (size_ : Nat) : Nat := size_ * 8 / 5

/-- The assignment `table_[i]->next = v`; undefined when `i` is `kEnd_`, out of bounds or a null slot. -/
def setNext {K V : Type} (t : List (Option (Cell K V))) (i : Option Nat) (v : Option Nat) :
    Option (List (Option (Cell K V))) :=
  match i with
  | none => none
  | some i =>
    match t[i]? with
    | some (some c) => some (t.set i (some { c with next := v }))
    | _ => none

/-- The assignment `table_[i]->prev = v`; undefined when `i` is `kEnd_`, out of bounds or a null slot. -/
def setPrev {K V : Type} (t : List (Option (Cell K V))) (i : Option Nat) (v : Option Nat) :
    Option (List (Option (Cell K V))) :=
  match i with
  | none => none
  | some i =>
    match t[i]? with
    | some (some c) => some (t.set i (some { c with prev := v }))
    | _ => none

namespace HashMap

variable {K V : Type}

/-- The default constructor `explicit HashMap(Hash hasher)`. -/
def construct (hasher : K → Nat) : HashMap K V :=
  { size_ := 2, num_elements_ := 0, head_ := kEnd_, tail_ := kEnd_,
    table_ := resize [] (TableSize 2), hasher_ := hasher }

/-- The method `size()`. -/
def size (m : HashMap K V) : Nat := m.num_elements_

/-- The method `empty()`. -/
def empty (m : HashMap K V) : Bool := m.num_elements_ == 0

/-- The method `begin()`: the iterator position `head_`. -/
def begin_ (m : HashMap K V) : Option Nat := m.head_

/-- The method `end()`: the iterator position `kEnd_`. -/
def end_ (_m : HashMap K V) : Option Nat := kEnd_

/-- The `while` loop of `GetId`, reading `table_[id]`, `table_[id + 1]`, ...: the first
argument is the part of the table from index `id` on.  Running past the end of the table
is an out-of-bounds read. -/
def probe [DecidableEq K] (key : K) : List (Option (Cell K V)) → Nat → Option Nat
  | [], _ => none
  | none :: _, id => some id
  | some c :: rest, id => if c.key = key then some id else probe key rest (id + 1)

/-- The method `GetId`: home slot `hasher_(key) % size_`, then the linear probe without wrap-around. -/
def GetId [DecidableEq K] (m : HashMap K V) (key : K) : Option Nat :=
  if m.size_ = 0 then none
  else probe key (m.table_.drop (m.hasher_ key % m.size_)) (m.hasher_ key % m.size_)

/-- The private overload `erase(size_t id)`: unlink slot `id` from the insertion-order list and free it. -/
def eraseId (m : HashMap K V) (id : Nat) : Option (HashMap K V) :=
  match m.table_[id]? with
  | some (some c) =>
    let prev_id := c.prev
    let next_id := c.next
    let t := m.table_.set id none
    let linked : Option (HashMap K V) :=
      if m.num_elements_ ≠ 1 then
        if prev_id = kEnd_ then
          (setPrev t next_id kEnd_).map fun t1 => { m with head_ := next_id, table_ := t1 }
        else if next_id = kEnd_ then
          (setNext t prev_id kEnd_).map fun t1 => { m with tail_ := prev_id, table_ := t1 }
        else
          (setNext t prev_id next_id).bind fun t1 =>
            (setPrev t1 next_id prev_id).map fun t2 => { m with table_ := t2 }
      else some { m with table_ := t }
    linked.map fun m1 =>
      let n := if m1.num_elements_ = 0 then 2 ^ 64 - 1 else m1.num_elements_ - 1
      if n = 0 then { m1 with num_elements_ := n, head_ := kEnd_, tail_ := kEnd_ }
      else { m1 with num_elements_ := n }
  | _ => none

/-- The loop of `clear()`: `while (!empty()) erase(head_)`.  Each round lowers
`num_elements_`, so `num_elements_` rounds are enough. -/
def clearLoop : Nat → HashMap K V → Option (HashMap K V)
  | 0, m => if m.empty then some m else none
  | fuel + 1, m =>
    if m.empty then some m
    else
      match m.head_ with
      | none => none
      | some h => (eraseId m h).bind (clearLoop fuel)

/-- The method `clear()`. -/
def clear (m : HashMap K V) : Option (HashMap K V) := clearLoop m.num_elements_ m

/-- The iterator loop `for (it = begin(); it != end(); ++it) images.push_back(*it)`,
from position `it`.  A list without a cycle visits each slot at most once, so with as
many rounds as the table has slots `none` means a bad dereference or a cycle. -/
def collect (t : List (Option (Cell K V))) : Nat → Option Nat → Option (List (K × V))
  | _, none => some []
  | 0, some _ => none
  | fuel + 1, some i =>
    match t[i]? with
    | some (some c) => (collect t fuel c.next).map fun l => c.image :: l
    | _ => none

/-- The sequence of pairs seen when iterating from `begin()` to `end()`. -/
def images (m : HashMap K V) : Option (List (K × V)) :=
  collect m.table_ m.table_.length m.head_

/-- Lines 277-285 of `insert(const ConstImageType&, size_t)`: store the new cell at `id`
and link it at the tail of the insertion-order list. -/
def link (m : HashMap K V) (image : K × V) (id : Nat) : Option (HashMap K V) :=
  if id < m.table_.length then
    let t := m.table_.set id (some { image := image, prev := kEnd_, next := kEnd_ })
    if m.num_elements_ = 0 then
      some { m with table_ := t, head_ := some id, tail_ := some id,
                    num_elements_ := m.num_elements_ + 1 }
    else
      (setNext t m.tail_ (some id)).bind fun t1 =>
        (setPrev t1 (some id) m.tail_).map fun t2 =>
          { m with table_ := t2, tail_ := some id, num_elements_ := m.num_elements_ + 1 }
  else none

/-- The method `Rebuild()`, over the `insert` it calls back into. -/
def RebuildWith (ins : HashMap K V → K × V → Option (HashMap K V)) (m : HashMap K V) :
    Option (HashMap K V) :=
  (images m).bind fun imgs =>
    (clear m).bind fun m1 =>
      let m2 := { m1 with size_ := m1.size_ * 2 }
      let m3 := { m2 with table_ := resize m2.table_ (TableSize m2.size_) }
      imgs.foldlM ins m3

/-- The private overload `insert(const ConstImageType&, size_t)`, over the `insert` that
`Rebuild` calls. -/
def insertIdWith (ins : HashMap K V → K × V → Option (HashMap K V)) (m : HashMap K V)
    (image : K × V) (id : Nat) : Option (HashMap K V) :=
  (link m image id).bind fun m1 =>
    if m1.num_elements_ * 2 > m1.size_ then RebuildWith ins m1 else some m1

/-- The method `insert(const ImageType&)` with a bound on the depth of the recursion
`insert → insert(image, id) → Rebuild → insert`. -/
def insertFuel [DecidableEq K] : Nat → HashMap K V → K × V → Option (HashMap K V)
  | 0, _, _ => none
  | fuel + 1, m, image =>
    match GetId m image.1 with
    | none => none
    | some id =>
      match m.table_[id]? with
      | none => none
      | some (some _) => some m
      | some none => insertIdWith (insertFuel fuel) m image id

/-- The method `insert(const ImageType&)`.  In a reachable state a rebuild never triggers
another one, so depth 2 is enough there (`insertFuel_absent_grow`); more fuel never changes
a result (`insertFuel_mono`). -/
def insert [DecidableEq K] (m : HashMap K V) (image : K × V) : Option (HashMap K V) :=
  insertFuel (m.table_.length + 2) m image

/-- The private overload `insert(const ConstImageType&, size_t)`. -/
def insertId [DecidableEq K] (m : HashMap K V) (image : K × V) (id : Nat) :
    Option (HashMap K V) :=
  insertIdWith (insertFuel (m.table_.length + 1)) m image id

/-- The method `Rebuild()`. -/
def Rebuild [DecidableEq K] (m : HashMap K V) : Option (HashMap K V) :=
  RebuildWith (insertFuel (m.table_.length + 1)) m

/-- The first loop of `erase(const KeyType&)`:
`for (; table_[id + 1] != nullptr; ++id) { images.push_back(...); erase(id + 1); }`.
`id` grows by one each round and must stay inside the table. -/
def eraseLoop : Nat → HashMap K V → Nat → List (K × V) → Option (HashMap K V × List (K × V))
  | 0, _, _, _ => none
  | fuel + 1, m, id, imgs =>
    match m.table_[id + 1]? with
    | none => none
    | some none => some (m, imgs)
    | some (some c) => (eraseId m (id + 1)).bind fun m1 => eraseLoop fuel m1 (id + 1) (imgs ++ [c.image])

/-- The method `erase(const KeyType&)`. -/
def erase [DecidableEq K] (m : HashMap K V) (key : K) : Option (HashMap K V) :=
  match GetId m key with
  | none => none
  | some id =>
    match m.table_[id]? with
    | none => none
    | some none => some m
    | some (some _) =>
      (eraseId m id).bind fun m1 =>
        (eraseLoop m1.table_.length m1 id []).bind fun r =>
          r.2.foldlM insert r.1

/-- The method `find`: the iterator position of `key`, `kEnd_` (the end iterator) when absent. -/
def find [DecidableEq K] (m : HashMap K V) (key : K) : Option (Option Nat) :=
  match GetId m key with
  | none => none
  | some id =>
    match m.table_[id]? with
    | none => none
    | some none => some kEnd_
    | some (some _) => some (some id)

/-- The method `at`: the value of `key`, or the exception `std::out_of_range`. -/
def at_ [DecidableEq K] (m : HashMap K V) (key : K) : Option (Except String V) :=
  match GetId m key with
  | none => none
  | some id =>
    match m.table_[id]? with
    | none => none
    | some none => some (Except.error "key is not found")
    | some (some c) => some (Except.ok c.value)

/-- The method `operator[]`: the map after the call and the value the returned reference points to. -/
def index [DecidableEq K] [Inhabited V] (m : HashMap K V) (key : K) :
    Option (HashMap K V × V) :=
  (insert m (key, default)).bind fun m1 =>
    match GetId m1 key with
    | none => none
    | some id =>
      match m1.table_[id]? with
      | some (some c) => some (m1, c.value)
      | _ => none

/-- Lines 161-164 of `operator=`: the destination after `clear()`, with the hash function
and `size_` of `other` and the table resized, just before the loop of insertions. -/
def assignStart (this other : HashMap K V) : Option (HashMap K V) :=
  (clear this).map fun m1 =>
    let m2 := { m1 with hasher_ := other.hasher_, size_ := other.size_ }
    { m2 with table_ := resize m2.table_ (TableSize m2.size_) }

/-- The method `operator=`: copy assignment of `other` to `this`. -/
def assign [DecidableEq K] (this other : HashMap K V) : Option (HashMap K V) :=
  (images other).bind fun imgs =>
    (assignStart this other).bind fun m3 => imgs.foldlM insert m3

/-- The copy constructor `HashMap(const HashMap&)`: `*this = other` on an object whose members have their
default initialisers; `size_` has none, so it starts with an arbitrary value `garbage`. -/
def copyConstruct [DecidableEq K] (garbage : Nat) (other : HashMap K V) : Option (HashMap K V) :=
  assign { size_ := garbage, num_elements_ := 0, head_ := kEnd_, tail_ := kEnd_,
           table_ := [], hasher_ := other.hasher_ } other

/-- The constructor `HashMap(std::initializer_list<ImageType>, Hash)`. -/
def constructList [DecidableEq K] (l : List (K × V)) (hasher : K → Nat) : Option (HashMap K V) :=
  l.foldlM insert
    { size_ := l.length * 2, num_elements_ := 0, head_ := kEnd_, tail_ := kEnd_,
      table_ := resize [] (TableSize (l.length * 2)), hasher_ := hasher }

end HashMap

end Cpp

/-! ## Invariants and specification-side definitions -/

namespace Cpp

/-- The slot that follows slot `i` in the insertion-order list `ix`. -/
def nextOf : List Nat → Nat → Option Nat
  | a :: b :: r, i => if a = i then some b else nextOf (b :: r) i
  | _, _ => none

/-- The slot that precedes slot `i` in the insertion-order list `ix`. -/
def prevOf : List Nat → Nat → Option Nat
  | a :: b :: r, i => if b = i then some a else prevOf (b :: r) i
  | _, _ => none

namespace HashMap

variable {K V : Type}

/-- The layout of the table: which pair is stored in which slot, links forgotten. -/
def slots (m : HashMap K V) : List (Option (K × V)) :=
  m.table_.map (Option.map Cell.image)

/-- The home slot of a key, `hasher_(key) % size_`. -/
def home (m : HashMap K V) (key : K) : Nat := m.hasher_ key % m.size_

/-- The pairs stored in the slots `ix`, in that order. -/
def seqOf (σ : List (Option (K × V))) (ix : List Nat) : List (K × V) :=
  ix.filterMap fun i => (σ[i]?).join

/-- The insertion-order list of `m` is well formed and visits the slots `ix` in order. -/
structure Chain (m : HashMap K V) (ix : List Nat) : Prop where
  nodup : ix.Nodup
  cover : ∀ i, i ∈ ix ↔ ∃ c, m.table_[i]? = some (some c)
  head : m.head_ = ix.head?
  tail : m.tail_ = ix.getLast?
  num : m.num_elements_ = ix.length
  links : ∀ i c, m.table_[i]? = some (some c) → c.next = nextOf ix i ∧ c.prev = prevOf ix i

/-- The linear-probe invariant and the uniqueness of keys, for a layout `σ`. -/
structure Layout (hasher : K → Nat) (size_ : Nat) (σ : List (Option (K × V))) : Prop where
  reach : ∀ i p, σ[i]? = some (some p) →
    hasher p.1 % size_ ≤ i ∧ ∀ j, hasher p.1 % size_ ≤ j → j ≤ i → ∃ q, σ[j]? = some (some q)
  uniq : ∀ (i j : Nat) (p q : K × V), σ[i]? = some (some p) → σ[j]? = some (some q) → p.1 = q.1 → i = j

/-- The invariant of the container between two public operations. -/
structure Inv (m : HashMap K V) (ix : List Nat) : Prop where
  chain : Chain m ix
  layout : Layout m.hasher_ m.size_ (slots m)
  pos : 2 ≤ m.size_
  len : m.table_.length = TableSize m.size_
  load : 2 * m.num_elements_ ≤ m.size_

/-- The states reachable from a default-constructed container by `insert`, `operator[]`,
`erase` and `clear`. -/
inductive Reachable [DecidableEq K] [Inhabited V] : HashMap K V → Prop
  | construct (hasher : K → Nat) : Reachable (construct hasher)
  | insert {m m1 : HashMap K V} (image : K × V) :
      Reachable m → insert m image = some m1 → Reachable m1
  | index {m m1 : HashMap K V} (key : K) (v : V) :
      Reachable m → index m key = some (m1, v) → Reachable m1
  | erase {m m1 : HashMap K V} (key : K) :
      Reachable m → erase m key = some m1 → Reachable m1
  | clear {m m1 : HashMap K V} :
      Reachable m → clear m = some m1 → Reachable m1

end HashMap

end Cpp

namespace Cpp

/-- Slot `j` lies outside the range of slots `a`, ..., `b - 1`. -/
def outside (a b j : Nat) : Bool := !(decide (a ≤ j) && decide (j < b))

namespace HashMap

variable {K V : Type}

/-- The container `m` satisfies the invariant and iterates the sequence `s`. -/
def Rep (m : HashMap K V) (s : List (K × V)) : Prop :=
  ∃ ix, Inv m ix ∧ seqOf (slots m) ix = s

end HashMap

end Cpp

namespace Cpp

namespace HashMap

variable {K V : Type}

/-- The pairs of `l` with every later pair of an already seen key dropped: each distinct
key once, in the order of the first occurrences, with the first-occurrence value. -/
def firstOccurrences [DecidableEq K] : List (K × V) → List (K × V)
  | [] => []
  | p :: l => p :: (firstOccurrences l).filter fun q => decide (q.1 ≠ p.1)

/-- The entries stored in the slots `i + 1`, `i + 2`, ... up to but excluding the first
empty slot, in increasing slot order. -/
def runAfter (m : HashMap K V) (i : Nat) : List (K × V) :=
  (((slots m).drop (i + 1)).takeWhile Option.isSome).filterMap id

end HashMap

end Cpp

namespace Cpp

/-- A container with three entries, inserted in the order 1, 2, 3: keys 1 and 2 collide
at home slot 0, key 3 lives at slot 5. -/
def exampleMap : HashMap Nat Nat :=
  { size_ := 8, num_elements_ := 3, head_ := some 0, tail_ := some 5,
    table_ := [some ⟨(1, 10), none, some 1⟩, some ⟨(2, 20), some 0, some 5⟩, none, none, none,
      some ⟨(3, 30), some 1, none⟩, none, none, none, none, none, none],
    hasher_ := fun k => if k = 3 then 5 else 0 }

end Cpp

/-! ## Further operations and specification-side definitions -/

namespace Cpp

namespace HashMap

variable {K V : Type}

/-- The slots visited by the iterator loop `for (it = begin(); it != end(); ++it)` from
position `it`, following the `next` links (`operator++`, lines 60-63). -/
def visit (t : List (Option (Cell K V))) : Nat → Option Nat → Option (List Nat)
  | _, none => some []
  | 0, some _ => none
  | fuel + 1, some i =>
    match t[i]? with
    | some (some c) => (visit t fuel c.next).map fun l => i :: l
    | _ => none

/-- The slots visited when iterating from `begin()` to `end()`, in order. -/
def slotsVisited (m : HashMap K V) : Option (List Nat) :=
  visit m.table_ m.table_.length m.head_

/-- The loop `for (it = first; it != last; ++it)` of the range constructors over the
container `src` the two iterators point into: the pairs from `first` up to, excluding,
`last`.  Advancing the end iterator reads `table_[kEnd_]`, which is undefined. -/
def collectRange (t : List (Option (Cell K V))) : Nat → Option Nat → Option Nat →
    Option (List (K × V))
  | 0, first, last => if first = last then some [] else none
  | fuel + 1, first, last =>
    if first = last then some []
    else
      match first with
      | none => none
      | some i =>
        match t[i]? with
        | some (some c) => (collectRange t fuel c.next last).map fun l => c.image :: l
        | _ => none

/-- The range constructors `HashMap(iterator first, iterator last, Hash hasher)` and
`HashMap(const_iterator first, const_iterator last, Hash hasher)`, for iterators into the
container `src`: the first loop counts from 1, the second inserts. -/
def constructRange [DecidableEq K] (src : HashMap K V) (first last : Option Nat)
    (hasher : K → Nat) : Option (HashMap K V) :=
  (collectRange src.table_ src.table_.length first last).bind fun imgs =>
    imgs.foldlM insert
      { size_ := (imgs.length + 1) * 2, num_elements_ := 0, head_ := kEnd_, tail_ := kEnd_,
        table_ := resize [] (TableSize ((imgs.length + 1) * 2)), hasher_ := hasher }

/-- The loop of the standard backward-shift deletion without wrap-around, on a layout:
`hole` is the current hole and `j` the slot looked at.  The walk ends at the first empty
slot; the entry at `j` moves into the hole, and `j` becomes the hole, exactly when its home
index is at most the hole. -/
def shiftLoop (hasher : K → Nat) (size_ : Nat) :
    Nat → List (Option (K × V)) → Nat → Nat → List (Option (K × V))
  | 0, σ, _, _ => σ
  | fuel + 1, σ, hole, j =>
    match σ[j]? with
    | some (some p) =>
      if hasher p.1 % size_ ≤ hole then
        shiftLoop hasher size_ fuel ((σ.set hole (some p)).set j none) j (j + 1)
      else shiftLoop hasher size_ fuel σ hole (j + 1)
    | _ => σ

/-- Standard backward-shift deletion of the entry at slot `i` of the layout `σ`. -/
def backwardShift (hasher : K → Nat) (size_ : Nat) (σ : List (Option (K × V))) (i : Nat) :
    List (Option (K × V)) :=
  shiftLoop hasher size_ σ.length (σ.set i none) i (i + 1)

end HashMap

/-- A container with one entry, at the point where the next insertion rebuilds. -/
def exampleOne : HashMap Nat Nat :=
  { size_ := 2, num_elements_ := 1, head_ := some 1, tail_ := some 1,
    table_ := [none, some ⟨(1, 10), none, none⟩, none], hasher_ := fun _ => 1 }

end Cpp

namespace Cpp

/-- The state inside `insert(image, id)` of the pair (2, 20) into `exampleOne`, after
`++num_elements_` and just before the call of `Rebuild()`. -/
def exampleTransient : HashMap Nat Nat :=
  { size_ := 2, num_elements_ := 2, head_ := some 1, tail_ := some 2,
    table_ := [none, some ⟨(1, 10), none, some 2⟩, some ⟨(2, 20), some 1, none⟩],
    hasher_ := fun _ => 1 }

end Cpp

namespace Cpp

/-- A container with two entries and `size_` 4, every key at home slot 3: the next
insertion of a new key rebuilds. -/
def exampleFour : HashMap Nat Nat :=
  { size_ := 4, num_elements_ := 2, head_ := some 3, tail_ := some 4,
    table_ := [none, none, none, some ⟨(1, 10), none, some 4⟩, some ⟨(2, 20), some 3, none⟩,
      none],
    hasher_ := fun _ => 3 }

/-- A container with four entries and `size_` 8, every key at home slot 7: the next
insertion of a new key rebuilds. -/
def exampleEight : HashMap Nat Nat :=
  { size_ := 8, num_elements_ := 4, head_ := some 7, tail_ := some 10,
    table_ := List.replicate 7 none ++
      [some ⟨(1, 10), none, some 8⟩, some ⟨(2, 20), some 7, some 9⟩,
       some ⟨(3, 30), some 8, some 10⟩, some ⟨(4, 40), some 9, none⟩, none],
    hasher_ := fun _ => 7 }

/-- A container with eight entries and `size_` 16, every key at home slot 15: the next
insertion of a new key rebuilds. -/
def exampleSixteen : HashMap Nat Nat :=
  { size_ := 16, num_elements_ := 8, head_ := some 15, tail_ := some 22,
    table_ := List.replicate 15 none ++
      [some ⟨(1, 10), none, some 16⟩, some ⟨(2, 20), some 15, some 17⟩,
       some ⟨(3, 30), some 16, some 18⟩, some ⟨(4, 40), some 17, some 19⟩,
       some ⟨(5, 50), some 18, some 20⟩, some ⟨(6, 60), some 19, some 21⟩,
       some ⟨(7, 70), some 20, some 22⟩, some ⟨(8, 80), some 21, none⟩, none, none],
    hasher_ := fun _ => 15 }

end Cpp

/-! ## The insertion-order list as a list of slots -/

namespace Cpp

theorem nextOf_cons (a : Nat) (r : List Nat) (i : Nat) :
    nextOf (a :: r) i = if a = i then r.head? else nextOf r i := by
  cases r with
  | nil => simp [nextOf]
  | cons b r => simp [nextOf]

theorem prevOf_cons (a : Nat) (r : List Nat) (i : Nat) :
    prevOf (a :: r) i = if r.head? = some i then some a else prevOf r i := by
  cases r with
  | nil => simp [prevOf]
  | cons b r => simp [prevOf]

theorem nextOf_nil (i : Nat) : nextOf [] i = none := by simp [nextOf]

theorem prevOf_nil (i : Nat) : prevOf [] i = none := by simp [prevOf]

theorem mem_of_head? {r : List Nat} {i : Nat} (h : r.head? = some i) : i ∈ r := by
  cases r with
  | nil => simp at h
  | cons b r => simp at h; simp [h]

theorem nextOf_mem {ix : List Nat} {i n : Nat} (h : nextOf ix i = some n) : i ∈ ix ∧ n ∈ ix := by
  induction ix with
  | nil => simp [nextOf_nil] at h
  | cons a r ih =>
    rw [nextOf_cons] at h
    split at h
    · subst_vars; exact ⟨by simp, List.mem_cons_of_mem _ (mem_of_head? h)⟩
    · have := ih h; exact ⟨List.mem_cons_of_mem _ this.1, List.mem_cons_of_mem _ this.2⟩

theorem prevOf_mem {ix : List Nat} {i p : Nat} (h : prevOf ix i = some p) : i ∈ ix ∧ p ∈ ix := by
  induction ix with
  | nil => simp [prevOf_nil] at h
  | cons a r ih =>
    rw [prevOf_cons] at h
    split at h
    · rename_i hh
      simp at h; subst h; exact ⟨List.mem_cons_of_mem _ (mem_of_head? hh), by simp⟩
    · have := ih h; exact ⟨List.mem_cons_of_mem _ this.1, List.mem_cons_of_mem _ this.2⟩

theorem nextOf_not_mem {ix : List Nat} {i : Nat} (h : i ∉ ix) : nextOf ix i = none := by
  cases hn : nextOf ix i with
  | none => rfl
  | some n => exact absurd (nextOf_mem hn).1 h

theorem prevOf_not_mem {ix : List Nat} {i : Nat} (h : i ∉ ix) : prevOf ix i = none := by
  cases hn : prevOf ix i with
  | none => rfl
  | some n => exact absurd (prevOf_mem hn).1 h

theorem prevOf_head {ix : List Nat} {i : Nat} (hnd : ix.Nodup) (h : ix.head? = some i) :
    prevOf ix i = none := by
  cases ix with
  | nil => simp at h
  | cons a r =>
    simp at h; subst h
    have ha : a ∉ r := (List.nodup_cons.1 hnd).1
    rw [prevOf_cons, if_neg (fun hh => ha (mem_of_head? hh)), prevOf_not_mem ha]

theorem head_of_prevOf {ix : List Nat} {i : Nat} (hi : i ∈ ix) (h : prevOf ix i = none) :
    ix.head? = some i := by
  induction ix with
  | nil => simp at hi
  | cons a r ih =>
    by_cases hai : a = i
    · simp [hai]
    · have hir : i ∈ r := by simpa [Ne.symm hai] using hi
      rw [prevOf_cons] at h
      split at h
      · simp at h
      · rename_i hh; exact absurd (ih hir h) hh

theorem nextOf_last {ix : List Nat} {i : Nat} (hnd : ix.Nodup) (h : ix.getLast? = some i) :
    nextOf ix i = none := by
  induction ix with
  | nil => simp at h
  | cons a r ih =>
    rw [nextOf_cons]
    cases r with
    | nil => simp [nextOf_nil]
    | cons b r =>
      have h2 : (b :: r).getLast? = some i := by simpa [List.getLast?_cons_cons] using h
      have hir : i ∈ b :: r := List.mem_of_getLast?_eq_some h2
      have ha : a ∉ b :: r := (List.nodup_cons.1 hnd).1
      rw [if_neg (fun hh => ha (by rw [hh]; exact hir))]
      exact ih (List.nodup_cons.1 hnd).2 h2

theorem last_of_nextOf {ix : List Nat} {i : Nat} (hi : i ∈ ix) (h : nextOf ix i = none) :
    ix.getLast? = some i := by
  induction ix with
  | nil => simp at hi
  | cons a r ih =>
    rw [nextOf_cons] at h
    cases r with
    | nil => simpa [eq_comm] using hi
    | cons b r =>
      rw [List.getLast?_cons_cons]
      split at h
      · simp at h
      · rename_i hai
        have hir : i ∈ b :: r := by
          rcases List.mem_cons.1 hi with h1 | h1
          · exact absurd h1.symm hai
          · exact h1
        exact ih hir h

theorem nextOf_iff_prevOf {ix : List Nat} (hnd : ix.Nodup) (i j : Nat) :
    nextOf ix j = some i ↔ prevOf ix i = some j := by
  induction ix with
  | nil => simp [nextOf_nil, prevOf_nil]
  | cons a r ih =>
    have ha : a ∉ r := (List.nodup_cons.1 hnd).1
    have hr : r.Nodup := (List.nodup_cons.1 hnd).2
    rw [nextOf_cons, prevOf_cons]
    by_cases haj : a = j
    · subst haj
      by_cases hh : r.head? = some i
      · simp [hh]
      · simp only [if_true, hh, if_false, false_iff]
        intro hp
        exact ha (prevOf_mem hp).2
    · simp only [haj, if_false]
      by_cases hh : r.head? = some i
      · simp only [hh, if_true, Option.some.injEq, haj, iff_false]
        intro hn
        have := (ih hr).1 hn
        rw [prevOf_head hr hh] at this
        simp at this
      · simp only [hh, if_false]
        exact ih hr

theorem head?_erase (ix : List Nat) (i : Nat) :
    (ix.erase i).head? = if ix.head? = some i then nextOf ix i else ix.head? := by
  cases ix with
  | nil => simp [nextOf_nil]
  | cons a r =>
    by_cases hai : a = i
    · subst hai; simp [nextOf_cons]
    · simp [List.erase_cons_tail, hai]

theorem getLast?_erase {ix : List Nat} (hnd : ix.Nodup) (i : Nat) :
    (ix.erase i).getLast? = if ix.getLast? = some i then prevOf ix i else ix.getLast? := by
  induction ix with
  | nil => simp [prevOf_nil]
  | cons a r ih =>
    have ha : a ∉ r := (List.nodup_cons.1 hnd).1
    have hr : r.Nodup := (List.nodup_cons.1 hnd).2
    by_cases hai : a = i
    · subst hai
      simp only [List.erase_cons_head]
      cases r with
      | nil => simp [prevOf_cons, prevOf_nil]
      | cons b r =>
        rw [List.getLast?_cons_cons]
        have : (b :: r).getLast? ≠ some a := fun h => ha (List.mem_of_getLast?_eq_some h)
        simp [this]
    · have hne : ¬ (a == i) = true := by simpa using hai
      rw [List.erase_cons_tail hne, prevOf_cons]
      cases r with
      | nil => simp [hai, prevOf_nil]
      | cons b r =>
        rw [List.getLast?_cons_cons]
        have ih2 := ih hr
        by_cases hbi : b = i
        · subst hbi
          simp only [List.erase_cons_head, List.head?_cons, if_true] at ih2 ⊢
          cases r with
          | nil => simp
          | cons c r =>
            rw [List.getLast?_cons_cons] at ih2 ⊢
            rw [List.getLast?_cons_cons]
            have hb : b ∉ c :: r := (List.nodup_cons.1 hr).1
            have : (c :: r).getLast? ≠ some b := fun h => hb (List.mem_of_getLast?_eq_some h)
            simp [this]
        · have hne2 : ¬ (b == i) = true := by simpa using hbi
          rw [List.erase_cons_tail hne2] at ih2 ⊢
          rw [List.getLast?_cons_cons, ih2]
          simp [hbi]

theorem nextOf_erase {ix : List Nat} (hnd : ix.Nodup) {i j : Nat} (hji : j ≠ i) :
    nextOf (ix.erase i) j = if nextOf ix j = some i then nextOf ix i else nextOf ix j := by
  induction ix with
  | nil => simp [nextOf_nil]
  | cons a r ih =>
    have ha : a ∉ r := (List.nodup_cons.1 hnd).1
    have hr : r.Nodup := (List.nodup_cons.1 hnd).2
    by_cases hai : a = i
    · subst hai
      have h1 : nextOf r j ≠ some a := fun h => ha (nextOf_mem h).2
      simp [nextOf_cons, Ne.symm hji, h1]
    · have hne : ¬ (a == i) = true := by simpa using hai
      rw [List.erase_cons_tail hne]
      simp only [nextOf_cons, hai, if_false]
      by_cases haj : a = j
      · simp only [haj, if_true]
        exact head?_erase r i
      · simp only [haj, if_false]
        exact ih hr

theorem prevOf_erase {ix : List Nat} (hnd : ix.Nodup) {i j : Nat} (hji : j ≠ i) :
    prevOf (ix.erase i) j = if prevOf ix j = some i then prevOf ix i else prevOf ix j := by
  induction ix with
  | nil => simp [prevOf_nil]
  | cons a r ih =>
    have ha : a ∉ r := (List.nodup_cons.1 hnd).1
    have hr : r.Nodup := (List.nodup_cons.1 hnd).2
    by_cases hai : a = i
    · subst hai
      simp only [List.erase_cons_head, prevOf_cons]
      have h0 : r.head? ≠ some a := fun h => ha (mem_of_head? h)
      have h1 : prevOf r a = none := prevOf_not_mem ha
      have h2 : prevOf r j ≠ some a := fun h => ha (prevOf_mem h).2
      by_cases hh : r.head? = some j
      · simp [hh, h0, h1, prevOf_head hr hh, hji]
      · simp [hh, h0, h2]
    · have hne : ¬ (a == i) = true := by simpa using hai
      rw [List.erase_cons_tail hne]
      simp only [prevOf_cons, head?_erase, ih hr]
      have hai2 : ¬ some a = some i := by simpa using hai
      by_cases hh : r.head? = some i
      · have hhj : r.head? ≠ some j := by rw [hh]; simpa using Ne.symm hji
        simp only [hh, if_true, hhj, if_false]
        by_cases hn : nextOf r i = some j
        · simp [hn, (nextOf_iff_prevOf hr j i).1 hn, Ne.symm hji]
        · have : prevOf r j ≠ some i := fun h => hn ((nextOf_iff_prevOf hr j i).2 h)
          simp [hn, this, Ne.symm hji]
      · simp only [hh, if_false]
        by_cases hhj : r.head? = some j
        · simp [hhj, hai2]
        · simp [hhj]

theorem nextOf_append {ix : List Nat} (hnd : ix.Nodup) {a : Nat} (ha : a ∉ ix) (j : Nat) :
    nextOf (ix ++ [a]) j = if ix.getLast? = some j then some a else nextOf ix j := by
  induction ix with
  | nil => simp [nextOf_cons, nextOf_nil]
  | cons b r ih =>
    have hb : b ∉ r := (List.nodup_cons.1 hnd).1
    have hr : r.Nodup := (List.nodup_cons.1 hnd).2
    have har : a ∉ r := fun h => ha (List.mem_cons_of_mem _ h)
    rw [List.cons_append, nextOf_cons, nextOf_cons, ih hr har]
    cases r with
    | nil => by_cases hbj : b = j <;> simp [hbj, nextOf_nil]
    | cons c r =>
      rw [List.getLast?_cons_cons]
      by_cases hbj : b = j
      · subst hbj
        have : (c :: r).getLast? ≠ some b := fun h => hb (List.mem_of_getLast?_eq_some h)
        simp [this]
      · simp [hbj]

theorem prevOf_append {ix : List Nat} {a : Nat} (ha : a ∉ ix) (j : Nat) :
    prevOf (ix ++ [a]) j = if j = a then ix.getLast? else prevOf ix j := by
  induction ix with
  | nil => simp [prevOf_cons, prevOf_nil]
  | cons b r ih =>
    have har : a ∉ r := fun h => ha (List.mem_cons_of_mem _ h)
    rw [List.cons_append, prevOf_cons, prevOf_cons, ih har]
    cases r with
    | nil =>
      by_cases hja : j = a
      · simp [hja]
      · simp [hja, prevOf_nil, Ne.symm hja]
    | cons c r =>
      rw [List.getLast?_cons_cons]
      by_cases hja : j = a
      · subst hja
        have hcj : c ≠ j := fun h => ha (by simp [h])
        have : (c :: r).getLast? ≠ none := by simp
        simp [hcj]
      · simp [hja]

theorem length_one_of_head_last {ix : List Nat} {i : Nat} (hnd : ix.Nodup)
    (hh : ix.head? = some i) (hl : ix.getLast? = some i) : ix.length = 1 := by
  cases ix with
  | nil => simp at hh
  | cons a r =>
    cases r with
    | nil => rfl
    | cons b r =>
      simp at hh; subst hh
      rw [List.getLast?_cons_cons] at hl
      exact absurd (List.mem_of_getLast?_eq_some hl) (List.nodup_cons.1 hnd).1

end Cpp

/-! ## Linking a new cell -/

namespace Cpp

theorem nextOf_ne {ix : List Nat} (hnd : ix.Nodup) {i n : Nat} (h : nextOf ix i = some n) :
    n ≠ i := by
  induction ix with
  | nil => simp [nextOf_nil] at h
  | cons a r ih =>
    have ha : a ∉ r := (List.nodup_cons.1 hnd).1
    rw [nextOf_cons] at h
    split at h
    · rename_i hai
      intro hni
      exact ha (by rw [hai, ← hni]; exact mem_of_head? h)
    · exact ih (List.nodup_cons.1 hnd).2 h

theorem prevOf_ne {ix : List Nat} (hnd : ix.Nodup) {i p : Nat} (h : prevOf ix i = some p) :
    p ≠ i := by
  have := nextOf_ne hnd ((nextOf_iff_prevOf hnd i p).2 h)
  exact fun hh => this hh.symm

theorem prevOf_ne_nextOf {ix : List Nat} (hnd : ix.Nodup) {i p n : Nat}
    (hp : prevOf ix i = some p) (hn : nextOf ix i = some n) : p ≠ n := by
  induction ix with
  | nil => simp [nextOf_nil] at hn
  | cons a r ih =>
    have ha : a ∉ r := (List.nodup_cons.1 hnd).1
    have hr : r.Nodup := (List.nodup_cons.1 hnd).2
    rw [prevOf_cons] at hp
    rw [nextOf_cons] at hn
    split at hp
    · rename_i hh
      simp at hp
      have hai : a ≠ i := fun h => ha (by rw [h]; exact mem_of_head? hh)
      rw [if_neg hai] at hn
      intro hpn
      exact ha (by rw [hp, hpn]; exact (nextOf_mem hn).2)
    · split at hn
      · rename_i hai
        exact absurd (by rw [hai]; exact (prevOf_mem hp).1) ha
      · exact ih hr hp hn

variable {K V : Type}

theorem setNext_some {t : List (Option (Cell K V))} {i : Nat} {c : Cell K V}
    (h : t[i]? = some (some c)) (v : Option Nat) :
    setNext t (some i) v = some (t.set i (some { c with next := v })) := by
  simp [setNext, h]

theorem setPrev_some {t : List (Option (Cell K V))} {i : Nat} {c : Cell K V}
    (h : t[i]? = some (some c)) (v : Option Nat) :
    setPrev t (some i) v = some (t.set i (some { c with prev := v })) := by
  simp [setPrev, h]

theorem lt_length_of_getElem? {α : Type} {l : List α} {i : Nat} {x : α} (h : l[i]? = some x) :
    i < l.length := by
  by_contra hc
  rw [List.getElem?_eq_none (by omega)] at h
  cases h

theorem getElem?_set_eq_of {α : Type} {l : List α} {i : Nat} (x : α) (h : i < l.length) (j : Nat) :
    (l.set i x)[j]? = if j = i then some x else l[j]? := by
  rw [List.getElem?_set]
  by_cases hji : j = i
  · subst hji; simp [h]
  · simp [hji, Ne.symm hji]

namespace HashMap

theorem slots_getElem? (m : HashMap K V) (i : Nat) :
    (slots m)[i]? = (m.table_[i]?).map (Option.map Cell.image) := by
  simp [slots]

theorem slots_length (m : HashMap K V) : (slots m).length = m.table_.length := by
  simp [slots]

theorem occ_iff (m : HashMap K V) (i : Nat) :
    (∃ c, m.table_[i]? = some (some c)) ↔ ∃ p, (slots m)[i]? = some (some p) := by
  rw [slots_getElem?]
  constructor
  · rintro ⟨c, hc⟩; exact ⟨c.image, by simp [hc]⟩
  · rintro ⟨p, hp⟩
    cases h : m.table_[i]? with
    | none => simp [h] at hp
    | some x =>
      cases x with
      | none => simp [h] at hp
      | some c => exact ⟨c, rfl⟩

theorem empty_iff (m : HashMap K V) (i : Nat) :
    m.table_[i]? = some none ↔ (slots m)[i]? = some none := by
  rw [slots_getElem?]
  cases h : m.table_[i]? with
  | none => simp
  | some x => cases x <;> simp

theorem Chain.mem_lt {m : HashMap K V} {ix : List Nat} (hc : Chain m ix) {i : Nat} (hi : i ∈ ix) :
    i < m.table_.length := by
  obtain ⟨c, h⟩ := (hc.cover i).1 hi
  exact lt_length_of_getElem? h

theorem link_first {m : HashMap K V} (image : K × V) {id : Nat} (hlt : id < m.table_.length)
    (hz : m.num_elements_ = 0) :
    link m image id = some { m with
      table_ := m.table_.set id (some { image := image, prev := kEnd_, next := kEnd_ }),
      head_ := some id, tail_ := some id, num_elements_ := m.num_elements_ + 1 } := by
  simp only [link, hlt, hz, if_true]

theorem link_more {m : HashMap K V} (image : K × V) {id tl : Nat} {ct : Cell K V}
    (hlt : id < m.table_.length) (hz : m.num_elements_ ≠ 0) (htl : m.tail_ = some tl)
    (hct : m.table_[tl]? = some (some ct)) (hne : tl ≠ id) :
    link m image id = some { m with
      table_ := ((m.table_.set id (some { image := image, prev := kEnd_, next := kEnd_ })).set tl
        (some { ct with next := some id })).set id (some { image := image, prev := some tl, next := kEnd_ }),
      tail_ := some id, num_elements_ := m.num_elements_ + 1 } := by
  have htllt : tl < m.table_.length := lt_length_of_getElem? hct
  have h1 : (m.table_.set id (some { image := image, prev := kEnd_, next := kEnd_ }))[tl]? = some (some ct) := by
    rw [getElem?_set_eq_of _ hlt, if_neg hne, hct]
  have h2 : ((m.table_.set id (some { image := image, prev := kEnd_, next := kEnd_ })).set tl
      (some { ct with next := some id }))[id]? = some (some { image := image, prev := kEnd_, next := kEnd_ }) := by
    rw [getElem?_set_eq_of _ (by simpa using htllt), if_neg (Ne.symm hne),
      getElem?_set_eq_of _ hlt, if_pos rfl]
  simp only [link, hlt, hz, if_true, if_false, htl, setNext_some h1,
      setPrev_some h2, Option.some_bind, Option.map_some']

theorem link_spec {m : HashMap K V} {ix : List Nat} (hc : Chain m ix) (image : K × V) {id : Nat}
    (hid : m.table_[id]? = some none) :
    ∃ m1, link m image id = some m1 ∧ Chain m1 (ix ++ [id]) ∧
      slots m1 = (slots m).set id (some image) ∧ m1.size_ = m.size_ ∧ m1.hasher_ = m.hasher_ ∧
      m1.table_.length = m.table_.length := by
  have hlt : id < m.table_.length := lt_length_of_getElem? hid
  have hnot : id ∉ ix := by
    intro h
    obtain ⟨c, h2⟩ := (hc.cover id).1 h
    rw [hid] at h2; cases h2
  have hnd : (ix ++ [id]).Nodup := by
    rw [List.nodup_append]
    exact ⟨hc.nodup, List.nodup_singleton _, by simpa using hnot⟩
  by_cases hz : m.num_elements_ = 0
  · have hix : ix = [] := List.length_eq_zero.1 (by rw [← hc.num]; exact hz)
    subst hix
    refine ⟨_, link_first image hlt hz, ?_, ?_, rfl, rfl, by simp⟩
    · refine ⟨hnd, ?_, rfl, rfl, by simp [hz], ?_⟩
      · intro i
        simp only [getElem?_set_eq_of _ hlt]
        by_cases hi : i = id
        · simp [hi]
        · simp only [hi, if_false, List.nil_append, List.mem_singleton, false_iff]
          intro h
          exact absurd ((hc.cover i).2 h) (by simp)
      · intro i c
        simp only [getElem?_set_eq_of _ hlt]
        by_cases hi : i = id
        · simp only [hi, if_true, Option.some.injEq]
          rintro rfl
          simp [nextOf, prevOf, kEnd_]
        · simp only [hi, if_false]
          intro h
          exact absurd ((hc.cover i).2 ⟨c, h⟩) (by simp)
    · apply List.ext_getElem?
      intro j
      rw [slots_getElem?]
      simp only [getElem?_set_eq_of _ hlt, getElem?_set_eq_of _ (show id < (slots m).length by rw [slots_length]; exact hlt)]
      by_cases hj : j = id
      · simp [hj]
      · simp [hj, slots_getElem?]
  · have hne : ix ≠ [] := by
      intro h; apply hz; rw [hc.num, h]; rfl
    obtain ⟨tl, htl⟩ : ∃ tl, ix.getLast? = some tl := by
      cases h : ix.getLast? with
      | none => exact absurd (List.getLast?_eq_none_iff.1 h) hne
      | some tl => exact ⟨tl, rfl⟩
    have htlmem : tl ∈ ix := List.mem_of_getLast?_eq_some htl
    obtain ⟨ct, hct⟩ := (hc.cover tl).1 htlmem
    have htlid : tl ≠ id := fun h => hnot (h ▸ htlmem)
    have htllt : tl < m.table_.length := lt_length_of_getElem? hct
    have hpt : ∀ j, ((((m.table_.set id (some { image := image, prev := kEnd_, next := kEnd_ })).set tl
        (some { ct with next := some id })).set id
        (some { image := image, prev := some tl, next := kEnd_ }))[j]? : Option (Option (Cell K V))) =
        if j = id then some (some { image := image, prev := some tl, next := kEnd_ })
        else if j = tl then some (some { ct with next := some id }) else m.table_[j]? := by
      intro j
      rw [getElem?_set_eq_of _ (by simpa using hlt), getElem?_set_eq_of _ (by simpa using htllt),
        getElem?_set_eq_of _ hlt]
      by_cases hj : j = id
      · simp [hj]
      · simp [hj]
    refine ⟨_, link_more image hlt hz (hc.tail.trans htl) hct htlid, ?_, ?_, rfl, rfl, by simp⟩
    · refine ⟨hnd, ?_, ?_, ?_, ?_, ?_⟩
      · intro i
        show _ ↔ ∃ c, (((m.table_.set id _).set tl _).set id _)[i]? = some (some c)
        rw [hpt]
        by_cases hi : i = id
        · simp [hi]
        · by_cases hi2 : i = tl
          · simp [hi2, htlid, htlmem]
          · simp only [hi, hi2, if_false, List.mem_append, List.mem_singleton, or_false]
            exact hc.cover i
      · show m.head_ = _
        rw [hc.head]
        cases ix with
        | nil => exact absurd rfl hne
        | cons a r => rfl
      · show some id = _
        simp
      · show m.num_elements_ + 1 = _
        simp [hc.num]
      · intro i c
        show (((m.table_.set id _).set tl _).set id _)[i]? = some (some c) → _
        rw [hpt, nextOf_append hc.nodup hnot, prevOf_append hnot, htl]
        by_cases hi : i = id
        · simp only [hi, if_true, Option.some.injEq]
          rintro rfl
          simp [htlid, nextOf_not_mem hnot, kEnd_]
        · by_cases hi2 : i = tl
          · simp only [hi2, htlid, if_false, if_true, Option.some.injEq]
            rintro rfl
            have := hc.links tl ct hct
            simp [htlid, this.2]
          · simp only [hi, hi2, if_false, Option.some.injEq]
            intro h
            have := hc.links i c h
            simp [Ne.symm hi2, this]
    · apply List.ext_getElem?
      intro j
      rw [slots_getElem?]
      show Option.map _ (((m.table_.set id _).set tl _).set id _)[j]? = _
      rw [hpt, getElem?_set_eq_of _ (show id < (slots m).length by rw [slots_length]; exact hlt)]
      by_cases hj : j = id
      · simp [hj]
      · by_cases hj2 : j = tl
        · simp [hj2, htlid, slots_getElem?, hct]
        · simp [hj, hj2, slots_getElem?]

end HashMap

end Cpp

/-! ## Unlinking a cell -/

namespace Cpp

namespace HashMap

variable {K V : Type}

theorem eraseId_single {m : HashMap K V} {id : Nat} {c : Cell K V}
    (h : m.table_[id]? = some (some c)) (hn : m.num_elements_ = 1) :
    eraseId m id = some { m with table_ := m.table_.set id none, num_elements_ := 0,
                                 head_ := kEnd_, tail_ := kEnd_ } := by
  simp [eraseId, h, hn]

theorem eraseId_head {m : HashMap K V} {id n : Nat} {c cn : Cell K V}
    (h : m.table_[id]? = some (some c)) (hn : 2 ≤ m.num_elements_)
    (hp : c.prev = none) (hx : c.next = some n) (hcn : m.table_[n]? = some (some cn))
    (hne : n ≠ id) :
    eraseId m id = some { m with
      table_ := (m.table_.set id none).set n (some { cn with prev := kEnd_ }),
      head_ := some n, num_elements_ := m.num_elements_ - 1 } := by
  have hlt : id < m.table_.length := lt_length_of_getElem? h
  have h1 : (m.table_.set id none)[n]? = some (some cn) := by
    rw [getElem?_set_eq_of _ hlt, if_neg hne, hcn]
  have e1 : m.num_elements_ ≠ 1 := by omega
  have e2 : m.num_elements_ ≠ 0 := by omega
  have e3 : m.num_elements_ - 1 ≠ 0 := by omega
  simp [eraseId, h, hp, hx, kEnd_, e1, e2, e3, setPrev_some h1]

theorem eraseId_tail {m : HashMap K V} {id p : Nat} {c cp : Cell K V}
    (h : m.table_[id]? = some (some c)) (hn : 2 ≤ m.num_elements_)
    (hp : c.prev = some p) (hx : c.next = none) (hcp : m.table_[p]? = some (some cp))
    (hne : p ≠ id) :
    eraseId m id = some { m with
      table_ := (m.table_.set id none).set p (some { cp with next := kEnd_ }),
      tail_ := some p, num_elements_ := m.num_elements_ - 1 } := by
  have hlt : id < m.table_.length := lt_length_of_getElem? h
  have h1 : (m.table_.set id none)[p]? = some (some cp) := by
    rw [getElem?_set_eq_of _ hlt, if_neg hne, hcp]
  have e1 : m.num_elements_ ≠ 1 := by omega
  have e2 : m.num_elements_ ≠ 0 := by omega
  have e3 : m.num_elements_ - 1 ≠ 0 := by omega
  simp [eraseId, h, hp, hx, kEnd_, e1, e2, e3, setNext_some h1]

theorem eraseId_mid {m : HashMap K V} {id p n : Nat} {c cp cn : Cell K V}
    (h : m.table_[id]? = some (some c)) (hn : 2 ≤ m.num_elements_)
    (hp : c.prev = some p) (hx : c.next = some n) (hcp : m.table_[p]? = some (some cp))
    (hcn : m.table_[n]? = some (some cn)) (hpi : p ≠ id) (hni : n ≠ id) (hpn : p ≠ n) :
    eraseId m id = some { m with
      table_ := ((m.table_.set id none).set p (some { cp with next := some n })).set n
        (some { cn with prev := some p }),
      num_elements_ := m.num_elements_ - 1 } := by
  have hlt : id < m.table_.length := lt_length_of_getElem? h
  have hplt : p < m.table_.length := lt_length_of_getElem? hcp
  have h1 : (m.table_.set id none)[p]? = some (some cp) := by
    rw [getElem?_set_eq_of _ hlt, if_neg hpi, hcp]
  have h2 : ((m.table_.set id none).set p (some { cp with next := some n }))[n]? = some (some cn) := by
    rw [getElem?_set_eq_of _ (by simpa using hplt), if_neg (Ne.symm hpn),
      getElem?_set_eq_of _ hlt, if_neg hni, hcn]
  have e1 : m.num_elements_ ≠ 1 := by omega
  have e2 : m.num_elements_ ≠ 0 := by omega
  have e3 : m.num_elements_ - 1 ≠ 0 := by omega
  simp [eraseId, h, hp, hx, kEnd_, e1, e2, e3, setNext_some h1, setPrev_some h2]

theorem slots_set_none {t t1 : List (Option (Cell K V))} {id : Nat}
    (hpt : ∀ j, (t1[j]? ).map (Option.map Cell.image) =
      if j = id then some none else (t[j]?).map (Option.map Cell.image))
    (hlt : id < t.length) :
    t1.map (Option.map Cell.image) = (t.map (Option.map Cell.image)).set id none := by
  apply List.ext_getElem?
  intro j
  rw [List.getElem?_map, hpt, getElem?_set_eq_of _ (by simpa using hlt), List.getElem?_map]

theorem eraseId_spec {m : HashMap K V} {ix : List Nat} (hc : Chain m ix) {id : Nat}
    (hid : id ∈ ix) :
    ∃ m1, eraseId m id = some m1 ∧ Chain m1 (ix.erase id) ∧
      slots m1 = (slots m).set id none ∧ m1.size_ = m.size_ ∧ m1.hasher_ = m.hasher_ ∧
      m1.table_.length = m.table_.length := by
  obtain ⟨c, hcell⟩ := (hc.cover id).1 hid
  have hlt : id < m.table_.length := lt_length_of_getElem? hcell
  have hnd := hc.nodup
  have hnd1 : (ix.erase id).Nodup := hnd.erase id
  have hmem : ∀ j, j ∈ ix.erase id ↔ j ≠ id ∧ j ∈ ix := fun j => hnd.mem_erase_iff
  have hlen : (ix.erase id).length = ix.length - 1 := List.length_erase_of_mem hid
  have hlk := hc.links id c hcell
  have hpos : 1 ≤ ix.length := List.length_pos_of_mem hid
  by_cases h1 : m.num_elements_ = 1
  · -- the only element
    have hl1 : ix.length = 1 := by rw [← hc.num]; exact h1
    have hnil : ix.erase id = [] := List.length_eq_zero.1 (by omega)
    refine ⟨_, eraseId_single hcell h1, ?_, ?_, rfl, rfl, by simp⟩
    · rw [hnil]
      refine ⟨List.nodup_nil, ?_, rfl, rfl, rfl, ?_⟩
      · intro j
        show _ ↔ ∃ c, (m.table_.set id none)[j]? = some (some c)
        rw [getElem?_set_eq_of _ hlt]
        by_cases hj : j = id
        · simp [hj]
        · simp only [hj, if_false, List.not_mem_nil, false_iff]
          intro h
          have := (hmem j).2 ⟨hj, (hc.cover j).2 h⟩
          rw [hnil] at this; cases this
      · intro j cj
        show (m.table_.set id none)[j]? = some (some cj) → _
        rw [getElem?_set_eq_of _ hlt]
        by_cases hj : j = id
        · simp [hj]
        · simp only [hj, if_false]
          intro h
          have := (hmem j).2 ⟨hj, (hc.cover j).2 ⟨cj, h⟩⟩
          rw [hnil] at this; cases this
    · exact slots_set_none (fun j => by
        show Option.map _ (m.table_.set id none)[j]? = _
        rw [getElem?_set_eq_of _ hlt]; by_cases hj : j = id <;> simp [hj]) hlt
  · have h2 : 2 ≤ m.num_elements_ := by rw [hc.num] at h1 ⊢; omega
    have hl2 : 2 ≤ ix.length := by rw [← hc.num]; exact h2
    cases hp : prevOf ix id with
    | none =>
      have hhead : ix.head? = some id := head_of_prevOf hid hp
      cases hx : nextOf ix id with
      | none =>
        have := length_one_of_head_last hnd hhead (last_of_nextOf hid hx)
        omega
      | some n =>
        have hnid : n ≠ id := nextOf_ne hnd hx
        have hnmem : n ∈ ix := (nextOf_mem hx).2
        obtain ⟨cn, hcn⟩ := (hc.cover n).1 hnmem
        have hnlt : n < m.table_.length := lt_length_of_getElem? hcn
        have hpt : ∀ j, (((m.table_.set id none).set n (some { cn with prev := kEnd_ }))[j]? :
            Option (Option (Cell K V))) =
            if j = n then some (some { cn with prev := kEnd_ })
            else if j = id then some none else m.table_[j]? := by
          intro j
          rw [getElem?_set_eq_of _ (by simpa using hnlt), getElem?_set_eq_of _ hlt]
        refine ⟨_, eraseId_head hcell h2 (hlk.2.trans hp) (hlk.1.trans hx) hcn hnid, ?_, ?_,
          rfl, rfl, by simp⟩
        · refine ⟨hnd1, ?_, ?_, ?_, ?_, ?_⟩
          · intro j
            show _ ↔ ∃ c, ((m.table_.set id none).set n _)[j]? = some (some c)
            rw [hpt, hmem]
            by_cases hj : j = n
            · simp [hj, hnid, hnmem]
            · by_cases hj2 : j = id
              · simp [hj2, Ne.symm hnid]
              · simp only [hj, hj2, if_false, ne_eq, not_false_eq_true, true_and]
                exact hc.cover j
          · show some n = _
            rw [head?_erase, if_pos hhead, hx]
          · show m.tail_ = _
            rw [getLast?_erase hnd, hc.tail]
            have : ix.getLast? ≠ some id := fun h => by
              have := length_one_of_head_last hnd hhead h
              omega
            rw [if_neg this]
          · show m.num_elements_ - 1 = _
            rw [hlen, hc.num]
          · intro j cj
            show ((m.table_.set id none).set n _)[j]? = some (some cj) → _
            rw [hpt]
            by_cases hj : j = n
            · simp only [hj, if_true, Option.some.injEq]
              rintro rfl
              have hl := hc.links n cn hcn
              rw [nextOf_erase hnd hnid, prevOf_erase hnd hnid]
              have e1 : nextOf ix n ≠ some id := fun h => by
                rw [nextOf_iff_prevOf hnd, hp] at h; cases h
              have e2 : prevOf ix n = some id := (nextOf_iff_prevOf hnd n id).1 hx
              simp [e1, e2, hp, hl.1, kEnd_]
            · by_cases hj2 : j = id
              · simp [hj, hj2, Ne.symm hnid]
              · simp only [hj, hj2, if_false, Option.some.injEq]
                intro h
                have hl := hc.links j cj h
                rw [nextOf_erase hnd hj2, prevOf_erase hnd hj2]
                have e1 : nextOf ix j ≠ some id := fun h => by
                  rw [nextOf_iff_prevOf hnd, hp] at h; cases h
                have e2 : prevOf ix j ≠ some id := fun h => by
                  rw [← nextOf_iff_prevOf hnd, hx] at h
                  exact hj (Option.some.inj h).symm
                simp [e1, e2, hl]
        · exact slots_set_none (fun j => by
            show Option.map _ ((m.table_.set id none).set n _)[j]? = _
            rw [hpt]
            by_cases hj : j = n
            · simp [hj, hnid, hcn]
            · by_cases hj2 : j = id <;> simp [hj, hj2, Ne.symm hnid]) hlt
    | some p =>
      have hpid : p ≠ id := prevOf_ne hnd hp
      have hpmem : p ∈ ix := (prevOf_mem hp).2
      obtain ⟨cp, hcp⟩ := (hc.cover p).1 hpmem
      have hplt : p < m.table_.length := lt_length_of_getElem? hcp
      have hnp : nextOf ix p = some id := (nextOf_iff_prevOf hnd id p).2 hp
      cases hx : nextOf ix id with
      | none =>
        have hlast : ix.getLast? = some id := last_of_nextOf hid hx
        have hpt : ∀ j, (((m.table_.set id none).set p (some { cp with next := kEnd_ }))[j]? :
            Option (Option (Cell K V))) =
            if j = p then some (some { cp with next := kEnd_ })
            else if j = id then some none else m.table_[j]? := by
          intro j
          rw [getElem?_set_eq_of _ (by simpa using hplt), getElem?_set_eq_of _ hlt]
        refine ⟨_, eraseId_tail hcell h2 (hlk.2.trans hp) (hlk.1.trans hx) hcp hpid, ?_, ?_,
          rfl, rfl, by simp⟩
        · refine ⟨hnd1, ?_, ?_, ?_, ?_, ?_⟩
          · intro j
            show _ ↔ ∃ c, ((m.table_.set id none).set p _)[j]? = some (some c)
            rw [hpt, hmem]
            by_cases hj : j = p
            · simp [hj, hpid, hpmem]
            · by_cases hj2 : j = id
              · simp [hj2, Ne.symm hpid]
              · simp only [hj, hj2, if_false, ne_eq, not_false_eq_true, true_and]
                exact hc.cover j
          · show m.head_ = _
            rw [head?_erase, hc.head]
            have : ix.head? ≠ some id := fun h => by
              rw [prevOf_head hnd h] at hp; cases hp
            rw [if_neg this]
          · show some p = _
            rw [getLast?_erase hnd, if_pos hlast, hp]
          · show m.num_elements_ - 1 = _
            rw [hlen, hc.num]
          · intro j cj
            show ((m.table_.set id none).set p _)[j]? = some (some cj) → _
            rw [hpt]
            by_cases hj : j = p
            · simp only [hj, if_true, Option.some.injEq]
              rintro rfl
              have hl := hc.links p cp hcp
              rw [nextOf_erase hnd hpid, prevOf_erase hnd hpid]
              have e2 : prevOf ix p ≠ some id := fun h => by
                rw [← nextOf_iff_prevOf hnd, hx] at h; cases h
              simp [hnp, e2, hx, hl.2, kEnd_]
            · by_cases hj2 : j = id
              · simp [hj, hj2, Ne.symm hpid]
              · simp only [hj, hj2, if_false, Option.some.injEq]
                intro h
                have hl := hc.links j cj h
                rw [nextOf_erase hnd hj2, prevOf_erase hnd hj2]
                have e1 : nextOf ix j ≠ some id := fun h => by
                  rw [nextOf_iff_prevOf hnd, hp] at h
                  exact hj (Option.some.inj h).symm
                have e2 : prevOf ix j ≠ some id := fun h => by
                  rw [← nextOf_iff_prevOf hnd, hx] at h; cases h
                simp [e1, e2, hl]
        · exact slots_set_none (fun j => by
            show Option.map _ ((m.table_.set id none).set p _)[j]? = _
            rw [hpt]
            by_cases hj : j = p
            · simp [hj, hpid, hcp]
            · by_cases hj2 : j = id <;> simp [hj, hj2, Ne.symm hpid]) hlt
      | some n =>
        have hnid : n ≠ id := nextOf_ne hnd hx
        have hnmem : n ∈ ix := (nextOf_mem hx).2
        obtain ⟨cn, hcn⟩ := (hc.cover n).1 hnmem
        have hnlt : n < m.table_.length := lt_length_of_getElem? hcn
        have hpn : p ≠ n := prevOf_ne_nextOf hnd hp hx
        have hpn2 : prevOf ix n = some id := (nextOf_iff_prevOf hnd n id).1 hx
        have hpt : ∀ j, ((((m.table_.set id none).set p (some { cp with next := some n })).set n
            (some { cn with prev := some p }))[j]? : Option (Option (Cell K V))) =
            if j = n then some (some { cn with prev := some p })
            else if j = p then some (some { cp with next := some n })
            else if j = id then some none else m.table_[j]? := by
          intro j
          rw [getElem?_set_eq_of _ (by simpa using hnlt), getElem?_set_eq_of _ (by simpa using hplt),
            getElem?_set_eq_of _ hlt]
        refine ⟨_, eraseId_mid hcell h2 (hlk.2.trans hp) (hlk.1.trans hx) hcp hcn hpid hnid hpn,
          ?_, ?_, rfl, rfl, by simp⟩
        · refine ⟨hnd1, ?_, ?_, ?_, ?_, ?_⟩
          · intro j
            show _ ↔ ∃ c, (((m.table_.set id none).set p _).set n _)[j]? = some (some c)
            rw [hpt, hmem]
            by_cases hj : j = n
            · simp [hj, hnid, hnmem]
            · by_cases hj1 : j = p
              · simp [hj1, hpn, hpid, hpmem]
              · by_cases hj2 : j = id
                · simp [hj2, Ne.symm hpid, Ne.symm hnid]
                · simp only [hj, hj1, hj2, if_false, ne_eq, not_false_eq_true, true_and]
                  exact hc.cover j
          · show m.head_ = _
            rw [head?_erase, hc.head]
            have : ix.head? ≠ some id := fun h => by
              rw [prevOf_head hnd h] at hp; cases hp
            rw [if_neg this]
          · show m.tail_ = _
            rw [getLast?_erase hnd, hc.tail]
            have : ix.getLast? ≠ some id := fun h => by
              rw [nextOf_last hnd h] at hx; cases hx
            rw [if_neg this]
          · show m.num_elements_ - 1 = _
            rw [hlen, hc.num]
          · intro j cj
            show (((m.table_.set id none).set p _).set n _)[j]? = some (some cj) → _
            rw [hpt]
            by_cases hj : j = n
            · simp only [hj, if_true, Option.some.injEq]
              rintro rfl
              have hl := hc.links n cn hcn
              rw [nextOf_erase hnd hnid, prevOf_erase hnd hnid]
              have e1 : nextOf ix n ≠ some id := fun h => by
                rw [nextOf_iff_prevOf hnd, hp] at h
                exact hpn (Option.some.inj h)
              simp [e1, hpn2, hp, hl.1]
            · by_cases hj1 : j = p
              · simp only [hj1, hpn, if_true, if_false, Option.some.injEq]
                rintro rfl
                have hl := hc.links p cp hcp
                rw [nextOf_erase hnd hpid, prevOf_erase hnd hpid]
                have e2 : prevOf ix p ≠ some id := fun h => by
                  rw [← nextOf_iff_prevOf hnd, hx] at h
                  exact hpn (Option.some.inj h).symm
                simp [hnp, e2, hx, hl.2]
              · by_cases hj2 : j = id
                · simp [hj2, Ne.symm hpid, Ne.symm hnid]
                · simp only [hj, hj1, hj2, if_false, Option.some.injEq]
                  intro h
                  have hl := hc.links j cj h
                  rw [nextOf_erase hnd hj2, prevOf_erase hnd hj2]
                  have e1 : nextOf ix j ≠ some id := fun h => by
                    rw [nextOf_iff_prevOf hnd, hp] at h
                    exact hj1 (Option.some.inj h).symm
                  have e2 : prevOf ix j ≠ some id := fun h => by
                    rw [← nextOf_iff_prevOf hnd, hx] at h
                    exact hj (Option.some.inj h).symm
                  simp [e1, e2, hl]
        · exact slots_set_none (fun j => by
            show Option.map _ (((m.table_.set id none).set p _).set n _)[j]? = _
            rw [hpt]
            by_cases hj : j = n
            · simp [hj, hnid, hcn]
            · by_cases hj1 : j = p
              · simp [hj1, hpn, hpid, hcp]
              · by_cases hj2 : j = id <;> simp [hj, hj1, hj2, Ne.symm hpid, Ne.symm hnid]) hlt

end HashMap

end Cpp

/-! ## Iteration, `clear` and the probe -/

namespace Cpp

theorem nextOf_append_cons {pre s : List Nat} {a : Nat} (hnd : (pre ++ a :: s).Nodup) :
    nextOf (pre ++ a :: s) a = s.head? := by
  induction pre with
  | nil => simp [nextOf_cons]
  | cons b pre ih =>
    have hb : b ∉ pre ++ a :: s := (List.nodup_cons.1 hnd).1
    have hba : b ≠ a := fun h => hb (by simp [h])
    rw [List.cons_append, nextOf_cons, if_neg hba]
    exact ih (List.nodup_cons.1 hnd).2

theorem length_le_of_nodup_lt {ix : List Nat} (hnd : ix.Nodup) {n : Nat} (h : ∀ i ∈ ix, i < n) :
    ix.length ≤ n := by
  have hsub : ix ⊆ List.range n := fun i hi => List.mem_range.2 (h i hi)
  have := (List.subperm_of_subset hnd hsub).length_le
  simpa using this

theorem range_le_length {ix : List Nat} {a b : Nat} (h : ∀ j, a ≤ j → j < b → j ∈ ix) :
    b - a ≤ ix.length := by
  have hsub : List.range' a (b - a) ⊆ ix := by
    intro j hj
    rw [List.mem_range'_1] at hj
    exact h j hj.1 (by omega)
  have := (List.subperm_of_subset (List.nodup_range' a (b - a)) hsub).length_le
  simpa using this

theorem exists_first {P : Nat → Prop} (s : Nat) (h : ∃ e, s ≤ e ∧ P e) :
    ∃ e, s ≤ e ∧ P e ∧ ∀ j, s ≤ j → j < e → ¬ P j := by
  classical
  refine ⟨Nat.find h, (Nat.find_spec h).1, (Nat.find_spec h).2, ?_⟩
  intro j hsj hj hP
  exact Nat.find_min h hj ⟨hsj, hP⟩

namespace HashMap

variable {K V : Type}

theorem collect_none (t : List (Option (Cell K V))) (fuel : Nat) : collect t fuel none = some [] := by
  cases fuel <;> rfl

theorem seqOf_cons_of {σ : List (Option (K × V))} {a : Nat} {p : K × V} (h : σ[a]? = some (some p))
    (s : List Nat) : seqOf σ (a :: s) = p :: seqOf σ s := by
  simp [seqOf, h]

theorem collect_spec {m : HashMap K V} {ix : List Nat} (hc : Chain m ix) :
    ∀ (s pre : List Nat) (fuel : Nat), ix = pre ++ s → s.length ≤ fuel →
      collect m.table_ fuel s.head? = some (seqOf (slots m) s) := by
  intro s
  induction s with
  | nil => intro pre fuel _ _; simp [collect_none, seqOf]
  | cons a s ih =>
    intro pre fuel hix hfuel
    obtain ⟨f, rfl⟩ : ∃ f, fuel = f + 1 := ⟨fuel - 1, by simp at hfuel; omega⟩
    have ha : a ∈ ix := by rw [hix]; simp
    obtain ⟨c, hcell⟩ := (hc.cover a).1 ha
    have hnext : c.next = s.head? := by
      rw [(hc.links a c hcell).1, hix]
      exact nextOf_append_cons (hix ▸ hc.nodup)
    have hs : (slots m)[a]? = some (some c.image) := by rw [slots_getElem?, hcell]; rfl
    rw [seqOf_cons_of hs]
    simp only [List.head?_cons, collect, hcell, hnext]
    rw [ih (pre ++ [a]) f (by simp [hix]) (by simp at hfuel; omega)]
    rfl

theorem Chain.length_le {m : HashMap K V} {ix : List Nat} (hc : Chain m ix) :
    ix.length ≤ m.table_.length :=
  length_le_of_nodup_lt hc.nodup fun _ hi => hc.mem_lt hi

theorem images_spec {m : HashMap K V} {ix : List Nat} (hc : Chain m ix) :
    images m = some (seqOf (slots m) ix) := by
  unfold images
  rw [hc.head]
  exact collect_spec hc ix [] _ rfl hc.length_le

theorem clearLoop_spec : ∀ (ix : List Nat) (m : HashMap K V), Chain m ix →
    ∃ m1, clearLoop ix.length m = some m1 ∧ Chain m1 [] ∧ m1.size_ = m.size_ ∧
      m1.hasher_ = m.hasher_ ∧ m1.table_.length = m.table_.length := by
  intro ix
  induction ix with
  | nil =>
    intro m hc
    refine ⟨m, ?_, hc, rfl, rfl, rfl⟩
    simp [clearLoop, empty, hc.num]
  | cons a r ih =>
    intro m hc
    obtain ⟨m1, h1, hc1, _, hs, hh, hl⟩ := eraseId_spec hc (List.mem_cons_self a r)
    rw [List.erase_cons_head] at hc1
    obtain ⟨m2, h2, hc2, hs2, hh2, hl2⟩ := ih m1 hc1
    refine ⟨m2, ?_, hc2, hs2.trans hs, hh2.trans hh, hl2.trans hl⟩
    have hhead : m.head_ = some a := by rw [hc.head]; rfl
    simp [clearLoop, empty, hc.num, hhead, h1, h2]

theorem clear_spec {m : HashMap K V} {ix : List Nat} (hc : Chain m ix) :
    ∃ m1, clear m = some m1 ∧ Chain m1 [] ∧ m1.size_ = m.size_ ∧
      m1.hasher_ = m.hasher_ ∧ m1.table_.length = m.table_.length := by
  unfold clear
  rw [hc.num]
  exact clearLoop_spec ix m hc

theorem Chain.table_of_nil {m : HashMap K V} (hc : Chain m []) :
    m.table_ = List.replicate m.table_.length none := by
  apply List.ext_getElem?
  intro j
  rw [List.getElem?_replicate]
  by_cases hj : j < m.table_.length
  · rw [if_pos hj]
    cases h : m.table_[j]? with
    | none => rw [List.getElem?_eq_none_iff] at h; omega
    | some x =>
      cases x with
      | none => rfl
      | some c => exact absurd ((hc.cover j).2 ⟨c, h⟩) (by simp)
  · rw [if_neg hj, List.getElem?_eq_none (by omega)]

theorem Chain.mem_iff {m : HashMap K V} {ix : List Nat} (hc : Chain m ix) (i : Nat) :
    i ∈ ix ↔ ∃ p, (slots m)[i]? = some (some p) :=
  (hc.cover i).trans (occ_iff m i)

theorem Chain.count_le {m : HashMap K V} {ix : List Nat} (hc : Chain m ix) {a b : Nat}
    (h : ∀ j, a ≤ j → j < b → ∃ p, (slots m)[j]? = some (some p)) :
    b - a ≤ m.num_elements_ := by
  rw [hc.num]
  exact range_le_length fun j h1 h2 => (hc.mem_iff j).2 (h j h1 h2)

theorem exists_first_empty (σ : List (Option (K × V))) (s : Nat)
    (h : ∃ e, s ≤ e ∧ σ[e]? = some none) :
    ∃ e, s ≤ e ∧ σ[e]? = some none ∧ ∀ j, s ≤ j → j < e → ∃ p, σ[j]? = some (some p) := by
  obtain ⟨e, hse, he, hmin⟩ := exists_first s h
  refine ⟨e, hse, he, ?_⟩
  intro j hsj hje
  have helt : e < σ.length := lt_length_of_getElem? he
  cases hj : σ[j]? with
  | none => rw [List.getElem?_eq_none_iff] at hj; omega
  | some x =>
    cases x with
    | none => exact absurd hj (hmin j hsj hje)
    | some p => exact ⟨p, rfl⟩

theorem Chain.exists_empty {m : HashMap K V} {ix : List Nat} (hc : Chain m ix) {s : Nat}
    (hs : s + m.num_elements_ < m.table_.length) :
    ∃ e, s ≤ e ∧ (slots m)[e]? = some none := by
  by_contra hno
  have hall : ∀ j, s ≤ j → j < m.table_.length → ∃ p, (slots m)[j]? = some (some p) := by
    intro j hsj hj
    cases h : (slots m)[j]? with
    | none => rw [List.getElem?_eq_none_iff, slots_length] at h; omega
    | some x =>
      cases x with
      | none => exact absurd ⟨j, hsj, h⟩ hno
      | some p => exact ⟨p, rfl⟩
  have := hc.count_le hall
  omega

theorem probe_find [DecidableEq K] (key : K) : ∀ (d : Nat) (l : List (Option (Cell K V))) (s : Nat),
    (∀ j, j < d → ∃ c, l[j]? = some (some c) ∧ c.key ≠ key) →
    (l[d]? = some none ∨ ∃ c, l[d]? = some (some c) ∧ c.key = key) →
    probe key l s = some (s + d) := by
  intro d
  induction d with
  | zero =>
    intro l s _ h
    cases l with
    | nil => simp at h
    | cons x rest =>
      cases x with
      | none => simp [probe]
      | some c =>
        simp at h
        simp [probe, h]
  | succ d ih =>
    intro l s hall h
    cases l with
    | nil => simp at h
    | cons x rest =>
      obtain ⟨c, hc0, hck⟩ := hall 0 (by omega)
      simp at hc0
      subst hc0
      simp only [probe, if_neg hck]
      rw [ih rest (s + 1) (fun j hj => by simpa using hall (j + 1) (by omega)) (by simpa using h)]
      congr 1
      omega

theorem GetId_eq [DecidableEq K] {m : HashMap K V} {key : K} {i : Nat} (hsz : m.size_ ≠ 0)
    (hhome : home m key ≤ i)
    (hall : ∀ j, home m key ≤ j → j < i → ∃ p, (slots m)[j]? = some (some p) ∧ p.1 ≠ key)
    (hend : (slots m)[i]? = some none ∨ ∃ p, (slots m)[i]? = some (some p) ∧ p.1 = key) :
    GetId m key = some i := by
  unfold GetId
  rw [if_neg hsz]
  have := probe_find key (i - home m key) (m.table_.drop (home m key)) (home m key) ?_ ?_
  · rw [show m.hasher_ key % m.size_ = home m key from rfl, this]
    congr 1; omega
  · intro j hj
    obtain ⟨p, hp, hpk⟩ := hall (home m key + j) (by omega) (by omega)
    rw [List.getElem?_drop]
    rw [slots_getElem?] at hp
    cases h : m.table_[home m key + j]? with
    | none => simp [h] at hp
    | some x =>
      cases x with
      | none => simp [h] at hp
      | some c =>
        refine ⟨c, rfl, ?_⟩
        simp [h] at hp
        simpa [Cell.key, hp] using hpk
  · rw [List.getElem?_drop, show home m key + (i - home m key) = i by omega]
    rcases hend with h | ⟨p, hp, hpk⟩
    · left; exact (empty_iff m i).2 h
    · right
      rw [slots_getElem?] at hp
      cases h : m.table_[i]? with
      | none => simp [h] at hp
      | some x =>
        cases x with
        | none => simp [h] at hp
        | some c =>
          refine ⟨c, rfl, ?_⟩
          simp [h] at hp
          simpa [Cell.key, hp] using hpk

end HashMap

end Cpp

/-! ## Sequences, layouts and `GetId` -/

namespace Cpp

namespace HashMap

variable {K V : Type}

theorem seqOf_append (σ : List (Option (K × V))) (a b : List Nat) :
    seqOf σ (a ++ b) = seqOf σ a ++ seqOf σ b := by
  simp [seqOf, List.filterMap_append]

theorem seqOf_congr {σ τ : List (Option (K × V))} {ix : List Nat}
    (h : ∀ j ∈ ix, τ[j]? = σ[j]?) : seqOf τ ix = seqOf σ ix := by
  induction ix with
  | nil => rfl
  | cons a r ih =>
    have ha := h a (by simp)
    have hr := ih (fun j hj => h j (List.mem_cons_of_mem _ hj))
    simp only [seqOf, List.filterMap_cons, ha] at hr ⊢
    rw [hr]

theorem mem_seqOf {σ : List (Option (K × V))} {ix : List Nat} {p : K × V} :
    p ∈ seqOf σ ix ↔ ∃ i, i ∈ ix ∧ σ[i]? = some (some p) := by
  simp only [seqOf, List.mem_filterMap]
  constructor
  · rintro ⟨i, hi, h⟩
    refine ⟨i, hi, ?_⟩
    cases hs : σ[i]? with
    | none => simp [hs] at h
    | some x => simpa [hs] using h
  · rintro ⟨i, hi, h⟩
    exact ⟨i, hi, by simp [h]⟩

theorem seqOf_length {σ : List (Option (K × V))} {ix : List Nat}
    (h : ∀ i ∈ ix, ∃ p, σ[i]? = some (some p)) : (seqOf σ ix).length = ix.length := by
  induction ix with
  | nil => rfl
  | cons a r ih =>
    obtain ⟨p, hp⟩ := h a (by simp)
    rw [seqOf_cons_of hp, List.length_cons, List.length_cons,
      ih (fun i hi => h i (List.mem_cons_of_mem _ hi))]

theorem seqOf_set_append {σ : List (Option (K × V))} {ix : List Nat} {id : Nat} (p : K × V)
    (hid : id ∉ ix) (hlt : id < σ.length) :
    seqOf (σ.set id (some p)) (ix ++ [id]) = seqOf σ ix ++ [p] := by
  rw [seqOf_append]
  congr 1
  · apply seqOf_congr
    intro j hj
    rw [getElem?_set_eq_of _ hlt, if_neg (fun h => hid (by rw [← h]; exact hj))]
  · have : (σ.set id (some p))[id]? = some (some p) := by
      rw [getElem?_set_eq_of _ hlt, if_pos rfl]
    rw [seqOf_cons_of this]; rfl

theorem seqOf_keys_nodup {hasher : K → Nat} {sz : Nat} {σ : List (Option (K × V))}
    (hL : Layout hasher sz σ) {ix : List Nat} (hnd : ix.Nodup) :
    ((seqOf σ ix).map Prod.fst).Nodup := by
  induction ix with
  | nil => simp [seqOf]
  | cons a r ih =>
    have ha : a ∉ r := (List.nodup_cons.1 hnd).1
    have hr := ih (List.nodup_cons.1 hnd).2
    cases h : σ[a]? with
    | none => simpa [seqOf, h] using hr
    | some x =>
      cases x with
      | none => simpa [seqOf, h] using hr
      | some p =>
        rw [seqOf_cons_of h, List.map_cons, List.nodup_cons]
        refine ⟨?_, hr⟩
        intro hmem
        obtain ⟨q, hq, hqp⟩ := List.mem_map.1 hmem
        obtain ⟨i, hi, hiq⟩ := mem_seqOf.1 hq
        have := hL.uniq i a q p hiq h hqp
        exact ha (this ▸ hi)

/-! ### The layout under insertion and removal -/

theorem Layout.set_some {hasher : K → Nat} {sz : Nat} {σ : List (Option (K × V))}
    (hL : Layout hasher sz σ) {i : Nat} {p : K × V}
    (habs : ∀ (j : Nat) (q : K × V), σ[j]? = some (some q) → q.1 ≠ p.1)
    (hi : σ[i]? = some none) (hhome : hasher p.1 % sz ≤ i)
    (hall : ∀ j, hasher p.1 % sz ≤ j → j < i → ∃ q, σ[j]? = some (some q)) :
    Layout hasher sz (σ.set i (some p)) := by
  have hlt : i < σ.length := lt_length_of_getElem? hi
  have hocc : ∀ (j : Nat) (q : K × V), σ[j]? = some (some q) →
      ∃ q1, (σ.set i (some p))[j]? = some (some q1) := by
    intro j q hq
    rw [getElem?_set_eq_of _ hlt]
    by_cases hj : j = i
    · exact ⟨p, by simp [hj]⟩
    · exact ⟨q, by simp [hj, hq]⟩
  constructor
  · intro j q
    rw [getElem?_set_eq_of _ hlt]
    by_cases hj : j = i
    · simp only [hj, if_true, Option.some.injEq]
      rintro rfl
      refine ⟨hhome, ?_⟩
      intro j1 h1 h2
      by_cases hj1 : j1 = i
      · exact ⟨p, by rw [getElem?_set_eq_of _ hlt, if_pos hj1]⟩
      · obtain ⟨q, hq⟩ := hall j1 h1 (by omega)
        exact hocc j1 q hq
    · simp only [hj, if_false]
      intro hq
      refine ⟨(hL.reach j q hq).1, ?_⟩
      intro j1 h1 h2
      obtain ⟨q1, hq1⟩ := (hL.reach j q hq).2 j1 h1 h2
      exact hocc j1 q1 hq1
  · intro j1 j2 q1 q2
    rw [getElem?_set_eq_of _ hlt, getElem?_set_eq_of _ hlt]
    by_cases h1 : j1 = i
    · by_cases h2 : j2 = i
      · intro _ _ _; rw [h1, h2]
      · simp only [h1, h2, if_true, if_false, Option.some.injEq]
        rintro rfl hq2 hk
        exact absurd hk.symm (habs j2 q2 hq2)
    · by_cases h2 : j2 = i
      · simp only [h1, h2, if_true, if_false, Option.some.injEq]
        rintro hq1 rfl hk
        exact absurd hk (habs j1 q1 hq1)
      · simp only [h1, h2, if_false]
        exact hL.uniq j1 j2 q1 q2

theorem Layout.clear_run {hasher : K → Nat} {sz : Nat} {σ τ : List (Option (K × V))}
    (hL : Layout hasher sz σ) {i e : Nat} (he : σ[e]? = some none)
    (hτ : ∀ j, τ[j]? = if i ≤ j ∧ j < e then some none else σ[j]?) :
    Layout hasher sz τ := by
  have hback : ∀ (j : Nat) (q : K × V), τ[j]? = some (some q) →
      ¬ (i ≤ j ∧ j < e) ∧ σ[j]? = some (some q) := by
    intro j q hq
    rw [hτ] at hq
    by_cases h : i ≤ j ∧ j < e
    · rw [if_pos h] at hq; cases hq
    · rw [if_neg h] at hq; exact ⟨h, hq⟩
  constructor
  · intro j q hq
    obtain ⟨hj, hσ⟩ := hback j q hq
    refine ⟨(hL.reach j q hσ).1, ?_⟩
    intro j1 h1 h2
    obtain ⟨q1, hq1⟩ := (hL.reach j q hσ).2 j1 h1 h2
    refine ⟨q1, ?_⟩
    rw [hτ, if_neg, hq1]
    rintro ⟨h3, h4⟩
    by_cases hje : j < e
    · exact hj ⟨by omega, hje⟩
    · have hne : e ≠ j := by
        rintro rfl
        rw [he] at hσ; cases hσ
      obtain ⟨q2, hq2⟩ := (hL.reach j q hσ).2 e (by omega) (by omega)
      rw [he] at hq2; cases hq2
  · intro j1 j2 q1 q2 h1 h2 hk
    exact hL.uniq j1 j2 q1 q2 (hback j1 q1 h1).2 (hback j2 q2 h2).2 hk

theorem Layout.empty (hasher : K → Nat) (sz n : Nat) :
    Layout hasher sz (List.replicate n (none : Option (K × V))) := by
  constructor
  · intro i p h
    rw [List.getElem?_replicate] at h
    split at h <;> cases h
  · intro i j p q h
    rw [List.getElem?_replicate] at h
    split at h <;> cases h

/-! ### `GetId` under the invariant -/

theorem GetId_present [DecidableEq K] {m : HashMap K V}
    (hL : Layout m.hasher_ m.size_ (slots m)) (hsz : m.size_ ≠ 0) {i : Nat} {p : K × V}
    (h : (slots m)[i]? = some (some p)) : GetId m p.1 = some i := by
  apply GetId_eq hsz (hL.reach i p h).1
  · intro j h1 h2
    obtain ⟨q, hq⟩ := (hL.reach i p h).2 j h1 (by omega)
    refine ⟨q, hq, ?_⟩
    intro hk
    have := hL.uniq j i q p hq h hk
    omega
  · right; exact ⟨p, h, rfl⟩

theorem room {sz n s : Nat} (hload : 2 * n ≤ sz) (hs : s < sz) :
    s + n < TableSize sz := by
  unfold TableSize
  omega

theorem GetId_absent [DecidableEq K] {m : HashMap K V} {ix : List Nat} (hc : Chain m ix)
    (hpos : 2 ≤ m.size_) (hlen : m.table_.length = TableSize m.size_)
    (hload : 2 * m.num_elements_ ≤ m.size_) {key : K}
    (habs : ∀ (j : Nat) (q : K × V), (slots m)[j]? = some (some q) → q.1 ≠ key) :
    ∃ i, GetId m key = some i ∧ (slots m)[i]? = some none ∧ home m key ≤ i ∧
      ∀ j, home m key ≤ j → j < i → ∃ q, (slots m)[j]? = some (some q) := by
  have hh : home m key < m.size_ := Nat.mod_lt _ (by omega)
  have hroom : home m key + m.num_elements_ < m.table_.length := by
    rw [hlen]; exact room hload hh
  obtain ⟨e, h1, h2, h3⟩ := exists_first_empty (slots m) (home m key) (hc.exists_empty hroom)
  refine ⟨e, ?_, h2, h1, h3⟩
  apply GetId_eq (by omega) h1
  · intro j hj1 hj2
    obtain ⟨q, hq⟩ := h3 j hj1 hj2
    exact ⟨q, hq, habs j q hq⟩
  · left; exact h2

end HashMap

end Cpp

/-! ## Insertion and rebuild -/

namespace Cpp

namespace HashMap

variable {K V : Type}

theorem Inv.mem_seq {m : HashMap K V} {ix : List Nat} (hI : Inv m ix) (p : K × V) :
    p ∈ seqOf (slots m) ix ↔ ∃ i : Nat, (slots m)[i]? = some (some p) := by
  rw [mem_seqOf]
  constructor
  · rintro ⟨i, _, h⟩; exact ⟨i, h⟩
  · rintro ⟨i, h⟩; exact ⟨i, (hI.chain.mem_iff i).2 ⟨p, h⟩, h⟩

theorem Chain.seq_length {m : HashMap K V} {ix : List Nat} (hc : Chain m ix) :
    (seqOf (slots m) ix).length = m.num_elements_ := by
  rw [hc.num]
  exact seqOf_length fun i hi => (hc.mem_iff i).1 hi

theorem Inv.absent {m : HashMap K V} {ix : List Nat} (hI : Inv m ix) {key : K}
    (h : key ∉ (seqOf (slots m) ix).map Prod.fst) :
    ∀ (j : Nat) (q : K × V), (slots m)[j]? = some (some q) → q.1 ≠ key := by
  intro j q hq hk
  exact h (List.mem_map.2 ⟨q, (hI.mem_seq q).2 ⟨j, hq⟩, hk⟩)

theorem resize_length (t : List (Option (Cell K V))) (n : Nat) : (resize t n).length = n := by
  simp [resize]
  omega

theorem resize_replicate (k n : Nat) :
    resize (List.replicate k (none : Option (Cell K V))) n = List.replicate n none := by
  apply List.ext_getElem?
  intro j
  simp only [resize, List.getElem?_append, List.getElem?_take, List.getElem?_replicate,
    List.length_take, List.length_replicate]
  by_cases h1 : j < n
  · by_cases h2 : j < k
    · simp [h1, h2]
    · have : j - min n k < n - k := by omega
      simp [h1, h2, this]
  · have : ¬ (j - min n k < n - k) := by omega
    simp [h1, this]

theorem Inv.of_empty {m : HashMap K V} (hnum : m.num_elements_ = 0) (hh : m.head_ = none)
    (ht : m.tail_ = none) (htab : m.table_ = List.replicate (TableSize m.size_) none)
    (hpos : 2 ≤ m.size_) : Inv m [] := by
  have hnone : ∀ (j : Nat) (c : Cell K V), m.table_[j]? ≠ some (some c) := by
    intro j c h
    rw [htab, List.getElem?_replicate] at h
    split at h <;> cases h
  refine ⟨⟨List.nodup_nil, ?_, hh, ht, hnum, ?_⟩, ?_, hpos, ?_, ?_⟩
  · intro i
    simp only [List.not_mem_nil, false_iff]
    rintro ⟨c, h⟩
    exact hnone i c h
  · intro i c h
    exact absurd h (hnone i c)
  · have : slots m = List.replicate (TableSize m.size_) none := by
      unfold slots; rw [htab]; simp
    rw [this]
    exact Layout.empty _ _ _
  · rw [htab]; simp
  · rw [hnum]; omega

theorem insertFuel_present [DecidableEq K] {m : HashMap K V} {ix : List Nat} (hI : Inv m ix)
    {i : Nat} {p : K × V} (h : (slots m)[i]? = some (some p)) (v : V) (fuel : Nat) :
    insertFuel (fuel + 1) m (p.1, v) = some m := by
  have hg := GetId_present hI.layout (by have := hI.pos; omega) h
  obtain ⟨c, hc⟩ := (occ_iff m i).2 ⟨p, h⟩
  simp [insertFuel, hg, hc]

theorem insert_link [DecidableEq K] {m : HashMap K V} {ix : List Nat} (hI : Inv m ix)
    {key : K} (v : V)
    (habs : ∀ (j : Nat) (q : K × V), (slots m)[j]? = some (some q) → q.1 ≠ key) :
    ∃ i m1, GetId m key = some i ∧ m.table_[i]? = some none ∧ link m (key, v) i = some m1 ∧
      Chain m1 (ix ++ [i]) ∧ Layout m1.hasher_ m1.size_ (slots m1) ∧
      seqOf (slots m1) (ix ++ [i]) = seqOf (slots m) ix ++ [(key, v)] ∧
      m1.size_ = m.size_ ∧ m1.hasher_ = m.hasher_ ∧ m1.table_.length = m.table_.length := by
  obtain ⟨i, hg, hi, hhome, hall⟩ := GetId_absent hI.chain hI.pos hI.len hI.load habs
  have hti : m.table_[i]? = some none := (empty_iff m i).2 hi
  obtain ⟨m1, hl, hc1, hs1, hsz, hh, hlen⟩ := link_spec hI.chain (key, v) hti
  have hnot : i ∉ ix := by
    intro hmem
    obtain ⟨c, h2⟩ := (hI.chain.cover i).1 hmem
    rw [hti] at h2; cases h2
  refine ⟨i, m1, hg, hti, hl, hc1, ?_, ?_, hsz, hh, hlen⟩
  · rw [hs1, hsz, hh]
    exact hI.layout.set_some (p := (key, v)) habs hi hhome hall
  · rw [hs1]
    exact seqOf_set_append _ hnot (by rw [slots_length]; exact lt_length_of_getElem? hti)

theorem insertFuel_absent_fit [DecidableEq K] {m : HashMap K V} {ix : List Nat} (hI : Inv m ix)
    {key : K} (v : V) (habs : key ∉ (seqOf (slots m) ix).map Prod.fst)
    (hload : 2 * (m.num_elements_ + 1) ≤ m.size_) (fuel : Nat) :
    ∃ m1 ix1, insertFuel (fuel + 1) m (key, v) = some m1 ∧ Inv m1 ix1 ∧
      seqOf (slots m1) ix1 = seqOf (slots m) ix ++ [(key, v)] ∧
      m1.size_ = m.size_ ∧ m1.hasher_ = m.hasher_ ∧ m1.table_.length = m.table_.length := by
  obtain ⟨i, m1, hg, hti, hl, hc1, hL1, hs1, hsz, hh, hlen⟩ := insert_link hI v (hI.absent habs)
  have hnum : m1.num_elements_ = m.num_elements_ + 1 := by
    rw [hc1.num, hI.chain.num]; simp
  refine ⟨m1, ix ++ [i], ?_, ⟨hc1, hL1, ?_, ?_, ?_⟩, hs1, hsz, hh, hlen⟩
  · have : ¬ (m1.num_elements_ * 2 > m1.size_) := by rw [hnum, hsz]; omega
    simp [insertFuel, hg, hti, insertIdWith, hl, this]
  · rw [hsz]; exact hI.pos
  · rw [hlen, hsz]; exact hI.len
  · rw [hnum, hsz]; exact hload

theorem foldlM_insert_fit [DecidableEq K] (ins : HashMap K V → K × V → Option (HashMap K V))
    (hins : ∀ m p, ∃ f, ins m p = insertFuel (f + 1) m p) :
    ∀ (l : List (K × V)) (m : HashMap K V) (ix : List Nat), Inv m ix →
      (l.map Prod.fst).Nodup → (∀ p ∈ l, p.1 ∉ (seqOf (slots m) ix).map Prod.fst) →
      2 * (m.num_elements_ + l.length) ≤ m.size_ →
      ∃ m1 ix1, l.foldlM ins m = some m1 ∧ Inv m1 ix1 ∧
        seqOf (slots m1) ix1 = seqOf (slots m) ix ++ l ∧
        m1.size_ = m.size_ ∧ m1.hasher_ = m.hasher_ ∧ m1.table_.length = m.table_.length := by
  intro l
  induction l with
  | nil =>
    intro m ix hI _ _ _
    exact ⟨m, ix, rfl, hI, by simp, rfl, rfl, rfl⟩
  | cons p l ih =>
    intro m ix hI hnd habs hload
    obtain ⟨f, hf⟩ := hins m p
    have hp : p.1 ∉ (seqOf (slots m) ix).map Prod.fst := habs p (by simp)
    simp only [List.length_cons] at hload
    obtain ⟨m1, ix1, h1, hI1, hs1, hsz1, hh1, hl1⟩ :=
      insertFuel_absent_fit hI p.2 hp (by omega) f
    have hnum1 : m1.num_elements_ = m.num_elements_ + 1 := by
      rw [← hI1.chain.seq_length, hs1, ← hI.chain.seq_length]; simp
    have hnd2 : (l.map Prod.fst).Nodup := (List.nodup_cons.1 (by simpa using hnd)).2
    have hpl : p.1 ∉ l.map Prod.fst := (List.nodup_cons.1 (by simpa using hnd)).1
    obtain ⟨m2, ix2, h2, hI2, hs2, hsz2, hh2, hl2⟩ := ih m1 ix1 hI1 hnd2 (by
      intro q hq
      rw [hs1, List.map_append, List.mem_append]
      rintro (h | h)
      · exact habs q (List.mem_cons_of_mem _ hq) h
      · simp at h
        exact hpl (List.mem_map.2 ⟨q, hq, h⟩)) (by rw [hnum1, hsz1]; omega)
    refine ⟨m2, ix2, ?_, hI2, ?_, hsz2.trans hsz1, hh2.trans hh1, hl2.trans hl1⟩
    · rw [List.foldlM_cons, hf]
      show (insertFuel (f + 1) m (p.1, p.2)).bind _ = _
      rw [h1]
      exact h2
    · rw [hs2, hs1]; simp

theorem RebuildWith_spec [DecidableEq K] (ins : HashMap K V → K × V → Option (HashMap K V))
    (hins : ∀ m p, ∃ f, ins m p = insertFuel (f + 1) m p)
    {m : HashMap K V} {ix : List Nat} (hc : Chain m ix)
    (hL : Layout m.hasher_ m.size_ (slots m)) (hpos : 2 ≤ m.size_)
    (hload : m.num_elements_ ≤ m.size_) :
    ∃ m1 ix1, RebuildWith ins m = some m1 ∧ Inv m1 ix1 ∧
      seqOf (slots m1) ix1 = seqOf (slots m) ix ∧ m1.size_ = m.size_ * 2 ∧
      m1.hasher_ = m.hasher_ := by
  obtain ⟨m2, hcl, hc2, hsz2, hh2, _⟩ := clear_spec hc
  have htab := hc2.table_of_nil
  have hI3 : Inv ({ m2 with size_ := m2.size_ * 2,
                            table_ := resize m2.table_ (TableSize (m2.size_ * 2)) } :
      HashMap K V) [] := by
    apply Inv.of_empty
    · exact hc2.num
    · exact hc2.head
    · exact hc2.tail
    · show resize m2.table_ _ = _
      rw [htab, resize_replicate]
    · show 2 ≤ m2.size_ * 2
      omega
  obtain ⟨m1, ix1, h1, hI1, hs1, hsz1, hh1, _⟩ :=
    foldlM_insert_fit ins hins (seqOf (slots m) ix) _ [] hI3 (seqOf_keys_nodup hL hc.nodup)
      (by intro p _; simp [seqOf])
      (by
        show 2 * (m2.num_elements_ + _) ≤ m2.size_ * 2
        rw [hc.seq_length, hc2.num, hsz2]; simp; omega)
  refine ⟨m1, ix1, ?_, hI1, ?_, ?_, ?_⟩
  · simp only [RebuildWith, images_spec hc, hcl, Option.some_bind]
    exact h1
  · rw [hs1]; simp [seqOf]
  · rw [hsz1]; show m2.size_ * 2 = _; rw [hsz2]
  · rw [hh1]; exact hh2

theorem insertFuel_absent_grow [DecidableEq K] {m : HashMap K V} {ix : List Nat} (hI : Inv m ix)
    {key : K} (v : V) (habs : key ∉ (seqOf (slots m) ix).map Prod.fst)
    (hload : m.size_ < 2 * (m.num_elements_ + 1)) (fuel : Nat) :
    ∃ m1 ix1, insertFuel (fuel + 2) m (key, v) = some m1 ∧ Inv m1 ix1 ∧
      seqOf (slots m1) ix1 = seqOf (slots m) ix ++ [(key, v)] ∧
      m1.size_ = m.size_ * 2 ∧ m1.hasher_ = m.hasher_ := by
  obtain ⟨i, m1, hg, hti, hl, hc1, hL1, hs1, hsz, hh, hlen⟩ := insert_link hI v (hI.absent habs)
  have hnum : m1.num_elements_ = m.num_elements_ + 1 := by
    rw [hc1.num, hI.chain.num]; simp
  have hpos := hI.pos
  have hld := hI.load
  obtain ⟨m2, ix2, h2, hI2, hs2, hsz2, hh2⟩ :=
    RebuildWith_spec (insertFuel (fuel + 1)) (fun _ _ => ⟨fuel, rfl⟩) hc1 hL1
      (by rw [hsz]; exact hpos) (by rw [hnum, hsz]; omega)
  refine ⟨m2, ix2, ?_, hI2, hs2.trans hs1, by rw [hsz2, hsz], hh2.trans hh⟩
  have : m1.num_elements_ * 2 > m1.size_ := by rw [hnum, hsz]; omega
  simp [insertFuel, hg, hti, insertIdWith, hl, this]
  exact h2

end HashMap

end Cpp

/-! ## Deletion -/

namespace Cpp

theorem outside_eq_true {a b j : Nat} : outside a b j = true ↔ ¬ (a ≤ j ∧ j < b) := by
  simp [outside]
  omega

theorem erase_filter_outside {ix : List Nat} (hnd : ix.Nodup) (a b : Nat) (hab : a < b) :
    (ix.erase a).filter (outside (a + 1) b) = ix.filter (outside a b) := by
  rw [hnd.erase_eq_filter, List.filter_filter]
  apply List.filter_congr
  intro j _
  by_cases h1 : j = a
  · subst h1
    simp [outside, hab]
  · have : (j != a) = true := by simpa using h1
    rw [this, Bool.and_true]
    rw [Bool.eq_iff_iff, outside_eq_true, outside_eq_true]
    constructor
    · rintro h ⟨h2, h3⟩; exact h ⟨by omega, h3⟩
    · rintro h ⟨h2, h3⟩; exact h ⟨by omega, h3⟩

namespace HashMap

variable {K V : Type}

theorem eraseLoop_spec : ∀ (d : Nat) (mc : HashMap K V) (ixc : List Nat) (cur : Nat)
    (imgs : List (K × V)) (fuel e : Nat), Chain mc ixc → cur + 1 + d = e →
    (slots mc)[e]? = some none →
    (∀ j, cur < j → j < e → ∃ p, (slots mc)[j]? = some (some p)) → d < fuel →
    ∃ m2, eraseLoop fuel mc cur imgs =
        some (m2, imgs ++ seqOf (slots mc) (List.range' (cur + 1) d)) ∧
      Chain m2 (ixc.filter (outside (cur + 1) e)) ∧
      (∀ j, (slots m2)[j]? = if cur + 1 ≤ j ∧ j < e then some none else (slots mc)[j]?) ∧
      m2.size_ = mc.size_ ∧ m2.hasher_ = mc.hasher_ ∧
      m2.table_.length = mc.table_.length ∧ m2.num_elements_ + d = mc.num_elements_ := by
  intro d
  induction d with
  | zero =>
    intro mc ixc cur imgs fuel e hc he hemp _ hfuel
    obtain ⟨f, rfl⟩ : ∃ f, fuel = f + 1 := ⟨fuel - 1, by omega⟩
    have he' : e = cur + 1 := by omega
    subst he'
    have ht : mc.table_[cur + 1]? = some none := (empty_iff mc _).2 hemp
    refine ⟨mc, ?_, ?_, ?_, rfl, rfl, rfl, rfl⟩
    · simp [eraseLoop, ht, seqOf]
    · rw [List.filter_eq_self.2]
      · exact hc
      · intro j _
        rw [outside_eq_true]; omega
    · intro j
      rw [if_neg (by omega)]
  | succ d ih =>
    intro mc ixc cur imgs fuel e hc he hemp hocc hfuel
    obtain ⟨f, rfl⟩ : ∃ f, fuel = f + 1 := ⟨fuel - 1, by omega⟩
    obtain ⟨p, hp⟩ := hocc (cur + 1) (by omega) (by omega)
    obtain ⟨c, hcell⟩ := (occ_iff mc (cur + 1)).2 ⟨p, hp⟩
    have hcp : c.image = p := by
      rw [slots_getElem?, hcell] at hp
      simpa using hp
    have hmem : cur + 1 ∈ ixc := (hc.cover _).2 ⟨c, hcell⟩
    obtain ⟨m1, h1, hc1, hs1, hsz1, hh1, hl1⟩ := eraseId_spec hc hmem
    have hlt : cur + 1 < (slots mc).length := lt_length_of_getElem? hp
    have hget : ∀ j, (slots m1)[j]? = if j = cur + 1 then some none else (slots mc)[j]? := by
      intro j; rw [hs1, getElem?_set_eq_of _ hlt]
    obtain ⟨m2, h2, hc2, hs2, hsz2, hh2, hl2, hn2⟩ :=
      ih m1 (ixc.erase (cur + 1)) (cur + 1) (imgs ++ [c.image]) f e hc1 (by omega)
        (by rw [hget, if_neg (by omega)]; exact hemp)
        (fun j h3 h4 => by rw [hget, if_neg (by omega)]; exact hocc j (by omega) h4)
        (by omega)
    have hnum1 : m1.num_elements_ + 1 = mc.num_elements_ := by
      rw [hc1.num, hc.num, List.length_erase_of_mem hmem]
      have := List.length_pos_of_mem hmem
      omega
    refine ⟨m2, ?_, ?_, ?_, hsz2.trans hsz1, hh2.trans hh1, hl2.trans hl1, by omega⟩
    · simp only [eraseLoop, hcell, h1, Option.some_bind]
      rw [h2, List.range'_succ, seqOf_cons_of hp, hcp]
      have : seqOf (slots m1) (List.range' (cur + 1 + 1) d) =
          seqOf (slots mc) (List.range' (cur + 1 + 1) d) := by
        apply seqOf_congr
        intro j hj
        rw [List.mem_range'_1] at hj
        rw [hget, if_neg (by omega)]
      rw [this]
      simp
    · rw [← erase_filter_outside hc.nodup (cur + 1) e (by omega)]
      exact hc2
    · intro j
      rw [hs2, hget]
      by_cases hj : j = cur + 1
      · rw [if_neg (by omega), if_pos hj, if_pos ⟨by omega, by omega⟩]
      · by_cases h3 : cur + 1 + 1 ≤ j ∧ j < e
        · rw [if_pos h3, if_pos ⟨by omega, h3.2⟩]
        · rw [if_neg h3, if_neg hj, if_neg (by omega)]

theorem erase_absent [DecidableEq K] {m : HashMap K V} {ix : List Nat} (hI : Inv m ix)
    {key : K} (habs : key ∉ (seqOf (slots m) ix).map Prod.fst) : erase m key = some m := by
  obtain ⟨i, hg, hi, _, _⟩ := GetId_absent hI.chain hI.pos hI.len hI.load (hI.absent habs)
  have hti : m.table_[i]? = some none := (empty_iff m i).2 hi
  simp [erase, hg, hti]

theorem erase_present [DecidableEq K] {m : HashMap K V} {ix : List Nat} (hI : Inv m ix)
    {i : Nat} {p : K × V} (h : (slots m)[i]? = some (some p)) :
    ∃ e m1 ix1, i < e ∧ (slots m)[e]? = some none ∧
      (∀ j, i < j → j < e → ∃ q, (slots m)[j]? = some (some q)) ∧
      erase m p.1 = some m1 ∧ Inv m1 ix1 ∧
      seqOf (slots m1) ix1 = seqOf (slots m) (ix.filter (outside i e)) ++
        seqOf (slots m) (List.range' (i + 1) (e - i - 1)) ∧
      m1.size_ = m.size_ ∧ m1.hasher_ = m.hasher_ ∧
      m1.num_elements_ + 1 = m.num_elements_ := by
  have hpos := hI.pos
  have hg := GetId_present hI.layout (by omega) h
  obtain ⟨c, hcell⟩ := (occ_iff m i).2 ⟨p, h⟩
  have hmem : i ∈ ix := (hI.chain.cover i).2 ⟨c, hcell⟩
  have hilt : i < (slots m).length := lt_length_of_getElem? h
  -- the end of the run
  have hh : m.hasher_ p.1 % m.size_ < m.size_ := Nat.mod_lt _ (by omega)
  have hroom : m.hasher_ p.1 % m.size_ + m.num_elements_ < m.table_.length := by
    rw [hI.len]; exact room hI.load hh
  obtain ⟨e0, he0, hemp0⟩ := hI.chain.exists_empty hroom
  have hie0 : i + 1 ≤ e0 := by
    by_contra hcon
    obtain ⟨q, hq⟩ := (hI.layout.reach i p h).2 e0 he0 (by omega)
    rw [hemp0] at hq; cases hq
  obtain ⟨e, hie, hemp, hrun⟩ := exists_first_empty (slots m) (i + 1) ⟨e0, hie0, hemp0⟩
  have helt : e < (slots m).length := lt_length_of_getElem? hemp
  -- erase(id)
  obtain ⟨m1, h1, hc1, hs1, hsz1, hh1, hl1⟩ := eraseId_spec hI.chain hmem
  have hget : ∀ j, (slots m1)[j]? = if j = i then some none else (slots m)[j]? := by
    intro j; rw [hs1, getElem?_set_eq_of _ hilt]
  have hnum1 : m1.num_elements_ + 1 = m.num_elements_ := by
    rw [hc1.num, hI.chain.num, List.length_erase_of_mem hmem]
    have := List.length_pos_of_mem hmem
    omega
  -- the loop
  obtain ⟨m2, h2, hc2, hs2, hsz2, hh2, hl2, hn2⟩ :=
    eraseLoop_spec (e - i - 1) m1 (ix.erase i) i [] m1.table_.length e hc1 (by omega)
      (by rw [hget, if_neg (by omega)]; exact hemp)
      (fun j h3 h4 => by rw [hget, if_neg (by omega)]; exact hrun j (by omega) h4)
      (by rw [hl1, ← slots_length]; omega)
  have hix2 : (ix.erase i).filter (outside (i + 1) e) = ix.filter (outside i e) :=
    erase_filter_outside hI.chain.nodup i e (by omega)
  rw [hix2] at hc2
  have hget2 : ∀ j, (slots m2)[j]? = if i ≤ j ∧ j < e then some none else (slots m)[j]? := by
    intro j
    rw [hs2, hget]
    by_cases hj : j = i
    · rw [if_neg (by omega), if_pos hj, if_pos ⟨by omega, by omega⟩]
    · by_cases h3 : i + 1 ≤ j ∧ j < e
      · rw [if_pos h3, if_pos ⟨by omega, h3.2⟩]
      · rw [if_neg h3, if_neg hj, if_neg (by omega)]
  have hR : seqOf (slots m1) (List.range' (i + 1) (e - i - 1)) =
      seqOf (slots m) (List.range' (i + 1) (e - i - 1)) := by
    apply seqOf_congr
    intro j hj
    rw [List.mem_range'_1] at hj
    rw [hget, if_neg (by omega)]
  rw [hR, List.nil_append] at h2
  have hI2 : Inv m2 (ix.filter (outside i e)) := by
    refine ⟨hc2, ?_, ?_, ?_, ?_⟩
    · rw [hsz2, hsz1, hh2, hh1]
      exact hI.layout.clear_run hemp hget2
    · rw [hsz2, hsz1]; exact hpos
    · rw [hl2, hl1, hsz2, hsz1]; exact hI.len
    · rw [hsz2, hsz1]
      have := hI.load
      omega
  have hseq2 : seqOf (slots m2) (ix.filter (outside i e)) =
      seqOf (slots m) (ix.filter (outside i e)) := by
    apply seqOf_congr
    intro j hj
    have := (List.mem_filter.1 hj).2
    rw [outside_eq_true] at this
    rw [hget2, if_neg this]
  -- the re-insertions
  have hRmem : ∀ q, q ∈ seqOf (slots m) (List.range' (i + 1) (e - i - 1)) →
      ∃ j, i < j ∧ j < e ∧ (slots m)[j]? = some (some q) := by
    intro q hq
    obtain ⟨j, hj, hjq⟩ := mem_seqOf.1 hq
    rw [List.mem_range'_1] at hj
    exact ⟨j, by omega, by omega, hjq⟩
  obtain ⟨m3, ix3, h3, hI3, hs3, hsz3, hh3, hl3⟩ :=
    foldlM_insert_fit insert (fun m p => ⟨m.table_.length + 1, rfl⟩)
      (seqOf (slots m) (List.range' (i + 1) (e - i - 1))) m2 _ hI2
      (seqOf_keys_nodup hI.layout (List.nodup_range' _ _))
      (by
        intro q hq hmem2
        obtain ⟨j, hj1, hj2, hjq⟩ := hRmem q hq
        obtain ⟨q2, hq2, hk⟩ := List.mem_map.1 hmem2
        rw [hseq2] at hq2
        obtain ⟨j2, hj2m, hj2q⟩ := mem_seqOf.1 hq2
        have hout := (List.mem_filter.1 hj2m).2
        rw [outside_eq_true] at hout
        have := hI.layout.uniq j2 j q2 q hj2q hjq hk
        omega)
      (by
        rw [seqOf_length (fun j hj => by
          rw [List.mem_range'_1] at hj
          exact hrun j hj.1 (by omega)), List.length_range', hsz2, hsz1]
        have := hI.load
        omega)
  have hnum3 : m3.num_elements_ + 1 = m.num_elements_ := by
    rw [← hI3.chain.seq_length, hs3, List.length_append, hI2.chain.seq_length,
      seqOf_length (fun j hj => by
          rw [List.mem_range'_1] at hj
          exact hrun j hj.1 (by omega)), List.length_range']
    omega
  refine ⟨e, m3, ix3, hie, hemp, fun j h4 h5 => hrun j (by omega) h5, ?_, hI3, ?_,
    (hsz3.trans hsz2).trans hsz1, (hh3.trans hh2).trans hh1, hnum3⟩
  · simp only [erase, hg, hcell, h1, h2, Option.some_bind]
    exact h3
  · rw [hs3, hseq2]

end HashMap

end Cpp

/-! ## The operations on the sequence model -/

namespace Cpp

namespace HashMap

variable {K V : Type}

theorem Rep.images {m : HashMap K V} {s : List (K × V)} (h : Rep m s) : images m = some s := by
  obtain ⟨ix, hI, hs⟩ := h
  rw [images_spec hI.chain, hs]

theorem Rep.size {m : HashMap K V} {s : List (K × V)} (h : Rep m s) : m.size = s.length := by
  obtain ⟨ix, hI, hs⟩ := h
  rw [← hs, hI.chain.seq_length]; rfl

theorem Rep.keys_nodup {m : HashMap K V} {s : List (K × V)} (h : Rep m s) :
    (s.map Prod.fst).Nodup := by
  obtain ⟨ix, hI, hs⟩ := h
  rw [← hs]
  exact seqOf_keys_nodup hI.layout hI.chain.nodup

theorem Rep.load {m : HashMap K V} {s : List (K × V)} (h : Rep m s) :
    2 * s.length ≤ m.size_ ∧ 2 ≤ m.size_ ∧ m.table_.length = TableSize m.size_ := by
  obtain ⟨ix, hI, hs⟩ := h
  rw [← hs, hI.chain.seq_length]
  exact ⟨hI.load, hI.pos, hI.len⟩

theorem Rep.construct (hasher : K → Nat) : Rep (construct hasher : HashMap K V) [] := by
  refine ⟨[], Inv.of_empty rfl rfl rfl ?_ (by show 2 ≤ 2; omega), rfl⟩
  show resize [] (TableSize 2) = List.replicate (TableSize 2) none
  simp [resize]

theorem Rep.lookup_present [DecidableEq K] {m : HashMap K V} {s : List (K × V)} (h : Rep m s)
    {p : K × V} (hp : p ∈ s) :
    ∃ i c, GetId m p.1 = some i ∧ m.table_[i]? = some (some c) ∧ c.image = p := by
  obtain ⟨ix, hI, hs⟩ := h
  rw [← hs] at hp
  obtain ⟨i, hi⟩ := (hI.mem_seq p).1 hp
  obtain ⟨c, hc⟩ := (occ_iff m i).2 ⟨p, hi⟩
  refine ⟨i, c, GetId_present hI.layout (by have := hI.pos; omega) hi, hc, ?_⟩
  rw [slots_getElem?, hc] at hi
  simpa using hi

theorem Rep.lookup_absent [DecidableEq K] {m : HashMap K V} {s : List (K × V)} (h : Rep m s)
    {key : K} (hk : key ∉ s.map Prod.fst) :
    ∃ i, GetId m key = some i ∧ m.table_[i]? = some none := by
  obtain ⟨ix, hI, hs⟩ := h
  rw [← hs] at hk
  obtain ⟨i, hg, hi, _, _⟩ := GetId_absent hI.chain hI.pos hI.len hI.load (hI.absent hk)
  exact ⟨i, hg, (empty_iff m i).2 hi⟩

theorem Rep.find_present [DecidableEq K] {m : HashMap K V} {s : List (K × V)} (h : Rep m s)
    {p : K × V} (hp : p ∈ s) :
    ∃ i c, find m p.1 = some (some i) ∧ m.table_[i]? = some (some c) ∧ c.image = p := by
  obtain ⟨i, c, hg, hc, hcp⟩ := h.lookup_present hp
  exact ⟨i, c, by simp [find, hg, hc], hc, hcp⟩

theorem Rep.find_absent [DecidableEq K] {m : HashMap K V} {s : List (K × V)} (h : Rep m s)
    {key : K} (hk : key ∉ s.map Prod.fst) : find m key = some kEnd_ := by
  obtain ⟨i, hg, hi⟩ := h.lookup_absent hk
  simp [find, hg, hi]

theorem Rep.at_present [DecidableEq K] {m : HashMap K V} {s : List (K × V)} (h : Rep m s)
    {p : K × V} (hp : p ∈ s) : at_ m p.1 = some (Except.ok p.2) := by
  obtain ⟨i, c, hg, hc, hcp⟩ := h.lookup_present hp
  simp [at_, hg, hc, Cell.value, hcp]

theorem Rep.at_absent [DecidableEq K] {m : HashMap K V} {s : List (K × V)} (h : Rep m s)
    {key : K} (hk : key ∉ s.map Prod.fst) :
    at_ m key = some (Except.error "key is not found") := by
  obtain ⟨i, hg, hi⟩ := h.lookup_absent hk
  simp [at_, hg, hi]

theorem insert_present [DecidableEq K] {m : HashMap K V} {s : List (K × V)} (h : Rep m s)
    {p : K × V} (hp : p.1 ∈ s.map Prod.fst) : insert m p = some m := by
  obtain ⟨ix, hI, hs⟩ := h
  obtain ⟨q, hq, hqk⟩ := List.mem_map.1 hp
  rw [← hs] at hq
  obtain ⟨i, hi⟩ := (hI.mem_seq q).1 hq
  have := insertFuel_present hI hi p.2 (m.table_.length + 1)
  rw [hqk] at this
  exact this

theorem insert_absent [DecidableEq K] {m : HashMap K V} {s : List (K × V)} (h : Rep m s)
    {p : K × V} (hp : p.1 ∉ s.map Prod.fst) :
    ∃ m1, insert m p = some m1 ∧ Rep m1 (s ++ [p]) ∧ m1.hasher_ = m.hasher_ ∧
      m1.size_ = if 2 * (s.length + 1) ≤ m.size_ then m.size_ else m.size_ * 2 := by
  obtain ⟨ix, hI, hs⟩ := h
  rw [← hs] at hp
  have hlen : s.length = m.num_elements_ := by rw [← hs]; exact hI.chain.seq_length
  by_cases hfit : 2 * (s.length + 1) ≤ m.size_
  · obtain ⟨m1, ix1, h1, hI1, hs1, hsz, hh, _⟩ :=
      insertFuel_absent_fit hI p.2 hp (by rw [← hlen]; exact hfit) (m.table_.length + 1)
    exact ⟨m1, h1, ⟨ix1, hI1, by rw [hs1, hs]⟩, hh, by rw [if_pos hfit]; exact hsz⟩
  · obtain ⟨m1, ix1, h1, hI1, hs1, hsz, hh⟩ :=
      insertFuel_absent_grow hI p.2 hp (by rw [← hlen]; omega) m.table_.length
    exact ⟨m1, h1, ⟨ix1, hI1, by rw [hs1, hs]⟩, hh, by rw [if_neg hfit]; exact hsz⟩

/-- One step of the sequence model of `insert`: first write wins. -/
theorem insert_rep [DecidableEq K] {m : HashMap K V} {s : List (K × V)} (h : Rep m s)
    (p : K × V) :
    ∃ m1, insert m p = some m1 ∧
      Rep m1 (if p.1 ∈ s.map Prod.fst then s else s ++ [p]) ∧ m1.hasher_ = m.hasher_ := by
  by_cases hp : p.1 ∈ s.map Prod.fst
  · exact ⟨m, insert_present h hp, by rw [if_pos hp]; exact h, rfl⟩
  · obtain ⟨m1, h1, hr, hh, _⟩ := insert_absent h hp
    exact ⟨m1, h1, by rw [if_neg hp]; exact hr, hh⟩

theorem clear_rep {m : HashMap K V} {s : List (K × V)} (h : Rep m s) :
    ∃ m1, clear m = some m1 ∧ Rep m1 [] ∧ m1.size_ = m.size_ ∧ m1.hasher_ = m.hasher_ ∧
      m1.table_ = List.replicate m.table_.length none ∧ m1.head_ = kEnd_ ∧ m1.tail_ = kEnd_ ∧
      m1.num_elements_ = 0 := by
  obtain ⟨ix, hI, _⟩ := h
  obtain ⟨m1, h1, hc1, hsz, hh, hl⟩ := clear_spec hI.chain
  have htab := hc1.table_of_nil
  refine ⟨m1, h1, ⟨[], ?_, rfl⟩, hsz, hh, by rw [← hl]; exact htab, hc1.head, hc1.tail, hc1.num⟩
  apply Inv.of_empty hc1.num hc1.head hc1.tail
  · rw [hsz, ← hI.len, ← hl]; exact htab
  · rw [hsz]; exact hI.pos

theorem erase_rep [DecidableEq K] {m : HashMap K V} {s : List (K × V)} (h : Rep m s)
    (key : K) :
    ∃ m1 s1, erase m key = some m1 ∧ Rep m1 s1 ∧ m1.size_ = m.size_ ∧ m1.hasher_ = m.hasher_ ∧
      (∀ q, q ∈ s1 ↔ q ∈ s ∧ q.1 ≠ key) := by
  by_cases hk : key ∈ s.map Prod.fst
  · obtain ⟨ix, hI, hs⟩ := h
    obtain ⟨p, hp, hpk⟩ := List.mem_map.1 hk
    rw [← hs] at hp
    obtain ⟨i, hi⟩ := (hI.mem_seq p).1 hp
    obtain ⟨e, m1, ix1, hie, hemp, hrun, h1, hI1, hs1, hsz, hh, _⟩ := erase_present hI hi
    rw [hpk] at h1
    refine ⟨m1, _, h1, ⟨ix1, hI1, rfl⟩, hsz, hh, ?_⟩
    intro q
    rw [hs1, List.mem_append, mem_seqOf, mem_seqOf, ← hs, hI.mem_seq]
    constructor
    · rintro (⟨j, hj, hjq⟩ | ⟨j, hj, hjq⟩)
      · refine ⟨⟨j, hjq⟩, ?_⟩
        intro hqk
        have hout := (List.mem_filter.1 hj).2
        rw [outside_eq_true] at hout
        have := hI.layout.uniq j i q p hjq hi (hqk.trans hpk.symm)
        omega
      · refine ⟨⟨j, hjq⟩, ?_⟩
        intro hqk
        rw [List.mem_range'_1] at hj
        have := hI.layout.uniq j i q p hjq hi (hqk.trans hpk.symm)
        omega
    · rintro ⟨⟨j, hjq⟩, hqk⟩
      have hji : j ≠ i := by
        rintro rfl
        rw [hi] at hjq
        simp at hjq
        exact hqk (hjq ▸ hpk)
      have hjm : j ∈ ix := (hI.chain.mem_iff j).2 ⟨q, hjq⟩
      by_cases hout : i ≤ j ∧ j < e
      · right
        exact ⟨j, by rw [List.mem_range'_1]; omega, hjq⟩
      · left
        exact ⟨j, List.mem_filter.2 ⟨hjm, outside_eq_true.2 hout⟩, hjq⟩
  · have h0 := h
    obtain ⟨ix, hI, hs⟩ := h
    refine ⟨m, s, erase_absent hI (by rw [hs]; exact hk), h0, rfl, rfl, ?_⟩
    intro q
    constructor
    · intro hq
      exact ⟨hq, fun hqk => hk (List.mem_map.2 ⟨q, hq, hqk⟩)⟩
    · exact fun hq => hq.1

theorem index_rep [DecidableEq K] [Inhabited V] {m : HashMap K V} {s : List (K × V)}
    (h : Rep m s) (key : K) :
    ∃ m1 v, index m key = some (m1, v) ∧ insert m (key, default) = some m1 ∧
      Rep m1 (if key ∈ s.map Prod.fst then s else s ++ [(key, default)]) ∧
      (key, v) ∈ (if key ∈ s.map Prod.fst then s else s ++ [(key, default)]) := by
  obtain ⟨m1, h1, hr, _⟩ := insert_rep h (key, default)
  have hmem : key ∈ (if key ∈ s.map Prod.fst then s else s ++ [(key, default)]).map Prod.fst := by
    by_cases hk : key ∈ s.map Prod.fst
    · rw [if_pos hk]; exact hk
    · rw [if_neg hk]; simp
  obtain ⟨p, hp, hpk⟩ := List.mem_map.1 hmem
  obtain ⟨i, c, hg, hc, hcp⟩ := Rep.lookup_present hr hp
  rw [hpk] at hg
  refine ⟨m1, c.value, ?_, h1, hr, ?_⟩
  · simp [index, h1, hg, hc]
  · have : (key, c.value) = p := by
      rw [← hpk, ← hcp]; rfl
    rw [this]; exact hp

theorem Reachable.rep [DecidableEq K] [Inhabited V] {m : HashMap K V} (h : Reachable m) :
    ∃ s, Rep m s := by
  induction h with
  | construct hasher => exact ⟨[], Rep.construct hasher⟩
  | insert image _ h1 ih =>
    obtain ⟨s, hs⟩ := ih
    obtain ⟨m1, h2, hr, _⟩ := insert_rep hs image
    rw [h2] at h1
    cases h1
    exact ⟨_, hr⟩
  | index key v _ h1 ih =>
    obtain ⟨s, hs⟩ := ih
    obtain ⟨m1, v1, h2, _, hr, _⟩ := index_rep hs key
    rw [h2] at h1
    cases h1
    exact ⟨_, hr⟩
  | erase key _ h1 ih =>
    obtain ⟨s, hs⟩ := ih
    obtain ⟨m1, s1, h2, hr, _⟩ := erase_rep hs key
    rw [h2] at h1
    cases h1
    exact ⟨_, hr⟩
  | clear _ h1 ih =>
    obtain ⟨s, hs⟩ := ih
    obtain ⟨m1, h2, hr, _⟩ := clear_rep hs
    rw [h2] at h1
    cases h1
    exact ⟨_, hr⟩

end HashMap

end Cpp

/-! ## Sequences of insertions, order after deletion, copies -/

namespace Cpp

namespace HashMap

variable {K V : Type}

/-! ### The sequence model of repeated `insert` -/

theorem mem_keys_firstOccurrences [DecidableEq K] (l : List (K × V)) (k : K) :
    k ∈ (firstOccurrences l).map Prod.fst ↔ k ∈ l.map Prod.fst := by
  induction l with
  | nil => simp [firstOccurrences]
  | cons p l ih =>
    simp only [firstOccurrences, List.map_cons, List.mem_cons]
    constructor
    · rintro (h | h)
      · exact Or.inl h
      · obtain ⟨q, hq, hqk⟩ := List.mem_map.1 h
        exact Or.inr (ih.1 (List.mem_map.2 ⟨q, (List.mem_filter.1 hq).1, hqk⟩))
    · rintro (h | h)
      · exact Or.inl h
      · by_cases hk : k = p.1
        · exact Or.inl hk
        · obtain ⟨q, hq, hqk⟩ := List.mem_map.1 (ih.2 h)
          refine Or.inr (List.mem_map.2 ⟨q, List.mem_filter.2 ⟨hq, ?_⟩, hqk⟩)
          simpa [hqk] using hk

theorem find?_firstOccurrences [DecidableEq K] (l : List (K × V)) (k : K) :
    (firstOccurrences l).find? (fun q => decide (q.1 = k)) =
      l.find? (fun q => decide (q.1 = k)) := by
  induction l with
  | nil => rfl
  | cons p l ih =>
    simp only [firstOccurrences, List.find?_cons]
    by_cases hp : p.1 = k
    · simp [hp]
    · simp only [hp, decide_False]
      rw [List.find?_filter, ← ih]
      congr 1
      funext q
      by_cases hq : q.1 = k
      · have : ¬ k = p.1 := Ne.symm hp
        simp [hq, this]
      · simp [hq]

theorem foldlM_insert_rep [DecidableEq K] : ∀ (l : List (K × V)) (m : HashMap K V)
    (s : List (K × V)), Rep m s →
    ∃ m1, l.foldlM insert m = some m1 ∧ m1.hasher_ = m.hasher_ ∧
      Rep m1 (s ++ (firstOccurrences l).filter fun q => decide (q.1 ∉ s.map Prod.fst)) := by
  intro l
  induction l with
  | nil =>
    intro m s h
    exact ⟨m, rfl, rfl, by simpa [firstOccurrences] using h⟩
  | cons p l ih =>
    intro m s h
    obtain ⟨m1, h1, hr1, hh1⟩ := insert_rep h p
    obtain ⟨m2, h2, hh2, hr2⟩ := ih m1 _ hr1
    refine ⟨m2, ?_, hh2.trans hh1, ?_⟩
    · rw [List.foldlM_cons, h1]; exact h2
    · by_cases hp : p.1 ∈ s.map Prod.fst
      · rw [if_pos hp] at hr2
        have : (firstOccurrences (p :: l)).filter (fun q => decide (q.1 ∉ s.map Prod.fst)) =
            (firstOccurrences l).filter (fun q => decide (q.1 ∉ s.map Prod.fst)) := by
          simp only [firstOccurrences]
          rw [List.filter_cons_of_neg (by simpa using hp), List.filter_filter]
          apply List.filter_congr
          intro q _
          by_cases hq : q.1 ∈ s.map Prod.fst
          · simp [hq]
          · have : q.1 ≠ p.1 := fun h => hq (h ▸ hp)
            simp [hq, this]
        rw [this]; exact hr2
      · rw [if_neg hp] at hr2
        have : s ++ (firstOccurrences (p :: l)).filter (fun q => decide (q.1 ∉ s.map Prod.fst)) =
            (s ++ [p]) ++ (firstOccurrences l).filter
              (fun q => decide (q.1 ∉ (s ++ [p]).map Prod.fst)) := by
          simp only [firstOccurrences]
          rw [List.filter_cons_of_pos (by simpa using hp), List.filter_filter,
            List.append_assoc, List.singleton_append]
          congr 2
          apply List.filter_congr
          intro q _
          simp only [List.map_append, List.mem_append, List.map_cons, List.map_nil,
            List.mem_singleton, not_or]
          by_cases h1 : q.1 ∈ s.map Prod.fst <;> by_cases h2 : q.1 = p.1 <;> simp [h1, h2]
        rw [this]; exact hr2

theorem insert_all [DecidableEq K] (hasher : K → Nat) (l : List (K × V)) :
    ∃ m, l.foldlM insert (construct hasher) = some m ∧ Rep m (firstOccurrences l) := by
  obtain ⟨m, h1, _, hr⟩ := foldlM_insert_rep l _ [] (Rep.construct hasher)
  refine ⟨m, h1, ?_⟩
  simpa using hr

/-! ### Lookups depend on the sequence only -/

theorem Rep.find_iff [DecidableEq K] {m : HashMap K V} {s : List (K × V)} (h : Rep m s)
    (k : K) : find m k = some kEnd_ ↔ k ∉ s.map Prod.fst := by
  constructor
  · intro hf hk
    obtain ⟨p, hp, hpk⟩ := List.mem_map.1 hk
    obtain ⟨i, c, hfi, _⟩ := h.find_present hp
    rw [hpk, hf] at hfi
    cases hfi
  · exact h.find_absent

theorem Rep.present_iff [DecidableEq K] {m : HashMap K V} {s : List (K × V)} (h : Rep m s)
    (k : K) : (∃ it, find m k = some it ∧ it ≠ m.end_) ↔ k ∈ s.map Prod.fst := by
  constructor
  · rintro ⟨it, hf, hne⟩
    by_contra hk
    rw [h.find_absent hk] at hf
    exact hne (Option.some.inj hf).symm
  · intro hk
    obtain ⟨p, hp, hpk⟩ := List.mem_map.1 hk
    obtain ⟨i, c, hfi, _⟩ := h.find_present hp
    rw [hpk] at hfi
    exact ⟨some i, hfi, by simp [end_, kEnd_]⟩

theorem lookup_congr [DecidableEq K] {m m1 : HashMap K V} {s s1 : List (K × V)} (h : Rep m s)
    (h1 : Rep m1 s1) {k : K} (hk : ∀ q : K × V, q.1 = k → (q ∈ s1 ↔ q ∈ s)) :
    at_ m1 k = at_ m k ∧ (find m1 k = some m1.end_ ↔ find m k = some m.end_) := by
  by_cases hmem : k ∈ s.map Prod.fst
  · obtain ⟨q, hq, hqk⟩ := List.mem_map.1 hmem
    have hq1 : q ∈ s1 := (hk q hqk).2 hq
    have hmem1 : k ∈ s1.map Prod.fst := List.mem_map.2 ⟨q, hq1, hqk⟩
    refine ⟨?_, ?_⟩
    · rw [← hqk, h.at_present hq, h1.at_present hq1]
    · show find m1 k = some kEnd_ ↔ find m k = some kEnd_
      rw [h.find_iff, h1.find_iff]
      exact ⟨fun hc => absurd hmem1 hc, fun hc => absurd hmem hc⟩
  · have hmem1 : k ∉ s1.map Prod.fst := by
      intro hc
      obtain ⟨q, hq, hqk⟩ := List.mem_map.1 hc
      exact hmem (List.mem_map.2 ⟨q, (hk q hqk).1 hq, hqk⟩)
    refine ⟨?_, ?_⟩
    · rw [h.at_absent hmem, h1.at_absent hmem1]
    · show find m1 k = some kEnd_ ↔ find m k = some kEnd_
      rw [h.find_iff, h1.find_iff]
      exact ⟨fun _ => hmem, fun _ => hmem1⟩

/-! ### The run after a slot -/

theorem run_eq (σ : List (Option (K × V))) : ∀ (d s : Nat),
    (∀ j, s ≤ j → j < s + d → ∃ p, σ[j]? = some (some p)) → σ[s + d]? = some none →
    ((σ.drop s).takeWhile Option.isSome).filterMap id = seqOf σ (List.range' s d) := by
  intro d
  induction d with
  | zero =>
    intro s _ hemp
    have hlt : s < σ.length := lt_length_of_getElem? hemp
    have hs : σ[s] = none := by
      have := List.getElem?_eq_getElem hlt
      rw [Nat.add_zero] at hemp
      rw [this] at hemp
      exact Option.some.inj hemp
    rw [List.drop_eq_getElem_cons hlt, hs]
    simp [seqOf]
  | succ d ih =>
    intro s hocc hemp
    obtain ⟨p, hp⟩ := hocc s (by omega) (by omega)
    have hlt : s < σ.length := lt_length_of_getElem? hp
    have hs : σ[s] = some p := by
      have := List.getElem?_eq_getElem hlt
      rw [this] at hp
      exact Option.some.inj hp
    rw [List.drop_eq_getElem_cons hlt, hs, List.range'_succ, seqOf_cons_of hp]
    have := ih (s + 1) (fun j h1 h2 => hocc j (by omega) (by omega))
      (by rw [show s + 1 + d = s + (d + 1) by omega]; exact hemp)
    simp [this]

theorem seqOf_filter {σ : List (Option (K × V))} {ix : List Nat} (P : Nat → Bool)
    (Q : K × V → Bool) (h : ∀ j ∈ ix, ∀ q, σ[j]? = some (some q) → P j = Q q) :
    seqOf σ (ix.filter P) = (seqOf σ ix).filter Q := by
  induction ix with
  | nil => rfl
  | cons a r ih =>
    have hr := ih (fun j hj => h j (List.mem_cons_of_mem _ hj))
    cases ha : σ[a]? with
    | none =>
      have e1 : seqOf σ (a :: r) = seqOf σ r := by simp [seqOf, ha]
      rw [e1, ← hr]
      by_cases hP : P a = true
      · rw [List.filter_cons_of_pos hP]; simp [seqOf, ha]
      · rw [List.filter_cons_of_neg hP]
    | some x =>
      cases x with
      | none =>
        have e1 : seqOf σ (a :: r) = seqOf σ r := by simp [seqOf, ha]
        rw [e1, ← hr]
        by_cases hP : P a = true
        · rw [List.filter_cons_of_pos hP]; simp [seqOf, ha]
        · rw [List.filter_cons_of_neg hP]
      | some q =>
        have hPQ := h a (by simp) q ha
        rw [seqOf_cons_of ha]
        by_cases hP : P a = true
        · rw [List.filter_cons_of_pos hP, List.filter_cons_of_pos (by rw [← hPQ]; exact hP),
            seqOf_cons_of ha, hr]
        · rw [List.filter_cons_of_neg hP, List.filter_cons_of_neg (by rw [← hPQ]; exact hP), hr]

theorem erase_order [DecidableEq K] {m : HashMap K V} {s : List (K × V)} (h : Rep m s)
    {i : Nat} {p : K × V} (hi : (slots m)[i]? = some (some p)) :
    ∃ m1, erase m p.1 = some m1 ∧
      Rep m1 (s.filter (fun q => decide (q.1 ≠ p.1 ∧ q.1 ∉ (runAfter m i).map Prod.fst)) ++
        runAfter m i) ∧ m1.num_elements_ + 1 = m.num_elements_ := by
  obtain ⟨ix, hI, hs⟩ := h
  obtain ⟨e, m1, ix1, hie, hemp, hrun, h1, hI1, hs1, _, _, hnum⟩ := erase_present hI hi
  have hR : runAfter m i = seqOf (slots m) (List.range' (i + 1) (e - i - 1)) := by
    unfold runAfter
    exact run_eq (slots m) (e - i - 1) (i + 1) (fun j h2 h3 => hrun j (by omega) (by omega))
      (by rw [show i + 1 + (e - i - 1) = e by omega]; exact hemp)
  refine ⟨m1, h1, ⟨ix1, hI1, ?_⟩, hnum⟩
  rw [hs1, ← hR, ← hs]
  congr 1
  apply seqOf_filter
  intro j _ q hq
  rw [Bool.eq_iff_iff, outside_eq_true, decide_eq_true_iff]
  constructor
  · intro hout
    refine ⟨?_, ?_⟩
    · intro hk
      have := hI.layout.uniq j i q p hq hi hk
      omega
    · intro hmem
      obtain ⟨q2, hq2, hk⟩ := List.mem_map.1 hmem
      rw [hR] at hq2
      obtain ⟨j2, hj2, hjq2⟩ := mem_seqOf.1 hq2
      rw [List.mem_range'_1] at hj2
      have := hI.layout.uniq j2 j q2 q hjq2 hq hk
      omega
  · rintro ⟨hk, hnot⟩ ⟨h2, h3⟩
    by_cases hji : j = i
    · subst hji
      rw [hi] at hq
      simp at hq
      exact hk (by rw [hq])
    · apply hnot
      rw [hR]
      exact List.mem_map.2 ⟨q, mem_seqOf.2 ⟨j, by rw [List.mem_range'_1]; omega, hq⟩, rfl⟩

theorem assignStart_spec {this other : HashMap K V} {ix : List Nat}
    (hthis : Chain this ix) (hpos : 2 ≤ other.size_) :
    ∃ m3, assignStart this other = some m3 ∧ Inv m3 [] ∧ m3.num_elements_ = 0 ∧
      m3.size_ = other.size_ ∧ m3.hasher_ = other.hasher_ := by
  obtain ⟨m2, hcl, hc2, _, _, _⟩ := clear_spec hthis
  have htab := hc2.table_of_nil
  have hst : assignStart this other = some { m2 with
      hasher_ := other.hasher_, size_ := other.size_,
      table_ := resize m2.table_ (TableSize other.size_) } := by
    simp only [assignStart, hcl, Option.map_some']
  refine ⟨_, hst, ?_, hc2.num, rfl, rfl⟩
  apply Inv.of_empty
  · exact hc2.num
  · exact hc2.head
  · exact hc2.tail
  · show resize m2.table_ _ = _
    rw [htab, resize_replicate]
  · exact hpos

theorem assign_rep [DecidableEq K] {this other : HashMap K V} {ix : List Nat}
    {s : List (K × V)} (hthis : Chain this ix) (hother : Rep other s) :
    ∃ m3, assignStart this other = some m3 ∧
      (∀ n, ∃ mn, (s.take n).foldlM insert m3 = some mn ∧ mn.size_ = other.size_) ∧
      ∃ m1, assign this other = some m1 ∧ Rep m1 s ∧ m1.size_ = other.size_ ∧
        m1.hasher_ = other.hasher_ := by
  obtain ⟨hload, hpos, _⟩ := hother.load
  obtain ⟨m3, hstart, hI3, hnum3, hsz3, hh3⟩ := assignStart_spec hthis hpos
  have hsteps : ∀ l : List (K × V), l.Sublist s → ∃ m1 ix1,
      l.foldlM insert m3 = some m1 ∧
      Inv m1 ix1 ∧ seqOf (slots m1) ix1 = l ∧ m1.size_ = other.size_ ∧
      m1.hasher_ = other.hasher_ := by
    intro l hl
    obtain ⟨m1, ix1, h1, hI1, hs1, hsz1, hh1, _⟩ :=
      foldlM_insert_fit insert (fun m p => ⟨m.table_.length + 1, rfl⟩) l _ [] hI3
        ((hl.map Prod.fst).nodup hother.keys_nodup) (by intro p _; simp [seqOf])
        (by
          have := hl.length_le
          rw [hnum3, hsz3]; omega)
    exact ⟨m1, ix1, h1, hI1, by rw [hs1]; simp [seqOf], hsz1.trans hsz3, hh1.trans hh3⟩
  refine ⟨m3, hstart, ?_, ?_⟩
  · intro n
    obtain ⟨mn, _, h1, _, _, hsz, _⟩ := hsteps (s.take n) (List.take_sublist n s)
    exact ⟨mn, h1, hsz⟩
  · obtain ⟨m1, ix1, h1, hI1, hs1, hsz1, hh1⟩ := hsteps s (List.Sublist.refl s)
    refine ⟨m1, ?_, ⟨ix1, hI1, hs1⟩, hsz1, hh1⟩
    simp only [assign, hother.images, hstart, Option.some_bind]
    exact h1

theorem Chain.fresh (garbage : Nat) (hasher : K → Nat) :
    Chain ({ size_ := garbage, num_elements_ := 0, head_ := kEnd_, tail_ := kEnd_,
             table_ := [], hasher_ := hasher } : HashMap K V) [] := by
  refine ⟨List.nodup_nil, ?_, rfl, rfl, rfl, ?_⟩
  · intro i; simp
  · intro i c h; simp at h

end HashMap

end Cpp

/-! ## Fuel -/

namespace Cpp

namespace HashMap

variable {K V : Type}

/-! ### More fuel never changes a result -/

theorem foldlM_mono {ins1 ins2 : HashMap K V → K × V → Option (HashMap K V)}
    (h : ∀ m p r, ins1 m p = some r → ins2 m p = some r) :
    ∀ (l : List (K × V)) (m r : HashMap K V), l.foldlM ins1 m = some r →
      l.foldlM ins2 m = some r := by
  intro l
  induction l with
  | nil => intro m r hr; exact hr
  | cons p l ih =>
    intro m r hr
    rw [List.foldlM_cons] at hr ⊢
    cases h1 : ins1 m p with
    | none => rw [h1] at hr; cases hr
    | some m1 =>
      rw [h1] at hr
      rw [h m p m1 h1]
      exact ih m1 r hr

theorem RebuildWith_mono {ins1 ins2 : HashMap K V → K × V → Option (HashMap K V)}
    (h : ∀ m p r, ins1 m p = some r → ins2 m p = some r) (m r : HashMap K V)
    (hr : RebuildWith ins1 m = some r) : RebuildWith ins2 m = some r := by
  unfold RebuildWith at hr ⊢
  cases h1 : images m with
  | none => rw [h1] at hr; cases hr
  | some imgs =>
    rw [h1, Option.some_bind] at hr
    rw [Option.some_bind]
    cases h2 : clear m with
    | none => rw [h2] at hr; cases hr
    | some m1 =>
      rw [h2, Option.some_bind] at hr
      rw [Option.some_bind]
      exact foldlM_mono h _ _ _ hr

theorem insertFuel_mono [DecidableEq K] : ∀ (fuel : Nat) (m : HashMap K V) (p : K × V)
    (r : HashMap K V), insertFuel fuel m p = some r → insertFuel (fuel + 1) m p = some r := by
  intro fuel
  induction fuel with
  | zero => intro m p r hr; cases hr
  | succ f ih =>
    intro m p r hr
    rw [insertFuel] at hr ⊢
    cases hg : GetId m p.1 with
    | none => rw [hg] at hr; cases hr
    | some id =>
      rw [hg] at hr
      simp only at hr ⊢
      cases ht : m.table_[id]? with
      | none => rw [ht] at hr; cases hr
      | some x =>
        cases x with
        | some c => rw [ht] at hr; exact hr
        | none =>
          rw [ht] at hr
          simp only [insertIdWith] at hr ⊢
          cases hl : link m p id with
          | none => rw [hl] at hr; cases hr
          | some m1 =>
            rw [hl] at hr
            simp only [Option.some_bind] at hr ⊢
            split at hr
            · rename_i hgt
              rw [if_pos hgt]
              exact RebuildWith_mono ih m1 r hr
            · rename_i hgt
              rw [if_neg hgt]
              exact hr

end HashMap

end Cpp

/-! ## The claims on contents, order and copies -/

namespace Cpp

namespace HashMap

variable {K V : Type}

theorem reachable_foldlM [DecidableEq K] [Inhabited V] : ∀ (l : List (K × V))
    {m m1 : HashMap K V}, Reachable m → l.foldlM insert m = some m1 → Reachable m1 := by
  intro l
  induction l with
  | nil =>
    intro m m1 hm h
    simp at h
    rw [← h]; exact hm
  | cons p l ih =>
    intro m m1 hm h
    rw [List.foldlM_cons] at h
    cases h1 : insert m p with
    | none => rw [h1] at h; cases h
    | some m2 =>
      rw [h1] at h
      exact ih (Reachable.insert p hm h1) h

theorem exampleMap_reachable : Reachable exampleMap :=
  reachable_foldlM [(1, 10), (2, 20), (3, 30)]
    (Reachable.construct fun k => if k = 3 then 5 else 0) (by rfl)

theorem erase_size [DecidableEq K] {m : HashMap K V} {s : List (K × V)} (h : Rep m s)
    {k : K} (hk : k ∈ s.map Prod.fst) :
    ∃ m1, erase m k = some m1 ∧ m1.size + 1 = m.size := by
  obtain ⟨p, hp, hpk⟩ := List.mem_map.1 hk
  have h0 := h
  obtain ⟨ix, hI, hs⟩ := h
  rw [← hs] at hp
  obtain ⟨i, hi⟩ := (hI.mem_seq p).1 hp
  obtain ⟨m1, h1, _, hn⟩ := erase_order h0 hi
  rw [hpk] at h1
  exact ⟨m1, h1, hn⟩

/-- C1: for every hash function and every finite sequence `l` of pairs inserted one after
another with `insert` into a default-constructed container, the insertions succeed
(across any number of rebuilds), `size()` is the number of distinct keys of `l`, for every
key of `l` `find` returns a non-end iterator and `at` returns the value paired with the
first occurrence of the key in `l`, and for every other key `find` returns `end()`. -/
theorem insert_sequence_contents [DecidableEq K] (hasher : K → Nat) (l : List (K × V)) :
    ∃ m, l.foldlM insert (construct hasher) = some m ∧
      m.size = (l.map Prod.fst).toFinset.card ∧
      (∀ k ∈ l.map Prod.fst, ∃ v it,
        (l.find? fun q => decide (q.1 = k)).map Prod.snd = some v ∧
        find m k = some it ∧ it ≠ m.end_ ∧ at_ m k = some (Except.ok v)) ∧
      (∀ k, k ∉ l.map Prod.fst → find m k = some m.end_) := by
  obtain ⟨m, h1, hr⟩ := insert_all hasher l
  refine ⟨m, h1, ?_, ?_, ?_⟩
  · have : ((firstOccurrences l).map Prod.fst).toFinset = (l.map Prod.fst).toFinset := by
      ext k
      simp only [List.mem_toFinset]
      exact mem_keys_firstOccurrences l k
    rw [hr.size, ← this, List.toFinset_card_of_nodup hr.keys_nodup, List.length_map]
  · intro k hk
    cases hf : l.find? (fun q => decide (q.1 = k)) with
    | none =>
      rw [List.find?_eq_none] at hf
      obtain ⟨q, hq, hqk⟩ := List.mem_map.1 hk
      exact absurd (by simpa using hqk) (hf q hq)
    | some p =>
      have hpk : p.1 = k := by simpa using List.find?_some hf
      have hp : p ∈ firstOccurrences l := by
        rw [← find?_firstOccurrences] at hf
        exact List.mem_of_find?_eq_some hf
      obtain ⟨i, c, hfi, _⟩ := hr.find_present hp
      refine ⟨p.2, some i, rfl, by rw [← hpk]; exact hfi, by simp [end_, kEnd_], ?_⟩
      rw [← hpk]; exact hr.at_present hp
  · intro k hk
    exact hr.find_absent (fun h => hk ((mem_keys_firstOccurrences l k).1 h))

/-- C2: for every hash function and every finite sequence `l` of pairs inserted with
`insert` into a default-constructed container, iterating from `begin()` to `end()` yields
each distinct key once, in the order of the first occurrences and with the first-occurrence
values; and a rebuild of the resulting container doubles `size_` and leaves the iteration
sequence unchanged. -/
theorem insert_sequence_iteration [DecidableEq K] (hasher : K → Nat) (l : List (K × V)) :
    ∃ m, l.foldlM insert (construct hasher) = some m ∧
      images m = some (firstOccurrences l) ∧
      ∃ m1, Rebuild m = some m1 ∧ images m1 = images m ∧ m1.size_ = m.size_ * 2 := by
  obtain ⟨m, h1, hr⟩ := insert_all hasher l
  refine ⟨m, h1, hr.images, ?_⟩
  obtain ⟨ix, hI, hs⟩ := hr
  obtain ⟨m1, ix1, h2, hI1, hs1, hsz, _⟩ :=
    RebuildWith_spec (insertFuel (m.table_.length + 1)) (fun _ _ => ⟨m.table_.length, rfl⟩)
      hI.chain hI.layout hI.pos (by have := hI.load; omega)
  exact ⟨m1, h2, by rw [images_spec hI1.chain, images_spec hI.chain, hs1], hsz⟩

/-- C2, the scenario of the specification: inserting (1,"a"), (2,"b"), (3,"c") with
`hash(k) = k mod 2` iterates as (1,"a"), (2,"b"), (3,"c"). -/
theorem insert_sequence_iteration_witness :
    ∃ m : HashMap Nat String,
      [(1, "a"), (2, "b"), (3, "c")].foldlM insert (construct fun k => k % 2) = some m ∧
      images m = some [(1, "a"), (2, "b"), (3, "c")] := by
  obtain ⟨m, h1, h2, _⟩ :=
    insert_sequence_iteration (fun k => k % 2) [(1, "a"), (2, "b"), (3, "c")]
  exact ⟨m, h1, h2.trans (by decide)⟩

/-- C3: in every reachable state and for every key `k`, `erase(k)` succeeds; afterwards
`find(k)` is `end()`, `size()` is one less than before if `k` was present, and every other
key gives the same result of `at` as before (same value, or absent as before) and is found
by `find` exactly if it was found before. -/
theorem erase_lookup [DecidableEq K] [Inhabited V] {m : HashMap K V} (hm : Reachable m)
    (k : K) :
    ∃ m1, erase m k = some m1 ∧ find m1 k = some m1.end_ ∧
      ((∃ it, find m k = some it ∧ it ≠ m.end_) → m1.size + 1 = m.size) ∧
      ∀ k1, k1 ≠ k →
        at_ m1 k1 = at_ m k1 ∧ (find m1 k1 = some m1.end_ ↔ find m k1 = some m.end_) := by
  obtain ⟨s, hr⟩ := hm.rep
  obtain ⟨m1, s1, h1, hr1, _, _, hmem⟩ := erase_rep hr k
  refine ⟨m1, h1, ?_, ?_, ?_⟩
  · apply hr1.find_absent
    intro hk
    obtain ⟨q, hq, hqk⟩ := List.mem_map.1 hk
    exact ((hmem q).1 hq).2 hqk
  · intro hk
    obtain ⟨m2, h2, hsz⟩ := erase_size hr ((hr.present_iff k).1 hk)
    rw [h1] at h2
    cases h2
    exact hsz
  · intro k1 hk1
    apply lookup_congr hr hr1
    intro q hq
    rw [hmem]
    exact ⟨fun h => h.1, fun h => ⟨h, by rw [hq]; exact hk1⟩⟩

/-- C3 on the example: erasing key 1, whose probe cluster also holds key 2, leaves keys 2
and 3 with their values and removes key 1. -/
theorem erase_lookup_witness :
    Reachable exampleMap ∧ ∃ m1, erase exampleMap 1 = some m1 ∧ find m1 1 = some m1.end_ ∧
      m1.size + 1 = 3 ∧ at_ m1 2 = some (Except.ok 20) ∧ at_ m1 3 = some (Except.ok 30) := by
  refine ⟨exampleMap_reachable, ?_⟩
  obtain ⟨m1, h1, h2, h3, h4⟩ := erase_lookup exampleMap_reachable 1
  exact ⟨m1, h1, h2, h3 ⟨some 0, by rfl, by decide⟩, (h4 2 (by decide)).1.trans (by rfl),
    (h4 3 (by decide)).1.trans (by rfl)⟩

/-- C4: in every reachable state with a key stored at slot `i`, let `R` be the entries
of the slots `i + 1`, `i + 2`, ... before the first empty slot, in slot order.  After
erasing that key, iteration yields the previous sequence without the erased entry and
without the entries of `R`, in unchanged relative order, followed by `R`. -/
theorem erase_iteration_order [DecidableEq K] [Inhabited V] {m : HashMap K V}
    (hm : Reachable m) {i : Nat} {c : Cell K V} (hc : m.table_[i]? = some (some c)) :
    ∃ m1 s, images m = some s ∧ erase m c.key = some m1 ∧
      images m1 = some
        (s.filter (fun q => decide (q.1 ≠ c.key ∧ q.1 ∉ (runAfter m i).map Prod.fst)) ++
          runAfter m i) := by
  obtain ⟨s, hr⟩ := hm.rep
  have hi : (slots m)[i]? = some (some c.image) := by rw [slots_getElem?, hc]; rfl
  obtain ⟨m1, h1, hr1, _⟩ := erase_order hr hi
  exact ⟨m1, s, hr.images, h1, hr1.images⟩

/-- C4 on the example: key 1 sits at slot 0 and key 2 follows it at slot 1; erasing key 1
moves key 2 behind key 3 in the iteration order. -/
theorem erase_iteration_order_witness :
    Reachable exampleMap ∧ exampleMap.table_[0]? = some (some ⟨(1, 10), none, some 1⟩) ∧
      ∃ m1, erase exampleMap 1 = some m1 ∧ images exampleMap = some [(1, 10), (2, 20), (3, 30)] ∧
        images m1 = some [(3, 30), (2, 20)] := by
  refine ⟨exampleMap_reachable, by rfl, ?_⟩
  obtain ⟨m1, s, h1, h2, h3⟩ :=
    erase_iteration_order exampleMap_reachable
      (show exampleMap.table_[0]? = some (some ⟨(1, 10), none, some 1⟩) by rfl)
  have hs : s = [(1, 10), (2, 20), (3, 30)] := by
    have : images exampleMap = some [(1, 10), (2, 20), (3, 30)] := by rfl
    rw [this] at h1
    exact (Option.some.inj h1).symm
  subst hs
  exact ⟨m1, h2, by rfl, h3.trans (by decide)⟩

/-- C5: in every reachable state, `insert(k, v)` of a present key `k` returns the state
unchanged (value of `k`, `size()`, iteration sequence, `size_` and table included). -/
theorem insert_present_noop [DecidableEq K] [Inhabited V] {m : HashMap K V}
    (hm : Reachable m) (k : K) (v : V) (hk : ∃ it, find m k = some it ∧ it ≠ m.end_) :
    insert m (k, v) = some m := by
  obtain ⟨s, hr⟩ := hm.rep
  exact insert_present hr ((hr.present_iff k).1 hk)

/-- C5 on the example: inserting the present key 2 with another value changes nothing. -/
theorem insert_present_noop_witness :
    Reachable exampleMap ∧ (∃ it, find exampleMap 2 = some it ∧ it ≠ exampleMap.end_) ∧
      insert exampleMap (2, 99) = some exampleMap :=
  ⟨exampleMap_reachable, ⟨some 1, by rfl, by decide⟩,
    insert_present_noop exampleMap_reachable 2 99 ⟨some 1, by rfl, by decide⟩⟩

/-- C6: in every reachable state, `erase(k)` of an absent key `k` returns the state
unchanged. -/
theorem erase_absent_noop [DecidableEq K] [Inhabited V] {m : HashMap K V}
    (hm : Reachable m) (k : K) (hk : find m k = some m.end_) : erase m k = some m := by
  obtain ⟨s, hr⟩ := hm.rep
  obtain ⟨ix, hI, hs⟩ := hr
  exact erase_absent hI (by rw [hs]; exact ((Rep.find_iff ⟨ix, hI, hs⟩ k).1 hk))

/-- C6 on the example: erasing the absent key 7 changes nothing. -/
theorem erase_absent_noop_witness :
    Reachable exampleMap ∧ find exampleMap 7 = some exampleMap.end_ ∧
      erase exampleMap 7 = some exampleMap :=
  ⟨exampleMap_reachable, by rfl, erase_absent_noop exampleMap_reachable 7 (by rfl)⟩

/-- C7: in every reachable state and for every key `k`, `at(k)` throws the key-not-found
error exactly when `find(k)` is `end()`; when `find(k)` is a slot, that slot holds `k` and
`at(k)` returns the value stored there; and both calls are defined. -/
theorem at_iff_find [DecidableEq K] [Inhabited V] {m : HashMap K V} (hm : Reachable m)
    (k : K) :
    (at_ m k = some (Except.error "key is not found") ↔ find m k = some m.end_) ∧
    (∀ i, find m k = some (some i) →
      ∃ c, m.table_[i]? = some (some c) ∧ c.key = k ∧ at_ m k = some (Except.ok c.value)) ∧
    (find m k = some m.end_ ∨ ∃ i, find m k = some (some i)) := by
  obtain ⟨s, hr⟩ := hm.rep
  by_cases hk : k ∈ s.map Prod.fst
  · obtain ⟨p, hp, hpk⟩ := List.mem_map.1 hk
    obtain ⟨i, c, hf, hc, hcp⟩ := hr.find_present hp
    have ha := hr.at_present hp
    rw [hpk] at hf ha
    refine ⟨?_, ?_, Or.inr ⟨i, hf⟩⟩
    · rw [ha, hf]
      constructor
      · intro h; cases h
      · intro h; cases h
    · intro j hj
      rw [hf] at hj
      cases hj
      exact ⟨c, hc, by rw [← hpk, ← hcp]; rfl, by rw [ha, ← hcp]; rfl⟩
  · have hf := hr.find_absent hk
    have ha := hr.at_absent hk
    refine ⟨⟨fun _ => hf, fun _ => ha⟩, ?_, Or.inl hf⟩
    intro j hj
    rw [hf] at hj
    cases hj

/-- C7 on the example: `at(7)` throws and `find(7)` is `end()`; `at(3)` is 30. -/
theorem at_iff_find_witness :
    Reachable exampleMap ∧ at_ exampleMap 7 = some (Except.error "key is not found") ∧
      at_ exampleMap 3 = some (Except.ok 30) := by
  refine ⟨exampleMap_reachable, (at_iff_find exampleMap_reachable 7).1.2 (by rfl), ?_⟩
  obtain ⟨c, h1, _, h3⟩ := (at_iff_find exampleMap_reachable 3).2.1 5 (by rfl)
  have : c = ⟨(3, 30), some 1, none⟩ := by
    have h2 : exampleMap.table_[5]? = some (some ⟨(3, 30), some 1, none⟩) := by rfl
    rw [h2] at h1
    exact (Option.some.inj (Option.some.inj h1)).symm
  rw [h3, this]
  rfl

/-- C8: in every reachable state, `operator[](k)` succeeds and yields the value stored
for `k` afterwards.  If `k` was absent it is inserted with the default value at the tail
of the iteration order and `size()` grows by one (also across a rebuild); if `k` was
present the state is unchanged and the value is the one stored before.  Every other key
keeps its result of `at`. -/
theorem index_spec [DecidableEq K] [Inhabited V] {m : HashMap K V} (hm : Reachable m)
    (k : K) :
    ∃ m1 v, index m k = some (m1, v) ∧ at_ m1 k = some (Except.ok v) ∧
      (find m k = some m.end_ → v = default ∧ m1.size = m.size + 1 ∧
        ∃ s, images m = some s ∧ images m1 = some (s ++ [(k, default)])) ∧
      ((∃ it, find m k = some it ∧ it ≠ m.end_) → m1 = m ∧ at_ m k = some (Except.ok v)) ∧
      ∀ k1, k1 ≠ k → at_ m1 k1 = at_ m k1 := by
  obtain ⟨s, hr⟩ := hm.rep
  obtain ⟨m1, v, h1, hins, hr1, hv⟩ := index_rep hr k
  have hat : at_ m1 k = some (Except.ok v) := hr1.at_present hv
  refine ⟨m1, v, h1, hat, ?_, ?_, ?_⟩
  · intro hf
    have hk : k ∉ s.map Prod.fst := (hr.find_iff k).1 hf
    rw [if_neg hk] at hr1 hv
    refine ⟨?_, ?_, s, hr.images, hr1.images⟩
    · rcases List.mem_append.1 hv with h | h
      · exact absurd (List.mem_map.2 ⟨(k, v), h, rfl⟩) hk
      · simp at h; exact h
    · rw [hr1.size, hr.size]; simp
  · intro hf
    have hk : k ∈ s.map Prod.fst := (hr.present_iff k).1 hf
    have := insert_present hr (p := (k, default)) hk
    rw [this] at hins
    cases hins
    exact ⟨rfl, hat⟩
  · intro k1 hk1
    apply (lookup_congr hr hr1 _).1
    intro q hq
    by_cases hk : k ∈ s.map Prod.fst
    · rw [if_pos hk]
    · rw [if_neg hk, List.mem_append]
      constructor
      · rintro (h | h)
        · exact h
        · simp at h
          rw [h] at hq
          exact absurd hq.symm hk1
      · exact Or.inl

/-- C8 on the example: `operator[](7)` inserts key 7 with value 0 and `size()` becomes
4. -/
theorem index_spec_witness :
    Reachable exampleMap ∧ ∃ m1, index exampleMap 7 = some (m1, 0) ∧ m1.size = 4 ∧
      at_ m1 7 = some (Except.ok 0) := by
  refine ⟨exampleMap_reachable, ?_⟩
  obtain ⟨m1, v, h1, h2, h3, _⟩ := index_spec exampleMap_reachable 7
  obtain ⟨hv, hsz, _⟩ := h3 (by rfl)
  have hv0 : v = 0 := hv
  subst hv0
  exact ⟨m1, h1, hsz, h2⟩

/-- C9: in every reachable state `clear()` terminates and leaves the container empty:
`size()` is 0, `empty()` holds, `begin()` equals `end()`, `head_` and `tail_` are `kEnd_`,
every slot of the table is empty, `find` returns `end()` for every key, and `size_` and
the length of the table are unchanged. -/
theorem clear_empties [DecidableEq K] [Inhabited V] {m : HashMap K V} (hm : Reachable m) :
    ∃ m1, clear m = some m1 ∧ m1.size = 0 ∧ m1.empty = true ∧ m1.begin_ = m1.end_ ∧
      m1.head_ = kEnd_ ∧ m1.tail_ = kEnd_ ∧ (∀ x ∈ m1.table_, x = none) ∧
      (∀ k, find m1 k = some m1.end_) ∧ m1.size_ = m.size_ ∧
      m1.table_.length = m.table_.length := by
  obtain ⟨s, hr⟩ := hm.rep
  obtain ⟨m1, h1, hr1, hsz, _, htab, hh, ht, hn⟩ := clear_rep hr
  refine ⟨m1, h1, hn, by simp [empty, hn], hh, hh, ht, ?_, ?_, hsz, by rw [htab]; simp⟩
  · intro x hx
    rw [htab] at hx
    exact (List.mem_replicate.1 hx).2
  · intro k
    exact hr1.find_absent (by simp)

/-- C9 on the example: `clear()` empties the three-entry container and keeps `size_` 8. -/
theorem clear_empties_witness :
    Reachable exampleMap ∧ ∃ m1, clear exampleMap = some m1 ∧ m1.size = 0 ∧
      find m1 2 = some m1.end_ ∧ m1.size_ = 8 := by
  refine ⟨exampleMap_reachable, ?_⟩
  obtain ⟨m1, h1, h2, _, _, _, _, _, h3, h4, _⟩ := clear_empties exampleMap_reachable
  exact ⟨m1, h1, h2, h3 2, h4⟩

/-- C10: for every reachable source and every reachable destination, copy assignment
succeeds and makes the destination iterate the same sequence of pairs as the source, with
the same `size()` and the same `size_`; after each of the insertions of the copy `size_`
still equals the source's, so none of them rebuilds.  The same holds for copy
construction, whatever value the uninitialised `size_` of the new object has. -/
theorem assign_copies [DecidableEq K] [Inhabited V] {src dst : HashMap K V}
    (hsrc : Reachable src) (hdst : Reachable dst) :
    ∃ s, images src = some s ∧
      (∃ m3 m1, assignStart dst src = some m3 ∧
        (∀ n, ∃ mn, (s.take n).foldlM insert m3 = some mn ∧ mn.size_ = src.size_) ∧
        assign dst src = some m1 ∧ images m1 = some s ∧ m1.size = src.size ∧
        m1.size_ = src.size_) ∧
      ∀ garbage, ∃ m3 m1,
        assignStart { size_ := garbage, num_elements_ := 0, head_ := kEnd_, tail_ := kEnd_,
                      table_ := [], hasher_ := src.hasher_ } src = some m3 ∧
        (∀ n, ∃ mn, (s.take n).foldlM insert m3 = some mn ∧ mn.size_ = src.size_) ∧
        copyConstruct garbage src = some m1 ∧ images m1 = some s ∧ m1.size = src.size ∧
        m1.size_ = src.size_ := by
  obtain ⟨s, hr⟩ := hsrc.rep
  obtain ⟨sd, ixd, hId, _⟩ := hdst.rep
  refine ⟨s, hr.images, ?_, ?_⟩
  · obtain ⟨m3, h3, hsteps, m1, h1, hr1, hsz, _⟩ := assign_rep hId.chain hr
    exact ⟨m3, m1, h3, hsteps, h1, hr1.images, by rw [hr1.size, hr.size], hsz⟩
  · intro garbage
    obtain ⟨m3, h3, hsteps, m1, h1, hr1, hsz, _⟩ :=
      assign_rep (Chain.fresh garbage src.hasher_) hr
    exact ⟨m3, m1, h3, hsteps, h1, hr1.images, by rw [hr1.size, hr.size], hsz⟩

/-- C10 on the example: assigning the three-entry container to a default-constructed one
copies its sequence and its `size_` 8. -/
theorem assign_copies_witness :
    Reachable exampleMap ∧ Reachable (construct (fun k => k) : HashMap Nat Nat) ∧
      ∃ m1, assign (construct fun k => k) exampleMap = some m1 ∧
        images m1 = some [(1, 10), (2, 20), (3, 30)] ∧ m1.size_ = 8 := by
  refine ⟨exampleMap_reachable, Reachable.construct _, ?_⟩
  obtain ⟨s, h1, ⟨_, m1, _, _, h2, h3, _, h4⟩, _⟩ :=
    assign_copies exampleMap_reachable (Reachable.construct fun k => k)
  have hs : s = [(1, 10), (2, 20), (3, 30)] := by
    have : images exampleMap = some [(1, 10), (2, 20), (3, 30)] := by rfl
    rw [this] at h1
    exact (Option.some.inj h1).symm
  subst hs
  exact ⟨m1, h2, h3, h4⟩

end HashMap

end Cpp

/-! ## Construction from a list and the invariants -/

namespace Cpp

namespace HashMap

variable {K V : Type}

/-! ### Insertions that fit never rebuild -/

theorem foldlM_insert_keep [DecidableEq K] : ∀ (l : List (K × V)) (m : HashMap K V)
    (s : List (K × V)), Rep m s → 2 * (s.length + l.length) ≤ m.size_ →
    ∃ m1, l.foldlM insert m = some m1 ∧ m1.hasher_ = m.hasher_ ∧ m1.size_ = m.size_ ∧
      Rep m1 (s ++ (firstOccurrences l).filter fun q => decide (q.1 ∉ s.map Prod.fst)) := by
  intro l
  induction l with
  | nil =>
    intro m s h _
    exact ⟨m, rfl, rfl, rfl, by simpa [firstOccurrences] using h⟩
  | cons p l ih =>
    intro m s h hload
    simp only [List.length_cons] at hload
    by_cases hp : p.1 ∈ s.map Prod.fst
    · have h1 := insert_present h hp
      obtain ⟨m2, h2, hh2, hsz2, hr2⟩ := ih m s h (by omega)
      refine ⟨m2, ?_, hh2, hsz2, ?_⟩
      · rw [List.foldlM_cons, h1]; exact h2
      · have : (firstOccurrences (p :: l)).filter (fun q => decide (q.1 ∉ s.map Prod.fst)) =
            (firstOccurrences l).filter (fun q => decide (q.1 ∉ s.map Prod.fst)) := by
          simp only [firstOccurrences]
          rw [List.filter_cons_of_neg (by simpa using hp), List.filter_filter]
          apply List.filter_congr
          intro q _
          by_cases hq : q.1 ∈ s.map Prod.fst
          · simp [hq]
          · have : q.1 ≠ p.1 := fun h => hq (h ▸ hp)
            simp [hq, this]
        rw [this]; exact hr2
    · obtain ⟨m1, h1, hr1, hh1, hsz1⟩ := insert_absent h hp
      rw [if_pos (by omega)] at hsz1
      obtain ⟨m2, h2, hh2, hsz2, hr2⟩ := ih m1 (s ++ [p]) hr1 (by
        rw [hsz1, List.length_append, List.length_singleton]; omega)
      refine ⟨m2, ?_, hh2.trans hh1, hsz2.trans hsz1, ?_⟩
      · rw [List.foldlM_cons, h1]; exact h2
      · have : s ++ (firstOccurrences (p :: l)).filter (fun q => decide (q.1 ∉ s.map Prod.fst)) =
            (s ++ [p]) ++ (firstOccurrences l).filter
              (fun q => decide (q.1 ∉ (s ++ [p]).map Prod.fst)) := by
          simp only [firstOccurrences]
          rw [List.filter_cons_of_pos (by simpa using hp), List.filter_filter,
            List.append_assoc, List.singleton_append]
          congr 2
          apply List.filter_congr
          intro q _
          simp only [List.map_append, List.mem_append, List.map_cons, List.map_nil,
            List.mem_singleton, not_or]
          by_cases h1 : q.1 ∈ s.map Prod.fst <;> by_cases h2 : q.1 = p.1 <;> simp [h1, h2]
        rw [this]; exact hr2

theorem Rep.of_fresh (hasher : K → Nat) {n : Nat} (hn : 2 ≤ n) :
    Rep ({ size_ := n, num_elements_ := 0, head_ := kEnd_, tail_ := kEnd_,
           table_ := resize [] (TableSize n), hasher_ := hasher } : HashMap K V) [] := by
  refine ⟨[], Inv.of_empty rfl rfl rfl ?_ hn, rfl⟩
  show resize [] (TableSize n) = List.replicate (TableSize n) none
  simp [resize]

theorem length_firstOccurrences [DecidableEq K] (l : List (K × V))
    (hnd : ((firstOccurrences l).map Prod.fst).Nodup) :
    (firstOccurrences l).length = (l.map Prod.fst).toFinset.card := by
  have : ((firstOccurrences l).map Prod.fst).toFinset = (l.map Prod.fst).toFinset := by
    ext k
    simp only [List.mem_toFinset]
    exact mem_keys_firstOccurrences l k
  rw [← this, List.toFinset_card_of_nodup hnd, List.length_map]

theorem constructList_rep [DecidableEq K] (l : List (K × V)) (hasher : K → Nat)
    (hl : l ≠ []) :
    (∀ n, ∃ mn, (l.take n).foldlM insert
        ({ size_ := l.length * 2, num_elements_ := 0, head_ := kEnd_, tail_ := kEnd_,
           table_ := resize [] (TableSize (l.length * 2)), hasher_ := hasher } :
          HashMap K V) = some mn ∧ mn.size_ = l.length * 2) ∧
    ∃ m, constructList l hasher = some m ∧ Rep m (firstOccurrences l) ∧
      m.size_ = l.length * 2 ∧ m.hasher_ = hasher := by
  have hpos : 2 ≤ l.length * 2 := by
    have := List.length_pos.2 hl
    omega
  have h0 := Rep.of_fresh (V := V) hasher hpos
  constructor
  · intro n
    obtain ⟨mn, h1, _, hsz, _⟩ := foldlM_insert_keep (l.take n) _ [] h0 (by
      have := (List.take_sublist n l).length_le
      show 2 * (0 + (l.take n).length) ≤ l.length * 2
      omega)
    exact ⟨mn, h1, hsz⟩
  · obtain ⟨m, h1, hh, hsz, hr⟩ := foldlM_insert_keep l _ [] h0 (by
      show 2 * (0 + l.length) ≤ l.length * 2
      omega)
    exact ⟨m, h1, by simpa using hr, hsz, hh⟩

/-- C11: for every hash function and every list `l` of pairs, the initializer-list
constructor succeeds; the container has `size()` equal to the number of distinct keys of
`l`, iterates the pairs of `l` with later duplicates of a key dropped (first occurrences,
in order), and has `size_ = 2 * length l`; after each of the insertions `size_` is still
`2 * length l`, so the construction never rebuilds. -/
theorem constructList_spec [DecidableEq K] (hasher : K → Nat) (l : List (K × V)) :
    ∃ m, constructList l hasher = some m ∧ m.size = (l.map Prod.fst).toFinset.card ∧
      images m = some (firstOccurrences l) ∧ m.size_ = 2 * l.length ∧
      ∀ n, ∃ mn, (l.take n).foldlM insert
        ({ size_ := l.length * 2, num_elements_ := 0, head_ := kEnd_, tail_ := kEnd_,
           table_ := resize [] (TableSize (l.length * 2)), hasher_ := hasher } :
          HashMap K V) = some mn ∧ mn.size_ = 2 * l.length := by
  by_cases hl : l = []
  · subst hl
    refine ⟨_, rfl, rfl, ?_, rfl, ?_⟩
    · show collect _ _ none = some []
      exact collect_none _ _
    intro n
    rw [List.take_nil]
    exact ⟨_, rfl, rfl⟩
  · obtain ⟨hsteps, m, h1, hr, hsz, _⟩ := constructList_rep l hasher hl
    refine ⟨m, h1, ?_, hr.images, by omega, ?_⟩
    · rw [hr.size]
      exact length_firstOccurrences l hr.keys_nodup
    · intro n
      obtain ⟨mn, h2, h3⟩ := hsteps n
      exact ⟨mn, h2, by omega⟩

/-- C11 on an example: the list (1,10), (2,20), (1,30) gives a container of two entries
with `size_` 6 that iterates (1,10), (2,20). -/
theorem constructList_spec_witness :
    ∃ m : HashMap Nat Nat, constructList [(1, 10), (2, 20), (1, 30)] (fun k => k) = some m ∧
      m.size = 2 ∧ images m = some [(1, 10), (2, 20)] ∧ m.size_ = 6 := by
  obtain ⟨m, h1, h2, h3, h4, _⟩ :=
    constructList_spec (fun k => k) [(1, 10), (2, 20), (1, 30)]
  exact ⟨m, h1, h2.trans (by decide), h3.trans (by decide), h4⟩

/-! ### The invariants in reachable states -/

/-- C12: the linear-probe invariant.  In every reachable state, for every occupied slot
`i` holding key `K`, `hash(K) mod size_ ≤ i` and every slot from `hash(K) mod size_` to
`i` is occupied. -/
theorem probe_invariant [DecidableEq K] [Inhabited V] {m : HashMap K V} (hm : Reachable m)
    (i : Nat) (c : Cell K V) (hc : m.table_[i]? = some (some c)) :
    m.hasher_ c.key % m.size_ ≤ i ∧
      ∀ j, m.hasher_ c.key % m.size_ ≤ j → j ≤ i → ∃ d, m.table_[j]? = some (some d) := by
  obtain ⟨s, ix, hI, _⟩ := hm.rep
  have hi : (slots m)[i]? = some (some c.image) := by rw [slots_getElem?, hc]; rfl
  obtain ⟨h1, h2⟩ := hI.layout.reach i c.image hi
  exact ⟨h1, fun j hj1 hj2 => (occ_iff m j).2 (h2 j hj1 hj2)⟩

/-- C12 on the example: key 2 has home slot 0 and sits at slot 1; slots 0 and 1 are
occupied. -/
theorem probe_invariant_witness :
    Reachable exampleMap ∧ exampleMap.table_[1]? = some (some ⟨(2, 20), some 0, some 5⟩) ∧
      (exampleMap.hasher_ 2 % exampleMap.size_ ≤ 1 ∧
        ∀ j, exampleMap.hasher_ 2 % exampleMap.size_ ≤ j → j ≤ 1 →
          ∃ d, exampleMap.table_[j]? = some (some d)) :=
  ⟨exampleMap_reachable, by rfl,
    probe_invariant exampleMap_reachable 1 ⟨(2, 20), some 0, some 5⟩ (by rfl)⟩

/-- C14: the load invariant.  In every reachable state `size() * 2 ≤ size_`. -/
theorem load_invariant [DecidableEq K] [Inhabited V] {m : HashMap K V} (hm : Reachable m) :
    m.size * 2 ≤ m.size_ := by
  obtain ⟨s, hr⟩ := hm.rep
  rw [hr.size]
  have := hr.load.1
  omega

/-- C14 on the example: three entries, `size_` 8. -/
theorem load_invariant_witness : Reachable exampleMap ∧ 3 * 2 ≤ 8 :=
  ⟨exampleMap_reachable, load_invariant exampleMap_reachable⟩

/-- C16: key uniqueness.  In every reachable state two occupied slots with equal keys are
the same slot. -/
theorem key_uniqueness [DecidableEq K] [Inhabited V] {m : HashMap K V} (hm : Reachable m)
    (i j : Nat) (c d : Cell K V) (hc : m.table_[i]? = some (some c))
    (hd : m.table_[j]? = some (some d)) (hk : c.key = d.key) : i = j := by
  obtain ⟨s, ix, hI, _⟩ := hm.rep
  have hi : (slots m)[i]? = some (some c.image) := by rw [slots_getElem?, hc]; rfl
  have hj : (slots m)[j]? = some (some d.image) := by rw [slots_getElem?, hd]; rfl
  exact hI.layout.uniq i j c.image d.image hi hj hk

/-- C16 on the example: slots 1 and 5 hold the distinct keys 2 and 3, so a slot holding
key 2 next to slot 1 is slot 1. -/
theorem key_uniqueness_witness :
    Reachable exampleMap ∧ ∀ j d, exampleMap.table_[j]? = some (some d) → d.key = 2 → 1 = j :=
  ⟨exampleMap_reachable, fun j d hd hk =>
    key_uniqueness exampleMap_reachable 1 j ⟨(2, 20), some 0, some 5⟩ d (by rfl) hd
      (by rw [hk]; rfl)⟩

/-- C17: the growth policy.  In every reachable state `size_ ≥ 2`; inserting an absent
key leaves `size_` unchanged when `2 * (size() + 1) ≤ size_` and makes it exactly
`2 * size_` otherwise; inserting a present key, `erase` and `clear` leave `size_`
unchanged. -/
theorem growth_policy [DecidableEq K] [Inhabited V] {m : HashMap K V} (hm : Reachable m)
    (k : K) (v : V) :
    2 ≤ m.size_ ∧
    (find m k = some m.end_ → ∃ m1, insert m (k, v) = some m1 ∧
      m1.size_ = if 2 * (m.size + 1) ≤ m.size_ then m.size_ else 2 * m.size_) ∧
    ((∃ it, find m k = some it ∧ it ≠ m.end_) →
      ∃ m1, insert m (k, v) = some m1 ∧ m1.size_ = m.size_) ∧
    (∃ m1, erase m k = some m1 ∧ m1.size_ = m.size_) ∧
    ∃ m1, clear m = some m1 ∧ m1.size_ = m.size_ := by
  obtain ⟨s, hr⟩ := hm.rep
  refine ⟨hr.load.2.1, ?_, ?_, ?_, ?_⟩
  · intro hf
    have hk : k ∉ s.map Prod.fst := (hr.find_iff k).1 hf
    obtain ⟨m1, h1, _, _, hsz⟩ := insert_absent hr (p := (k, v)) hk
    refine ⟨m1, h1, ?_⟩
    rw [hsz, hr.size]
    by_cases hfit : 2 * (s.length + 1) ≤ m.size_
    · rw [if_pos hfit, if_pos hfit]
    · rw [if_neg hfit, if_neg hfit]; omega
  · intro hf
    have hk : k ∈ s.map Prod.fst := (hr.present_iff k).1 hf
    exact ⟨m, insert_present hr (p := (k, v)) hk, rfl⟩
  · obtain ⟨m1, _, h1, _, hsz, _⟩ := erase_rep hr k
    exact ⟨m1, h1, hsz⟩
  · obtain ⟨m1, h1, _, hsz, _⟩ := clear_rep hr
    exact ⟨m1, h1, hsz⟩

/-- C17 on an example: a container with one entry and `size_` 2 gets `size_` 4 by the
insertion of a second key: one rebuild, no cascade. -/
theorem growth_policy_witness :
    Reachable exampleOne ∧ find exampleOne 2 = some exampleOne.end_ ∧
      ∃ m1, insert exampleOne (2, 20) = some m1 ∧ m1.size_ = 4 := by
  have hr : Reachable exampleOne :=
    Reachable.insert (1, 10) (Reachable.construct fun _ => 1) (by rfl)
  refine ⟨hr, by rfl, ?_⟩
  obtain ⟨m1, h1, h2⟩ := (growth_policy hr 2 20).2.1 (by rfl)
  exact ⟨m1, h1, h2.trans (by decide)⟩

end HashMap

end Cpp

/-! ## The insertion-order list -/

namespace Cpp

namespace HashMap

variable {K V : Type}

theorem visit_none (t : List (Option (Cell K V))) (fuel : Nat) : visit t fuel none = some [] := by
  cases fuel <;> rfl

theorem visit_spec {m : HashMap K V} {ix : List Nat} (hc : Chain m ix) :
    ∀ (s pre : List Nat) (fuel : Nat), ix = pre ++ s → s.length ≤ fuel →
      visit m.table_ fuel s.head? = some s := by
  intro s
  induction s with
  | nil => intro pre fuel _ _; simp [visit_none]
  | cons a s ih =>
    intro pre fuel hix hfuel
    obtain ⟨f, rfl⟩ : ∃ f, fuel = f + 1 := ⟨fuel - 1, by simp at hfuel; omega⟩
    have ha : a ∈ ix := by rw [hix]; simp
    obtain ⟨c, hcell⟩ := (hc.cover a).1 ha
    have hnext : c.next = s.head? := by
      rw [(hc.links a c hcell).1, hix]
      exact nextOf_append_cons (hix ▸ hc.nodup)
    simp only [List.head?_cons, visit, hcell, hnext]
    rw [ih (pre ++ [a]) f (by simp [hix]) (by simp at hfuel; omega)]
    rfl

theorem slotsVisited_spec {m : HashMap K V} {ix : List Nat} (hc : Chain m ix) :
    slotsVisited m = some ix := by
  unfold slotsVisited
  rw [hc.head]
  exact visit_spec hc ix [] _ rfl hc.length_le

theorem Chain.count_occupied {m : HashMap K V} {ix : List Nat} (hc : Chain m ix) :
    ((List.range m.table_.length).filter fun i => ((m.table_[i]?).join).isSome).length =
      ix.length := by
  apply List.Perm.length_eq
  rw [List.perm_ext_iff_of_nodup ((List.nodup_range _).filter _) hc.nodup]
  intro i
  rw [List.mem_filter, List.mem_range, hc.cover]
  constructor
  · rintro ⟨_, h⟩
    cases h1 : m.table_[i]? with
    | none => rw [h1] at h; simp at h
    | some x =>
      cases x with
      | none => rw [h1] at h; simp at h
      | some c => exact ⟨c, rfl⟩
  · rintro ⟨c, h⟩
    exact ⟨lt_length_of_getElem? h, by rw [h]; rfl⟩

/-- C15: the insertion-order list.  In every reachable state, following the `next` links
from `head_` reaches `kEnd_` after exactly `size()` steps and visits every occupied slot
once and no other slot; the first visited slot is `head_` and the last is `tail_`; `prev`
is the inverse of `next` and both point to occupied slots; the slot with `prev = kEnd_` is
the head and the slot with `next = kEnd_` is the tail; `size()` is the number of occupied
slots; and `head_` (or `tail_`) is `kEnd_` exactly when the container is empty.  The
reachable states are closed under the public operations, so each preserves this. -/
theorem list_invariant [DecidableEq K] [Inhabited V] {m : HashMap K V} (hm : Reachable m) :
    ∃ ix, slotsVisited m = some ix ∧ ix.length = m.size ∧ ix.Nodup ∧
      (∀ i, i ∈ ix ↔ ∃ c, m.table_[i]? = some (some c)) ∧
      ix.head? = m.head_ ∧ ix.getLast? = m.tail_ ∧
      (∀ (i j : Nat) (ci cj : Cell K V), m.table_[i]? = some (some ci) →
        m.table_[j]? = some (some cj) →
        (ci.next = some j ↔ cj.prev = some i)) ∧
      (∀ (i j : Nat) (ci : Cell K V), m.table_[i]? = some (some ci) →
        ci.next = some j ∨ ci.prev = some j →
        ∃ cj, m.table_[j]? = some (some cj)) ∧
      (∀ (i : Nat) (c : Cell K V), m.table_[i]? = some (some c) →
        (c.prev = kEnd_ ↔ m.head_ = some i) ∧ (c.next = kEnd_ ↔ m.tail_ = some i)) ∧
      m.size = ((List.range m.table_.length).filter
        fun i => ((m.table_[i]?).join).isSome).length ∧
      (m.head_ = kEnd_ ↔ m.empty = true) ∧ (m.tail_ = kEnd_ ↔ m.empty = true) := by
  obtain ⟨s, ix, hI, _⟩ := hm.rep
  have hc := hI.chain
  have hempty : m.empty = true ↔ ix = [] := by
    simp only [empty, beq_iff_eq, hc.num]
    exact List.length_eq_zero
  refine ⟨ix, slotsVisited_spec hc, hc.num.symm, hc.nodup, hc.cover, hc.head.symm,
    hc.tail.symm, ?_, ?_, ?_, ?_, ?_, ?_⟩
  · intro i j ci cj hi hj
    rw [(hc.links i ci hi).1, (hc.links j cj hj).2]
    exact nextOf_iff_prevOf hc.nodup j i
  · intro i j ci hi h
    apply (hc.cover j).1
    rcases h with h | h
    · rw [(hc.links i ci hi).1] at h
      exact (nextOf_mem h).2
    · rw [(hc.links i ci hi).2] at h
      exact (prevOf_mem h).2
  · intro i c hi
    have hmem : i ∈ ix := (hc.cover i).2 ⟨c, hi⟩
    rw [(hc.links i c hi).1, (hc.links i c hi).2, hc.head, hc.tail]
    exact ⟨⟨head_of_prevOf hmem, prevOf_head hc.nodup⟩,
      ⟨last_of_nextOf hmem, nextOf_last hc.nodup⟩⟩
  · rw [hc.count_occupied]; exact hc.num
  · rw [hempty, hc.head]
    cases ix <;> simp [kEnd_]
  · rw [hempty, hc.tail]
    exact List.getLast?_eq_none_iff

/-- C15 on the example: the walk visits the slots 0, 1, 5. -/
theorem list_invariant_witness :
    Reachable exampleMap ∧ ∃ ix, slotsVisited exampleMap = some ix ∧ ix = [0, 1, 5] ∧
      ix.length = exampleMap.size ∧ ix.getLast? = exampleMap.tail_ := by
  refine ⟨exampleMap_reachable, ?_⟩
  obtain ⟨ix, h1, h2, _, _, _, h3, _⟩ := list_invariant exampleMap_reachable
  refine ⟨ix, h1, ?_, h2, h3⟩
  have : slotsVisited exampleMap = some [0, 1, 5] := by rfl
  rw [this] at h1
  exact (Option.some.inj h1).symm

end HashMap

end Cpp

/-! ## Table length and capacity -/

namespace Cpp

namespace HashMap

variable {K V : Type}

/-! ### The length of the table -/

theorem constructRange_rep [DecidableEq K] (src : HashMap K V) (first last : Option Nat)
    (hasher : K → Nat) {imgs : List (K × V)}
    (h : collectRange src.table_ src.table_.length first last = some imgs) :
    ∃ m, constructRange src first last hasher = some m ∧ Rep m (firstOccurrences imgs) ∧
      m.size_ = (imgs.length + 1) * 2 := by
  have h0 := Rep.of_fresh (V := V) hasher (show 2 ≤ (imgs.length + 1) * 2 by omega)
  obtain ⟨m, h1, _, hsz, hr⟩ := foldlM_insert_keep imgs _ [] h0 (by
    show 2 * (0 + imgs.length) ≤ (imgs.length + 1) * 2
    omega)
  refine ⟨m, ?_, by simpa using hr, hsz⟩
  simp only [constructRange, h, Option.some_bind]
  exact h1

/-- C20 at the failing input: the initializer-list constructor on the empty list yields a
container with `size_` 0 and an empty table, on which `insert`, `find`, `at`, `erase` and
`operator[]` compute `hasher_(key) % 0` and are undefined; so is its copy.  The range
constructor on an empty range yields `size_` 2. -/
theorem constructList_empty_capacity_zero :
    ∃ m0 : HashMap Nat Nat, constructList [] (fun k => k) = some m0 ∧ m0.size_ = 0 ∧
      m0.table_.length = 0 ∧ insert m0 (1, 10) = none ∧ find m0 1 = none ∧
      at_ m0 1 = none ∧ erase m0 1 = none ∧ index m0 1 = none ∧
      (∃ m1, copyConstruct 7 m0 = some m1 ∧ m1.size_ = 0 ∧ insert m1 (1, 10) = none) ∧
      ∃ m2, constructRange exampleMap none none (fun k => k) = some m2 ∧ m2.size_ = 2 :=
  ⟨_, rfl, rfl, by rfl, by rfl, by rfl, by rfl, by rfl, by rfl, ⟨_, by rfl, by rfl, by rfl⟩,
    ⟨_, by rfl, by rfl⟩⟩

/-- The other constructors give `size_ ≥ 2` and a table with at least `size_` slots: the
default constructor, the range constructors, the initializer-list constructor on a
non-empty list and the copy constructor of a reachable container. -/
theorem constructors_capacity [DecidableEq K] [Inhabited V] (hasher : K → Nat) :
    (2 ≤ (construct hasher : HashMap K V).size_ ∧
      (construct hasher : HashMap K V).size_ ≤ (construct hasher : HashMap K V).table_.length) ∧
    (∀ l : List (K × V), l ≠ [] → ∃ m, constructList l hasher = some m ∧ 2 ≤ m.size_ ∧
      m.size_ ≤ m.table_.length) ∧
    (∀ (src : HashMap K V) (first last : Option Nat) (imgs : List (K × V)),
      collectRange src.table_ src.table_.length first last = some imgs →
      ∃ m, constructRange src first last hasher = some m ∧ 2 ≤ m.size_ ∧
        m.size_ ≤ m.table_.length) ∧
    ∀ (src : HashMap K V) (garbage : Nat), Reachable src →
      ∃ m, copyConstruct garbage src = some m ∧ 2 ≤ m.size_ ∧ m.size_ ≤ m.table_.length := by
  have key : ∀ {m : HashMap K V} {s : List (K × V)}, Rep m s →
      2 ≤ m.size_ ∧ m.size_ ≤ m.table_.length := by
    intro m s hr
    obtain ⟨_, h2, h3⟩ := hr.load
    refine ⟨h2, ?_⟩
    rw [h3]; unfold TableSize; omega
  refine ⟨⟨by show 2 ≤ 2; omega, ?_⟩, ?_, ?_, ?_⟩
  · show 2 ≤ (resize [] (TableSize 2)).length
    rw [resize_length]; decide
  · intro l hl
    obtain ⟨_, m, h1, hr, _⟩ := constructList_rep l hasher hl
    exact ⟨m, h1, key hr⟩
  · intro src first last imgs h
    obtain ⟨m, h1, hr, _⟩ := constructRange_rep src first last hasher h
    exact ⟨m, h1, key hr⟩
  · intro src garbage hsrc
    obtain ⟨s, hr⟩ := hsrc.rep
    obtain ⟨_, _, _, m1, h1, hr1, _⟩ := assign_rep (Chain.fresh garbage src.hasher_) hr
    exact ⟨m1, h1, key hr1⟩

end HashMap

end Cpp

/-! ## The layout under insertion and removal -/

namespace Cpp

namespace HashMap

variable {K V : Type}

/-! ### Where an insertion puts a new entry -/

theorem insert_layout [DecidableEq K] {m : HashMap K V} {ix : List Nat} (hI : Inv m ix)
    (p : K × V)
    (habs : ∀ (j : Nat) (q : K × V), (slots m)[j]? = some (some q) → q.1 ≠ p.1)
    (hload : 2 * (m.num_elements_ + 1) ≤ m.size_) :
    ∃ g m1 ix1, insert m p = some m1 ∧ Inv m1 ix1 ∧
      slots m1 = (slots m).set g (some p) ∧ (slots m)[g]? = some none ∧
      home m p.1 ≤ g ∧ (∀ j, home m p.1 ≤ j → j < g → ∃ q, (slots m)[j]? = some (some q)) ∧
      m1.size_ = m.size_ ∧ m1.hasher_ = m.hasher_ ∧
      m1.num_elements_ = m.num_elements_ + 1 := by
  obtain ⟨g, hg, hi, hhome, hall⟩ := GetId_absent hI.chain hI.pos hI.len hI.load habs
  have hti : m.table_[g]? = some none := (empty_iff m g).2 hi
  obtain ⟨m1, hl, hc1, hs1, hsz, hh, hlen⟩ := link_spec hI.chain p hti
  have hnum : m1.num_elements_ = m.num_elements_ + 1 := by
    rw [hc1.num, hI.chain.num]; simp
  refine ⟨g, m1, ix ++ [g], ?_, ⟨hc1, ?_, ?_, ?_, ?_⟩, hs1, hi, hhome, hall, hsz, hh, hnum⟩
  · have : ¬ (m1.num_elements_ * 2 > m1.size_) := by rw [hnum, hsz]; omega
    simp [insert, insertFuel, hg, hti, insertIdWith, hl, this]
  · rw [hs1, hsz, hh]
    exact hI.layout.set_some habs hi hhome hall
  · rw [hsz]; exact hI.pos
  · rw [hlen, hsz]; exact hI.len
  · rw [hnum, hsz]; exact hload

/-! ### The two halves of `erase` -/

theorem erase_remove [DecidableEq K] {m : HashMap K V} {ix : List Nat} (hI : Inv m ix)
    {i : Nat} {p : K × V} (h : (slots m)[i]? = some (some p)) :
    ∃ e m2 ix2, i < e ∧ (slots m)[e]? = some none ∧
      (∀ j, i < j → j < e → ∃ q, (slots m)[j]? = some (some q)) ∧ Inv m2 ix2 ∧
      (∀ j, (slots m2)[j]? = if i ≤ j ∧ j < e then some none else (slots m)[j]?) ∧
      m2.size_ = m.size_ ∧ m2.hasher_ = m.hasher_ ∧
      m2.num_elements_ + (e - i) = m.num_elements_ ∧
      erase m p.1 = (seqOf (slots m) (List.range' (i + 1) (e - i - 1))).foldlM insert m2 := by
  have hpos := hI.pos
  have hg := GetId_present hI.layout (by omega) h
  obtain ⟨c, hcell⟩ := (occ_iff m i).2 ⟨p, h⟩
  have hmem : i ∈ ix := (hI.chain.cover i).2 ⟨c, hcell⟩
  have hilt : i < (slots m).length := lt_length_of_getElem? h
  have hh : m.hasher_ p.1 % m.size_ < m.size_ := Nat.mod_lt _ (by omega)
  have hroom : m.hasher_ p.1 % m.size_ + m.num_elements_ < m.table_.length := by
    rw [hI.len]; exact room hI.load hh
  obtain ⟨e0, he0, hemp0⟩ := hI.chain.exists_empty hroom
  have hie0 : i + 1 ≤ e0 := by
    by_contra hcon
    obtain ⟨q, hq⟩ := (hI.layout.reach i p h).2 e0 he0 (by omega)
    rw [hemp0] at hq; cases hq
  obtain ⟨e, hie, hemp, hrun⟩ := exists_first_empty (slots m) (i + 1) ⟨e0, hie0, hemp0⟩
  have helt : e < (slots m).length := lt_length_of_getElem? hemp
  obtain ⟨m1, h1, hc1, hs1, hsz1, hh1, hl1⟩ := eraseId_spec hI.chain hmem
  have hget : ∀ j, (slots m1)[j]? = if j = i then some none else (slots m)[j]? := by
    intro j; rw [hs1, getElem?_set_eq_of _ hilt]
  have hnum1 : m1.num_elements_ + 1 = m.num_elements_ := by
    rw [hc1.num, hI.chain.num, List.length_erase_of_mem hmem]
    have := List.length_pos_of_mem hmem
    omega
  obtain ⟨m2, h2, hc2, hs2, hsz2, hh2, hl2, hn2⟩ :=
    eraseLoop_spec (e - i - 1) m1 (ix.erase i) i [] m1.table_.length e hc1 (by omega)
      (by rw [hget, if_neg (by omega)]; exact hemp)
      (fun j h3 h4 => by rw [hget, if_neg (by omega)]; exact hrun j (by omega) h4)
      (by rw [hl1, ← slots_length]; omega)
  have hget2 : ∀ j, (slots m2)[j]? = if i ≤ j ∧ j < e then some none else (slots m)[j]? := by
    intro j
    rw [hs2, hget]
    by_cases hj : j = i
    · rw [if_neg (by omega), if_pos hj, if_pos ⟨by omega, by omega⟩]
    · by_cases h3 : i + 1 ≤ j ∧ j < e
      · rw [if_pos h3, if_pos ⟨by omega, h3.2⟩]
      · rw [if_neg h3, if_neg hj, if_neg (by omega)]
  have hR : seqOf (slots m1) (List.range' (i + 1) (e - i - 1)) =
      seqOf (slots m) (List.range' (i + 1) (e - i - 1)) := by
    apply seqOf_congr
    intro j hj
    rw [List.mem_range'_1] at hj
    rw [hget, if_neg (by omega)]
  rw [hR, List.nil_append] at h2
  have hI2 : Inv m2 ((ix.erase i).filter (outside (i + 1) e)) := by
    refine ⟨hc2, ?_, ?_, ?_, ?_⟩
    · rw [hsz2, hsz1, hh2, hh1]
      exact hI.layout.clear_run hemp hget2
    · rw [hsz2, hsz1]; exact hpos
    · rw [hl2, hl1, hsz2, hsz1]; exact hI.len
    · rw [hsz2, hsz1]
      have := hI.load
      omega
  refine ⟨e, m2, _, hie, hemp, fun j h4 h5 => hrun j (by omega) h5, hI2, hget2,
    hsz2.trans hsz1, hh2.trans hh1, by omega, ?_⟩
  simp only [erase, hg, hcell, h1, h2, Option.some_bind]

end HashMap

end Cpp

/-! ## Deletion as backward shift -/

namespace Cpp

namespace HashMap

variable {K V : Type}

/-! ### Re-insertion of the run is backward-shift deletion -/

theorem shiftLoop_stop (hasher : K → Nat) (sz fuel : Nat) {σ : List (Option (K × V))}
    (hole : Nat) {j : Nat} (h : σ[j]? = some none) :
    shiftLoop hasher sz (fuel + 1) σ hole j = σ := by
  simp only [shiftLoop, h]

theorem shiftLoop_move (hasher : K → Nat) (sz fuel : Nat) {σ : List (Option (K × V))}
    {hole j : Nat} {p : K × V} (h : σ[j]? = some (some p)) (hc : hasher p.1 % sz ≤ hole) :
    shiftLoop hasher sz (fuel + 1) σ hole j =
      shiftLoop hasher sz fuel ((σ.set hole (some p)).set j none) j (j + 1) := by
  simp only [shiftLoop, h, if_pos hc]

theorem shiftLoop_stay (hasher : K → Nat) (sz fuel : Nat) {σ : List (Option (K × V))}
    {hole j : Nat} {p : K × V} (h : σ[j]? = some (some p)) (hc : ¬ hasher p.1 % sz ≤ hole) :
    shiftLoop hasher sz (fuel + 1) σ hole j = shiftLoop hasher sz fuel σ hole (j + 1) := by
  simp only [shiftLoop, h, if_neg hc]

theorem reinsert_shift [DecidableEq K] {hasher : K → Nat} {sz : Nat}
    {σ : List (Option (K × V))} (hL : Layout hasher sz σ) {i e : Nat}
    (hemp : σ[e]? = some none) (hrun : ∀ x, i < x → x < e → ∃ q, σ[x]? = some (some q)) :
    ∀ (d j h : Nat) (σt : List (Option (K × V))) (m : HashMap K V) (ix : List Nat),
      j + d = e → i < j → Inv m ix → m.hasher_ = hasher → m.size_ = sz →
      2 * (m.num_elements_ + d) ≤ sz →
      (∀ x, (slots m)[x]? = if j ≤ x ∧ x < e then some none else σt[x]?) →
      σt.length = σ.length →
      (∀ x, j ≤ x → σt[x]? = σ[x]?) →
      (∀ x, x < i → σt[x]? = σ[x]?) →
      i ≤ h → h < j → σt[h]? = some none →
      (∀ x, i ≤ x → x < j → x ≠ h → ∃ q, σt[x]? = some (some q)) →
      (∀ (x : Nat) (q : K × V), x < j → σt[x]? = some (some q) →
        ∃ y, σ[y]? = some (some q) ∧ y < j) →
      ∀ fuel, d < fuel →
      ∃ m1, (seqOf σ (List.range' j d)).foldlM insert m = some m1 ∧
        slots m1 = shiftLoop hasher sz fuel σt h j := by
  intro d
  induction d with
  | zero =>
    intro j h σt m ix hjd _ _ _ _ _ hρ _ hhi _ _ _ _ _ _ fuel hfuel
    obtain ⟨f, rfl⟩ : ∃ f, fuel = f + 1 := ⟨fuel - 1, by omega⟩
    have hje : j = e := by omega
    subst hje
    refine ⟨m, by simp [seqOf], ?_⟩
    rw [shiftLoop_stop hasher sz f h ((hhi j (Nat.le_refl j)).trans hemp)]
    apply List.ext_getElem?
    intro x
    rw [hρ x, if_neg (by omega)]
  | succ d ih =>
    intro j h σt m ix hjd hij hI hh hs hload hρ hlen hhi hlo hih hhj hhole hocc horig fuel hfuel
    obtain ⟨f, rfl⟩ : ∃ f, fuel = f + 1 := ⟨fuel - 1, by omega⟩
    have hjlt : j < e := by omega
    obtain ⟨p, hp⟩ := hrun j hij hjlt
    have hσtj : σt[j]? = some (some p) := (hhi j (Nat.le_refl j)).trans hp
    have helt : e < σ.length := lt_length_of_getElem? hemp
    have hjl : j < σt.length := by omega
    have hhl : h < σt.length := by omega
    obtain ⟨hhomej, hreach⟩ := hL.reach j p hp
    have habs : ∀ (x : Nat) (q : K × V), (slots m)[x]? = some (some q) → q.1 ≠ p.1 := by
      intro x q hq hk
      rw [hρ x] at hq
      by_cases hx : j ≤ x ∧ x < e
      · rw [if_pos hx] at hq; cases hq
      · rw [if_neg hx] at hq
        by_cases hxj : x < j
        · obtain ⟨y, hy, hyj⟩ := horig x q hxj hq
          have := hL.uniq y j q p hy hp hk
          omega
        · rw [hhi x (by omega)] at hq
          have := hL.uniq x j q p hq hp hk
          omega
    have hhm : home m p.1 = hasher p.1 % sz := by unfold home; rw [hh, hs]
    obtain ⟨g, m1, ix1, h1, hI1, hs1, hg, hhome, hall, hsz1, hh1, hnum1⟩ :=
      insert_layout hI p habs (by rw [hs]; omega)
    rw [hhm] at hhome hall
    have hglt : g < (slots m).length := lt_length_of_getElem? hg
    have hget1 : ∀ x, (slots m1)[x]? = if x = g then some (some p) else (slots m)[x]? := by
      intro x; rw [hs1, getElem?_set_eq_of _ hglt]
    have hseq : seqOf σ (List.range' j (d + 1)) = p :: seqOf σ (List.range' (j + 1) d) := by
      rw [List.range'_succ, seqOf_cons_of hp]
    by_cases hc : hasher p.1 % sz ≤ h
    · -- the entry moves into the hole
      have hgh : g = h := by
        apply Nat.le_antisymm
        · by_contra hcon
          obtain ⟨q, hq⟩ := hall h hc (by omega)
          rw [hρ h, if_neg (by omega), hhole] at hq
          cases hq
        · by_contra hcon
          have hgval : (slots m)[g]? = σt[g]? := by rw [hρ g, if_neg (by omega)]
          rw [hgval] at hg
          by_cases hgi : g < i
          · rw [hlo g hgi] at hg
            obtain ⟨q, hq⟩ := hreach g hhome (by omega)
            rw [hg] at hq; cases hq
          · obtain ⟨q, hq⟩ := hocc g (by omega) (by omega) (by omega)
            rw [hg] at hq; cases hq
      subst hgh
      have hσt1 : ∀ x, ((σt.set g (some p)).set j none)[x]? =
          if x = j then some none else if x = g then some (some p) else σt[x]? := by
        intro x
        rw [getElem?_set_eq_of _ (by simpa using hjl), getElem?_set_eq_of _ hhl]
      obtain ⟨m2, h2, hs2⟩ := ih (j + 1) j ((σt.set g (some p)).set j none) m1 ix1
        (by omega) (by omega) hI1 (hh1.trans hh) (hsz1.trans hs)
        (by rw [hnum1]; omega)
        (by
          intro x
          rw [hget1, hρ x, hσt1]
          by_cases hxg : x = g
          · rw [if_pos hxg, if_neg (by omega), if_neg (by omega), if_pos hxg]
          · rw [if_neg hxg]
            by_cases hxj : x = j
            · rw [if_pos ⟨by omega, by omega⟩, if_neg (by omega), if_pos hxj]
            · rw [if_neg hxj, if_neg hxg]
              by_cases hx : j ≤ x ∧ x < e
              · rw [if_pos hx, if_pos ⟨by omega, hx.2⟩]
              · rw [if_neg hx, if_neg (by omega)])
        (by simpa using hlen)
        (by
          intro x hx
          rw [hσt1, if_neg (by omega), if_neg (by omega)]
          exact hhi x (by omega))
        (by
          intro x hx
          rw [hσt1, if_neg (by omega), if_neg (by omega)]
          exact hlo x hx)
        (by omega) (by omega)
        (by rw [hσt1, if_pos rfl])
        (by
          intro x hx1 hx2 hx3
          rw [hσt1, if_neg hx3]
          by_cases hxg : x = g
          · rw [if_pos hxg]; exact ⟨p, rfl⟩
          · rw [if_neg hxg]; exact hocc x hx1 (by omega) hxg)
        (by
          intro x q hx hq
          rw [hσt1] at hq
          by_cases hxj : x = j
          · rw [if_pos hxj] at hq; cases hq
          · rw [if_neg hxj] at hq
            by_cases hxg : x = g
            · rw [if_pos hxg] at hq
              cases hq
              exact ⟨j, hp, by omega⟩
            · rw [if_neg hxg] at hq
              obtain ⟨y, hy, hyj⟩ := horig x q (by omega) hq
              exact ⟨y, hy, by omega⟩)
        f (by omega)
      refine ⟨m2, ?_, ?_⟩
      · rw [hseq, List.foldlM_cons, h1]; exact h2
      · rw [hs2, shiftLoop_move hasher sz f hσtj hc]
    · -- the entry stays
      have hgj : g = j := by
        apply Nat.le_antisymm
        · by_contra hcon
          obtain ⟨q, hq⟩ := hall j hhomej (by omega)
          rw [hρ j, if_pos ⟨Nat.le_refl j, hjlt⟩] at hq
          cases hq
        · by_contra hcon
          have hgval : (slots m)[g]? = σt[g]? := by rw [hρ g, if_neg (by omega)]
          rw [hgval] at hg
          obtain ⟨q, hq⟩ := hocc g (by omega) (by omega) (by omega)
          rw [hg] at hq; cases hq
      subst hgj
      obtain ⟨m2, h2, hs2⟩ := ih (g + 1) h σt m1 ix1
        (by omega) (by omega) hI1 (hh1.trans hh) (hsz1.trans hs)
        (by rw [hnum1]; omega)
        (by
          intro x
          rw [hget1, hρ x]
          by_cases hxg : x = g
          · rw [if_pos hxg, if_neg (by omega), hxg, hσtj]
          · rw [if_neg hxg]
            by_cases hx : g ≤ x ∧ x < e
            · rw [if_pos hx, if_pos ⟨by omega, hx.2⟩]
            · rw [if_neg hx, if_neg (by omega)])
        hlen
        (fun x hx => hhi x (by omega))
        hlo hih (by omega) hhole
        (by
          intro x hx1 hx2 hx3
          by_cases hxg : x = g
          · rw [hxg]; exact ⟨p, hσtj⟩
          · exact hocc x hx1 (by omega) hx3)
        (by
          intro x q hx hq
          by_cases hxg : x = g
          · rw [hxg, hσtj] at hq
            cases hq
            exact ⟨g, hp, by omega⟩
          · obtain ⟨y, hy, hyj⟩ := horig x q (by omega) hq
            exact ⟨y, hy, by omega⟩)
        f (by omega)
      refine ⟨m2, ?_, ?_⟩
      · rw [hseq, List.foldlM_cons, h1]; exact h2
      · rw [hs2, shiftLoop_stay hasher sz f hσtj hc]

theorem erase_shift [DecidableEq K] {m : HashMap K V} {ix : List Nat} (hI : Inv m ix)
    {i : Nat} {p : K × V} (h : (slots m)[i]? = some (some p)) :
    ∃ m1, erase m p.1 = some m1 ∧
      slots m1 = backwardShift m.hasher_ m.size_ (slots m) i := by
  obtain ⟨e, m2, ix2, hie, hemp, hrun, hI2, hget2, hsz2, hh2, hnum2, heq⟩ := erase_remove hI h
  have hilt : i < (slots m).length := lt_length_of_getElem? h
  have helt : e < (slots m).length := lt_length_of_getElem? hemp
  have hset : ∀ x, ((slots m).set i none)[x]? = if x = i then some none else (slots m)[x]? :=
    fun x => getElem?_set_eq_of _ hilt x
  have hload := hI.load
  obtain ⟨m1, h1, hs1⟩ := reinsert_shift hI.layout hemp hrun (e - i - 1) (i + 1) i
    ((slots m).set i none) m2 ix2 (by omega) (by omega) hI2 hh2 hsz2
    (by omega)
    (by
      intro x
      rw [hget2, hset]
      by_cases hxi : x = i
      · rw [if_pos ⟨by omega, by omega⟩, if_neg (by omega), if_pos hxi]
      · rw [if_neg hxi]
        by_cases hx : i ≤ x ∧ x < e
        · rw [if_pos hx, if_pos ⟨by omega, hx.2⟩]
        · rw [if_neg hx, if_neg (by omega)])
    (by simp)
    (by intro x hx; rw [hset, if_neg (by omega)])
    (by intro x hx; rw [hset, if_neg (by omega)])
    (Nat.le_refl i) (by omega) (by rw [hset, if_pos rfl])
    (by intro x hx1 hx2 hx3; omega)
    (by
      intro x q hx hq
      rw [hset] at hq
      by_cases hxi : x = i
      · rw [if_pos hxi] at hq; cases hq
      · rw [if_neg hxi] at hq
        exact ⟨x, hq, hx⟩)
    (slots m).length (by omega)
  refine ⟨m1, heq.trans h1, ?_⟩
  rw [hs1]
  rfl

/-- C19: in every reachable state with a key stored at slot `i`, erasing that key is
defined and the layout afterwards (which pair occupies which slot) is the layout that the
standard backward-shift deletion without wrap-around produces from the layout before:
walking `j = i + 1, i + 2, ...` up to the first empty slot, the entry at `j` moves into
the hole exactly when its home index is at most the hole. -/
theorem erase_is_backward_shift [DecidableEq K] [Inhabited V] {m : HashMap K V}
    (hm : Reachable m) {i : Nat} {c : Cell K V} (hc : m.table_[i]? = some (some c)) :
    ∃ m1, erase m c.key = some m1 ∧
      slots m1 = backwardShift m.hasher_ m.size_ (slots m) i := by
  obtain ⟨s, ix, hI, _⟩ := hm.rep
  have hi : (slots m)[i]? = some (some c.image) := by rw [slots_getElem?, hc]; rfl
  exact erase_shift hI hi

/-- C19 on the example: erasing key 1 at slot 0 moves key 2 from slot 1 to slot 0 and
leaves key 3 at slot 5. -/
theorem erase_is_backward_shift_witness :
    Reachable exampleMap ∧ exampleMap.table_[0]? = some (some ⟨(1, 10), none, some 1⟩) ∧
      ∃ m1, erase exampleMap 1 = some m1 ∧
        slots m1 = [some (2, 20), none, none, none, none, some (3, 30), none, none, none,
          none, none, none] := by
  refine ⟨exampleMap_reachable, by rfl, ?_⟩
  obtain ⟨m1, h1, h2⟩ :=
    erase_is_backward_shift exampleMap_reachable
      (show exampleMap.table_[0]? = some (some ⟨(1, 10), none, some 1⟩) by rfl)
  exact ⟨m1, h1, h2.trans (by decide)⟩

end HashMap

end Cpp

/-! ## Bounds of the probe, also in the state before a rebuild -/

namespace Cpp

namespace HashMap

variable {K V : Type}

/-! ### Room in the table in the state before a rebuild -/

/-- With a logical capacity above 8, one entry more than the load bound allows still
leaves an empty slot at or after every home index. -/
theorem room_before_rebuild {sz n s : Nat} (hsz : 8 < sz) (hload : 2 * n ≤ sz)
    (hs : s < sz) : s + (n + 1) < TableSize sz := by
  unfold TableSize
  omega

theorem GetId_absent_of_room [DecidableEq K] {m : HashMap K V} {ix : List Nat}
    (hc : Chain m ix) (hsz : m.size_ ≠ 0) {key : K}
    (hroom : home m key + m.num_elements_ < m.table_.length)
    (habs : ∀ (j : Nat) (q : K × V), (slots m)[j]? = some (some q) → q.1 ≠ key) :
    ∃ i, GetId m key = some i ∧ (slots m)[i]? = some none := by
  obtain ⟨e, h1, h2, h3⟩ := exists_first_empty (slots m) (home m key) (hc.exists_empty hroom)
  refine ⟨e, ?_, h2⟩
  apply GetId_eq hsz h1
  · intro j hj1 hj2
    obtain ⟨q, hq⟩ := h3 j hj1 hj2
    exact ⟨q, hq, habs j q hq⟩
  · left; exact h2

/-- The scan of `erase` from an occupied slot stops at an empty slot inside the table, as
soon as there is room after every home index. -/
theorem scan_end_of_room {m : HashMap K V} {ix : List Nat} (hc : Chain m ix)
    (hL : Layout m.hasher_ m.size_ (slots m)) (hpos : 2 ≤ m.size_)
    (hroom : ∀ s, s < m.size_ → s + m.num_elements_ < m.table_.length)
    {i : Nat} {p : K × V} (h : (slots m)[i]? = some (some p)) :
    ∃ e, i + 1 ≤ e ∧ (slots m)[e]? = some none ∧
      ∀ j, i + 1 ≤ j → j < e → ∃ q, (slots m)[j]? = some (some q) := by
  have hh : m.hasher_ p.1 % m.size_ < m.size_ := Nat.mod_lt _ (by omega)
  obtain ⟨e0, he0, hemp0⟩ := hc.exists_empty (hroom _ hh)
  have hie0 : i + 1 ≤ e0 := by
    by_contra hcon
    obtain ⟨q, hq⟩ := (hL.reach i p h).2 e0 he0 (by omega)
    rw [hemp0] at hq; cases hq
  exact exists_first_empty (slots m) (i + 1) ⟨e0, hie0, hemp0⟩

/-- The method `erase` is defined on a present key in every state that satisfies the
invariant up to one entry above the load bound, provided there is room after every home
index. -/
theorem erase_defined_of_room [DecidableEq K] {m : HashMap K V} {ix : List Nat}
    (hc : Chain m ix) (hL : Layout m.hasher_ m.size_ (slots m)) (hpos : 2 ≤ m.size_)
    (hlen : m.table_.length = TableSize m.size_)
    (hroom : ∀ s, s < m.size_ → s + m.num_elements_ < m.table_.length)
    (hload : 2 * (m.num_elements_ - 1) ≤ m.size_)
    {i : Nat} {p : K × V} (h : (slots m)[i]? = some (some p)) :
    ∃ m1, erase m p.1 = some m1 := by
  have hg := GetId_present hL (by omega) h
  obtain ⟨c, hcell⟩ := (occ_iff m i).2 ⟨p, h⟩
  have hmem : i ∈ ix := (hc.cover i).2 ⟨c, hcell⟩
  have hilt : i < (slots m).length := lt_length_of_getElem? h
  obtain ⟨e, hie, hemp, hrun⟩ := scan_end_of_room hc hL hpos hroom h
  have helt : e < (slots m).length := lt_length_of_getElem? hemp
  obtain ⟨m1, h1, hc1, hs1, hsz1, hh1, hl1⟩ := eraseId_spec hc hmem
  have hget : ∀ j, (slots m1)[j]? = if j = i then some none else (slots m)[j]? := by
    intro j; rw [hs1, getElem?_set_eq_of _ hilt]
  have hnum1 : m1.num_elements_ + 1 = m.num_elements_ := by
    rw [hc1.num, hc.num, List.length_erase_of_mem hmem]
    have := List.length_pos_of_mem hmem
    omega
  obtain ⟨m2, h2, hc2, hs2, hsz2, hh2, hl2, hn2⟩ :=
    eraseLoop_spec (e - i - 1) m1 (ix.erase i) i [] m1.table_.length e hc1 (by omega)
      (by rw [hget, if_neg (by omega)]; exact hemp)
      (fun j h3 h4 => by rw [hget, if_neg (by omega)]; exact hrun j (by omega) h4)
      (by rw [hl1, ← slots_length]; omega)
  have hget2 : ∀ j, (slots m2)[j]? = if i ≤ j ∧ j < e then some none else (slots m)[j]? := by
    intro j
    rw [hs2, hget]
    by_cases hj : j = i
    · rw [if_neg (by omega), if_pos hj, if_pos ⟨by omega, by omega⟩]
    · by_cases h3 : i + 1 ≤ j ∧ j < e
      · rw [if_pos h3, if_pos ⟨by omega, h3.2⟩]
      · rw [if_neg h3, if_neg hj, if_neg (by omega)]
  have hR : seqOf (slots m1) (List.range' (i + 1) (e - i - 1)) =
      seqOf (slots m) (List.range' (i + 1) (e - i - 1)) := by
    apply seqOf_congr
    intro j hj
    rw [List.mem_range'_1] at hj
    rw [hget, if_neg (by omega)]
  rw [hR, List.nil_append] at h2
  have hI2 : Inv m2 ((ix.erase i).filter (outside (i + 1) e)) := by
    refine ⟨hc2, ?_, ?_, ?_, ?_⟩
    · rw [hsz2, hsz1, hh2, hh1]
      exact hL.clear_run hemp hget2
    · rw [hsz2, hsz1]; exact hpos
    · rw [hl2, hl1, hsz2, hsz1]; exact hlen
    · rw [hsz2, hsz1]
      omega
  obtain ⟨m3, _, h3, _⟩ :=
    foldlM_insert_fit insert (fun m p => ⟨m.table_.length + 1, rfl⟩)
      (seqOf (slots m) (List.range' (i + 1) (e - i - 1))) m2 _ hI2
      (seqOf_keys_nodup hL (List.nodup_range' _ _))
      (by
        intro q hq hmem2
        obtain ⟨j, hj, hjq⟩ := mem_seqOf.1 hq
        rw [List.mem_range'_1] at hj
        obtain ⟨q2, hq2, hk⟩ := List.mem_map.1 hmem2
        obtain ⟨j2, _, hj2q⟩ := mem_seqOf.1 hq2
        rw [hget2] at hj2q
        by_cases hin : i ≤ j2 ∧ j2 < e
        · rw [if_pos hin] at hj2q; cases hj2q
        · rw [if_neg hin] at hj2q
          have := hL.uniq j2 j q2 q hj2q hjq hk
          omega)
      (by
        rw [seqOf_length (fun j hj => by
          rw [List.mem_range'_1] at hj
          exact hrun j hj.1 (by omega)), List.length_range', hsz2, hsz1]
        omega)
  refine ⟨m3, ?_⟩
  simp only [erase, hg, hcell, h1, h2, Option.some_bind]
  exact h3

/-- The state inside `insert` after the new cell is linked and counted, before the load
check: the slot written is inside the table, and with a logical capacity above 8 every
probe in that state ends inside the table, the scan of `erase` from every occupied slot
stops at an empty slot inside the table, and `erase` is defined, whether or not a rebuild
follows. -/
theorem before_rebuild_bounds [DecidableEq K] {m : HashMap K V} {ix : List Nat}
    (hI : Inv m ix) {key : K} (v : V)
    (habs : ∀ (j : Nat) (q : K × V), (slots m)[j]? = some (some q) → q.1 ≠ key) :
    ∃ i t, GetId m key = some i ∧ i < m.table_.length ∧ link m (key, v) i = some t ∧
      t.size_ = m.size_ ∧ t.table_.length = m.table_.length ∧
      t.num_elements_ = m.num_elements_ + 1 ∧
      (8 < m.size_ → ∀ k2 : K,
        (∃ i2, GetId t k2 = some i2 ∧ i2 < t.table_.length) ∧
        (∀ (j : Nat) (c : Cell K V), t.table_[j]? = some (some c) →
          ∃ e, j < e ∧ e < t.table_.length ∧ t.table_[e]? = some none ∧
            ∀ j2, j < j2 → j2 < e → ∃ d, t.table_[j2]? = some (some d)) ∧
        ∃ t1, erase t k2 = some t1) := by
  obtain ⟨i, t, hg, hti, hl, hc1, hL1, _, hsz, hh, hlen⟩ := insert_link hI v habs
  have hnum : t.num_elements_ = m.num_elements_ + 1 := by
    rw [hc1.num, hI.chain.num]; simp
  have hpos : 2 ≤ t.size_ := by rw [hsz]; exact hI.pos
  refine ⟨i, t, hg, lt_length_of_getElem? hti, hl, hsz, hlen, hnum, ?_⟩
  intro h8 k2
  have hroom : ∀ s, s < t.size_ → s + t.num_elements_ < t.table_.length := by
    intro s hs
    rw [hnum, hlen, hI.len]
    rw [hsz] at hs
    exact room_before_rebuild h8 hI.load hs
  have hscan : ∀ (j : Nat) (c : Cell K V), t.table_[j]? = some (some c) →
      ∃ e, j < e ∧ e < t.table_.length ∧ t.table_[e]? = some none ∧
        ∀ j2, j < j2 → j2 < e → ∃ d, t.table_[j2]? = some (some d) := by
    intro j c hc
    have hj : (slots t)[j]? = some (some c.image) := by rw [slots_getElem?, hc]; rfl
    obtain ⟨e, hje, hemp, hrun⟩ := scan_end_of_room hc1 hL1 hpos hroom hj
    have hemp2 := (empty_iff t e).2 hemp
    exact ⟨e, hje, lt_length_of_getElem? hemp2, hemp2,
      fun j2 h1 h2 => (occ_iff t j2).2 (hrun j2 h1 h2)⟩
  by_cases hk : ∃ (j : Nat) (q : K × V), (slots t)[j]? = some (some q) ∧ q.1 = k2
  · obtain ⟨j, q, hq, hqk⟩ := hk
    have hg2 := GetId_present hL1 (by omega) hq
    rw [hqk] at hg2
    refine ⟨⟨j, hg2, ?_⟩, hscan, ?_⟩
    · rw [← slots_length]; exact lt_length_of_getElem? hq
    · obtain ⟨t1, h1⟩ := erase_defined_of_room hc1 hL1 hpos (by rw [hlen, hsz]; exact hI.len)
        hroom (by rw [hnum]; have := hI.load; rw [hsz]; omega) hq
      rw [hqk] at h1
      exact ⟨t1, h1⟩
  · have habs2 : ∀ (j : Nat) (q : K × V), (slots t)[j]? = some (some q) → q.1 ≠ k2 :=
      fun j q hq hqk => hk ⟨j, q, hq, hqk⟩
    have hhome : home t k2 < t.size_ := Nat.mod_lt _ (by omega)
    obtain ⟨g, hg2, hemp⟩ := GetId_absent_of_room hc1 (by omega) (hroom _ hhome) habs2
    have hemp2 := (empty_iff t g).2 hemp
    refine ⟨⟨g, hg2, lt_length_of_getElem? hemp2⟩, hscan, t, ?_⟩
    simp [erase, hg2, hemp2]

/-! ### Bounds of the probe and of the scan of `erase` -/

/-- C13, as the specification states it, fails in the transient state for the logical
capacities 2, 4 and 8.  In `exampleOne` (reachable, `size_` 2, three slots) the insertion
of key 2 probes to slot 2 and links it; in the state just before the rebuild a probe for
key 3 reads `table_[3]`, past the end of the table, and so does the scan `table_[id + 1]`
of `erase` for key 2.  The same happens in `exampleFour` (`size_` 4, six slots, read of
`table_[6]`) and in `exampleEight` (`size_` 8, twelve slots, read of `table_[12]`). -/
theorem transient_probe_counterexample :
    (Reachable exampleOne ∧ GetId exampleOne 2 = some 2 ∧
      link exampleOne (2, 20) 2 = some exampleTransient ∧
      exampleTransient.size_ < exampleTransient.num_elements_ * 2 ∧
      exampleTransient.table_.length = 3 ∧
      GetId exampleTransient 3 = none ∧ erase exampleTransient 2 = none) ∧
    (Reachable exampleFour ∧ exampleFour.size_ = 4 ∧ GetId exampleFour 3 = some 5 ∧
      ∃ t, link exampleFour (3, 30) 5 = some t ∧ t.size_ < t.num_elements_ * 2 ∧
        t.table_.length = 6 ∧ GetId t 4 = none ∧ erase t 3 = none) ∧
    (Reachable exampleEight ∧ exampleEight.size_ = 8 ∧ GetId exampleEight 5 = some 11 ∧
      ∃ t, link exampleEight (5, 50) 11 = some t ∧ t.size_ < t.num_elements_ * 2 ∧
        t.table_.length = 12 ∧ GetId t 6 = none ∧ erase t 5 = none) :=
  ⟨⟨Reachable.insert (1, 10) (Reachable.construct fun _ => 1) (by rfl), by rfl, by rfl,
      by decide, by rfl, by rfl, by rfl⟩,
    ⟨reachable_foldlM [(1, 10), (2, 20)] (Reachable.construct fun _ => 3) (by rfl), rfl,
      by rfl, _, by rfl, by decide, by rfl, by rfl, by rfl⟩,
    ⟨reachable_foldlM [(1, 10), (2, 20), (3, 30), (4, 40)] (Reachable.construct fun _ => 7)
        (by rfl), rfl,
      by rfl, _, by rfl, by decide, by rfl, by rfl, by rfl⟩⟩

/-- C13, amended.  In every reachable state, for every hash function and every key, the
probe of `GetId` ends at an index below the table length; after every occupied slot there
is an empty slot below the table length, where the scan of `erase` stops; `erase` and
`insert` are defined, so that no access of theirs leaves the table.  In the state inside
`insert` after the new cell is linked and counted (the state in which the load check may
call `Rebuild`) the slot written lies inside the table, and when `size_` is above 8 the
same bounds hold in that state: every probe ends below the table length, every scan of
`erase` stops at an empty slot below the table length, and `erase` is defined. -/
theorem probe_in_bounds [DecidableEq K] [Inhabited V] {m : HashMap K V} (hm : Reachable m)
    (k : K) (v : V) :
    (∃ i, GetId m k = some i ∧ i < m.table_.length) ∧
    (∀ (i : Nat) (c : Cell K V), m.table_[i]? = some (some c) →
      ∃ e, i < e ∧ e < m.table_.length ∧ m.table_[e]? = some none ∧
        ∀ j, i < j → j < e → ∃ d, m.table_[j]? = some (some d)) ∧
    (∃ m1, erase m k = some m1) ∧
    (∃ m1, insert m (k, v) = some m1) ∧
    (find m k = some m.end_ →
      ∃ i t, GetId m k = some i ∧ i < m.table_.length ∧ link m (k, v) i = some t ∧
        t.size_ = m.size_ ∧ t.table_.length = m.table_.length ∧
        t.num_elements_ = m.num_elements_ + 1 ∧
        (8 < m.size_ → ∀ k2 : K,
          (∃ i2, GetId t k2 = some i2 ∧ i2 < t.table_.length) ∧
          (∀ (j : Nat) (c : Cell K V), t.table_[j]? = some (some c) →
            ∃ e, j < e ∧ e < t.table_.length ∧ t.table_[e]? = some none ∧
              ∀ j2, j < j2 → j2 < e → ∃ d, t.table_[j2]? = some (some d)) ∧
          ∃ t1, erase t k2 = some t1)) := by
  obtain ⟨s, hr⟩ := hm.rep
  refine ⟨?_, ?_, ?_, ?_, ?_⟩
  · by_cases hk : k ∈ s.map Prod.fst
    · obtain ⟨p, hp, hpk⟩ := List.mem_map.1 hk
      obtain ⟨i, c, hg, hc, _⟩ := hr.lookup_present hp
      rw [hpk] at hg
      exact ⟨i, hg, lt_length_of_getElem? hc⟩
    · obtain ⟨i, hg, hi⟩ := hr.lookup_absent hk
      exact ⟨i, hg, lt_length_of_getElem? hi⟩
  · intro i c hc
    obtain ⟨ix, hI, _⟩ := hr
    have hi : (slots m)[i]? = some (some c.image) := by rw [slots_getElem?, hc]; rfl
    obtain ⟨e, _, _, hie, hemp, hrun, _⟩ := erase_present hI hi
    have hemp2 := (empty_iff m e).2 hemp
    exact ⟨e, hie, lt_length_of_getElem? hemp2, hemp2,
      fun j h1 h2 => (occ_iff m j).2 (hrun j h1 h2)⟩
  · obtain ⟨m1, _, h1, _⟩ := erase_rep hr k
    exact ⟨m1, h1⟩
  · obtain ⟨m1, h1, _⟩ := insert_rep hr (k, v)
    exact ⟨m1, h1⟩
  · intro hf
    have hk : k ∉ s.map Prod.fst := (hr.find_iff k).1 hf
    obtain ⟨ix, hI, hs⟩ := hr
    exact before_rebuild_bounds hI v (hI.absent (by rw [hs]; exact hk))

/-- C13, amended, on the example with eight keys at home slot 15 and `size_` 16 (25
slots): the insertion of key 9 probes to slot 23 and links it there; in the state before
the rebuild, with nine entries, the probe for key 10 ends at slot 24 and `erase` of key 9
is defined. -/
theorem probe_in_bounds_witness :
    Reachable exampleSixteen ∧ find exampleSixteen 9 = some exampleSixteen.end_ ∧
      8 < exampleSixteen.size_ ∧
      ∃ t, link exampleSixteen (9, 90) 23 = some t ∧ t.size_ < t.num_elements_ * 2 ∧
        t.table_.length = 25 ∧ (∃ i2, GetId t 10 = some i2 ∧ i2 < 25) ∧
        ∃ t1, erase t 9 = some t1 := by
  have hr : Reachable exampleSixteen :=
    reachable_foldlM [(1, 10), (2, 20), (3, 30), (4, 40), (5, 50), (6, 60), (7, 70), (8, 80)]
      (Reachable.construct fun _ => 15) (by rfl)
  have hf : find exampleSixteen 9 = some exampleSixteen.end_ := by rfl
  obtain ⟨_, _, _, _, h5⟩ := probe_in_bounds hr 9 90
  obtain ⟨i, t, hg, _, hl, hsz, hlen, hnum, htr⟩ := h5 hf
  have hi : i = 23 := Option.some.inj (hg.symm.trans (by rfl))
  subst hi
  obtain ⟨⟨i2, h1, h2⟩, _, h3⟩ := htr (by decide) 10
  obtain ⟨_, _, h4⟩ := htr (by decide) 9
  refine ⟨hr, hf, by decide, t, hl, ?_, ?_, ⟨i2, h1, ?_⟩, h4⟩
  · rw [hsz, hnum]; decide
  · rw [hlen]; rfl
  · rw [hlen] at h2; exact h2

end HashMap

end Cpp
